import Mathlib

/-!
# Contour normalisation pipeline of `imageProcessing.cpp`

A shallow embedding of the geometric part of `src/imageProcessing.cpp`
(`removal_elt`, `distance`, `contours_thresholding`, the forward and inverse
affine transformations, `correction_distortion` and the extent normalisation)
together with theorems about it.

Conventions of the embedding.

* `cv::Point` is a pair of integers, `cv::Point2f` a pair of numbers of an
  ordered field (exact arithmetic: rounding is not modelled).
* A floating-point operation whose result may fail to be a finite number
  (a division whose divisor may vanish, a square root) yields an `FVal`:
  a finite number, plus or minus infinity, or NaN, with the IEEE 754 rules.
  A function whose result would hold such a value ends in `Fault.nonFinite`.
* Reading a `std::vector` outside its bounds is undefined behaviour; the
  embedding stops there with `Fault.outOfBounds`.
* Machine integers are unbounded integers, with an explicit reduction
  modulo `2^32` or `2^64` where the source relies on wrap-around.
-/

namespace imageprocessing

/-! ## Data model -/

/-- Integer pixel position, `cv::Point`. -/
structure Point where
  x : Int
  y : Int
deriving DecidableEq, Repr

/-- Position with fractional coordinates, `cv::Point2f`, over exact arithmetic. -/
structure Point2f (α : Type) where
  x : α
  y : α
deriving DecidableEq, Repr

/-- Conversion `cv::Point` to `cv::Point2f` (exact). -/
def Point.toPoint2f {α : Type} [IntCast α] (p : Point) : Point2f α :=
  ⟨(p.x : α), (p.y : α)⟩

/-- Ways in which the embedded code leaves the domain of the model. -/
inductive Fault where
  | outOfBounds
  | divByZero
  | nonFinite
  | outOfFuel
deriving DecidableEq, Repr

/-- Bounds-checked stand-in for `v[i]` on a `std::vector`. -/
def vecGet {β : Type} (v : List β) (i : Nat) : Except Fault β :=
  match v[i]? with
  | some b => .ok b
  | none => .error .outOfBounds

/-! ## Floating-point values that need not be finite -/

/-- Result of a floating-point operation over exact arithmetic. -/
inductive FVal (α : Type) where
  | fin (v : α)
  | pinf
  | ninf
  | nan
deriving DecidableEq, Repr

namespace FVal

variable {α : Type} [LinearOrderedField α]

/-- IEEE 754 division `x / y` (a zero is taken as positive zero). -/
def div : FVal α → FVal α → FVal α
  | fin x, fin y =>
      if y = 0 then (if x = 0 then nan else if 0 < x then pinf else ninf)
      else fin (x / y)
  | fin _, pinf => fin 0
  | fin _, ninf => fin 0
  | pinf, fin y => if 0 ≤ y then pinf else ninf
  | ninf, fin y => if 0 ≤ y then ninf else pinf
  | _, _ => nan

/-- IEEE 754 multiplication `x * y`. -/
def mul : FVal α → FVal α → FVal α
  | fin x, fin y => fin (x * y)
  | fin x, pinf => if x = 0 then nan else if 0 < x then pinf else ninf
  | fin x, ninf => if x = 0 then nan else if 0 < x then ninf else pinf
  | pinf, fin y => if y = 0 then nan else if 0 < y then pinf else ninf
  | ninf, fin y => if y = 0 then nan else if 0 < y then ninf else pinf
  | pinf, pinf => pinf
  | ninf, ninf => pinf
  | pinf, ninf => ninf
  | ninf, pinf => ninf
  | _, _ => nan

/-- Comparison `x < t` against a finite number; false for NaN. -/
def lt (x : FVal α) (t : α) : Bool :=
  match x with
  | fin v => decide (v < t)
  | ninf => true
  | _ => false

/-- Comparison `x > t` against a finite number; false for NaN. -/
def gt (x : FVal α) (t : α) : Bool :=
  match x with
  | fin v => decide (t < v)
  | pinf => true
  | _ => false

/-- The finite number held, or `Fault.nonFinite`. -/
def toExcept : FVal α → Except Fault α
  | fin v => .ok v
  | _ => .error .nonFinite

end FVal

/-- IEEE 754 square root: NaN below zero. -/
noncomputable def fsqrt (x : ℝ) : FVal ℝ :=
  if x < 0 then .nan else .fin (Real.sqrt x)

/-! ## `distance` -/

/-- Altitude over the base `po pf` of the triangle `po pf pc`, by Heron. The source
evaluates this expression in binary32; here it is evaluated over the reals, with the IEEE
special values kept (NaN for a negative radicand and for `0 / 0`). The two agree on a
degenerate edge `po = pf` (NaN) and for `pc = po` or `pc = pf` on a non-degenerate edge
(exactly `0`); for other points close to the line `po pf` the rounded radicand can fall
below zero where the exact one is zero or positive. -/
noncomputable def distance (po pf pc : Point) : FVal ℝ :=
  let pox : ℝ := po.x
  let poy : ℝ := po.y
  let pfx : ℝ := pf.x
  let pfy : ℝ := pf.y
  let pcx : ℝ := pc.x
  let pcy : ℝ := pc.y
  let a := Real.sqrt ((pfx - pox) ^ 2 + (pfy - poy) ^ 2)
  let b := Real.sqrt ((pcx - pox) ^ 2 + (pcy - poy) ^ 2)
  let c := Real.sqrt ((pfx - pcx) ^ 2 + (pfy - pcy) ^ 2)
  let s := (a + b + c) / 2
  let area := fsqrt (s * (s - a) * (s - b) * (s - c))
  let altitude := FVal.div (FVal.mul (.fin 2) area) (.fin a)
  altitude

/-! ## `contours_thresholding` -/

/-- Index update `hull_idx = ((hull_idx - 1) + size) % size`: `hull_idx - 1` is an
`int` converted to the 64-bit `size_t` of `size`. -/
def prev_hull_idx (hull_idx : Int) (size : Nat) : Int :=
  (((hull_idx - 1) % 18446744073709551616 + (size : Int)) % 18446744073709551616) % (size : Int)

/-- The loop `while (current_hull_point != contour_point)`: one unit of fuel per test. -/
def hull_search (hull : List Point) (contour_point : Point) :
    Nat → Nat → Point → Except Fault (Nat × Point)
  | 0, _, _ => .error .outOfFuel
  | fuel + 1, hull_idx, current_hull_point =>
      if current_hull_point ≠ contour_point then
        match vecGet hull (hull_idx + 1) with
        | .ok q => hull_search hull contour_point fuel (hull_idx + 1) q
        | .error e => .error e
      else .ok (hull_idx, current_hull_point)

/-- The loop over the points of one contour; `near` is the test
`distance(current_hull_point, next_hull_point, contour_point) < dist_threshold`. -/
def hull_walk (near : Point → Point → Point → Bool) (hull : List Point) :
    List Point → Int → Point → Point → List Point → Except Fault (List Point)
  | [], _, _, _, good_contour => .ok good_contour
  | contour_point :: rest, hull_idx, current_hull_point, next_hull_point, good_contour =>
      let good_contour :=
        if near current_hull_point next_hull_point contour_point
        then good_contour ++ [contour_point] else good_contour
      if next_hull_point = contour_point then
        match vecGet hull hull_idx.toNat with
        | .error e => .error e
        | .ok current_hull_point =>
          let hull_idx := prev_hull_idx hull_idx hull.length
          match vecGet hull hull_idx.toNat with
          | .error e => .error e
          | .ok next_hull_point =>
            hull_walk near hull rest hull_idx current_hull_point next_hull_point good_contour
      else
        hull_walk near hull rest hull_idx current_hull_point next_hull_point good_contour

/-- Body of the loop over `contour_idx`, for one hull and its contour. -/
def threshold_contour (near : Point → Point → Point → Bool) (hull contour : List Point) :
    Except Fault (List Point) :=
  match vecGet hull 0 with
  | .error e => .error e
  | .ok current_hull_point =>
    match vecGet contour 0 with
    | .error e => .error e
    | .ok contour_point =>
      match hull_search hull contour_point hull.length 0 current_hull_point with
      | .error e => .error e
      | .ok (hull_idx, current_hull_point) =>
        let hull_idx := prev_hull_idx hull_idx hull.length
        match vecGet hull hull_idx.toNat with
        | .error e => .error e
        | .ok next_hull_point =>
          hull_walk near hull contour hull_idx current_hull_point next_hull_point []

/-- The loop `for contour_idx < contours.size()`, from index `contour_idx` on. -/
def contours_thresholding_from (near : Point → Point → Point → Bool)
    (hull_contours : List (List Point)) :
    List (List Point) → Nat → List (List Point) → Except Fault (List (List Point))
  | [], _, final_contours => .ok final_contours
  | contour :: rest, contour_idx, final_contours =>
      match vecGet hull_contours contour_idx with
      | .error e => .error e
      | .ok hull =>
        match threshold_contour near hull contour with
        | .error e => .error e
        | .ok good_contour =>
          contours_thresholding_from near hull_contours rest (contour_idx + 1)
            (final_contours ++ [good_contour])

/-- The keep test of `contours_thresholding`. -/
noncomputable def near_hull_edge (dist_threshold : ℝ) (po pf pc : Point) : Bool :=
  FVal.lt (distance po pf pc) dist_threshold

/-- Remove the inconsistent points inside each contour. -/
noncomputable def contours_thresholding (hull_contours contours : List (List Point))
    (dist_threshold : ℝ) : Except Fault (List (List Point)) :=
  contours_thresholding_from (near_hull_edge dist_threshold) hull_contours contours 0 []

/-! ## `removal_elt` -/

/-- Rectangle `cv::Rect`. -/
structure Rect where
  x : Int
  y : Int
  width : Int
  height : Int
deriving DecidableEq, Repr

/-- Image size `cv::Size`. -/
structure Size where
  width : Int
  height : Int
deriving DecidableEq, Repr

/-- Hierarchy entry `cv::Vec4i`. -/
structure Vec4i where
  v0 : Int
  v1 : Int
  v2 : Int
  v3 : Int
deriving DecidableEq, Repr

/-- Area `width * height` of a rectangle. -/
def Rect.area (r : Rect) : Int := r.width * r.height

/-- Area `width * height` of an image size. -/
def Size.area (s : Size) : Int := s.width * s.height

/-- The condition of the `if` of `removal_elt` for one contour, given its bounding
rectangle: `areaRegion < size_image.area() / areaRatio || ratio > highAspectRatio ||
ratio < lowAspectRatio`, the quotient being the truncating integer division. -/
def inconsistent (bound_rect : Rect) (size_image : Size) (areaRatio : Int)
    (lowAspectRatio highAspectRatio : ℚ) : Bool :=
  let ratio : FVal ℚ := FVal.div (.fin (bound_rect.width : ℚ)) (.fin (bound_rect.height : ℚ))
  let areaRegion : Int := bound_rect.area
  (decide (areaRegion < Int.tdiv size_image.area areaRatio))
    || (FVal.gt ratio highAspectRatio || FVal.lt ratio lowAspectRatio)

/-- The check of one contour; an integer division by `areaRatio = 0` is a fault.
`boundingRect` stands for `cv::boundingRect`. -/
def check_inconsistency (boundingRect : List Point → Rect) (size_image : Size) (areaRatio : Int)
    (lowAspectRatio highAspectRatio : ℚ) (contour : List Point) : Except Fault Bool :=
  if areaRatio = 0 then .error .divByZero
  else .ok (inconsistent (boundingRect contour) size_image areaRatio
    lowAspectRatio highAspectRatio)

/-- The loop `for (unsigned int i = 0; i < contours.size(); i++)` of `removal_elt`, one unit
of fuel per iteration; `i` is a 32-bit unsigned index, so `i--` and `i++` wrap. -/
def removal_elt_loop (check : List Point → Except Fault Bool) :
    Nat → List (List Point) → List Vec4i → Nat → Except Fault (List (List Point) × List Vec4i)
  | 0, contours, hierarchy, i =>
      if i < contours.length then .error .outOfFuel else .ok (contours, hierarchy)
  | fuel + 1, contours, hierarchy, i =>
      if i < contours.length then
        match vecGet contours i with
        | .error e => .error e
        | .ok contour =>
          match check contour with
          | .error e => .error e
          | .ok true =>
            if i < hierarchy.length then
              let contours := contours.eraseIdx i
              let hierarchy := hierarchy.eraseIdx i
              let i := (i + 4294967296 - 1) % 4294967296
              removal_elt_loop check fuel contours hierarchy ((i + 1) % 4294967296)
            else .error .outOfBounds
          | .ok false =>
            removal_elt_loop check fuel contours hierarchy ((i + 1) % 4294967296)
      else .ok (contours, hierarchy)

/-- Remove the ill-posed contours. `contours` is passed by reference and `hierarchy` by
value: the result is what the caller holds after the call, the filtered contours and its
own hierarchy, which the function cannot modify. -/
def removal_elt (boundingRect : List Point → Rect) (contours : List (List Point))
    (hierarchy : List Vec4i) (size_image : Size) (areaRatio : Int)
    (lowAspectRatio highAspectRatio : ℚ) : Except Fault (List (List Point) × List Vec4i) :=
  match removal_elt_loop
      (check_inconsistency boundingRect size_image areaRatio lowAspectRatio highAspectRatio)
      contours.length contours hierarchy 0 with
  | .error e => .error e
  | .ok (contours, _) => .ok (contours, hierarchy)

/-- Bounding rectangle of integer points as `cv::boundingRect` computes it: the smallest
upright rectangle that contains them, of width `max x - min x + 1`. -/
def boundingRect : List Point → Rect
  | [] => ⟨0, 0, 0, 0⟩
  | p :: ps =>
      let xmin := ps.foldl (fun m q => min m q.x) p.x
      let xmax := ps.foldl (fun m q => max m q.x) p.x
      let ymin := ps.foldl (fun m q => min m q.y) p.y
      let ymax := ps.foldl (fun m q => max m q.y) p.y
      ⟨xmin, ymin, xmax - xmin + 1, ymax - ymin + 1⟩

/-! ## Extent normalisation -/

section Extent

variable {α : Type} [LinearOrderedField α]

/-- Maximum reported by `cv::minMaxIdx(m, NULL, &max, NULL, NULL)` for a one-row matrix:
the largest entry, and `0` for a matrix without entries. -/
def minMaxIdx_max : List α → α
  | [] => 0
  | x :: xs => xs.foldl max x

/-- Function to find normalisation factor. -/
def find_normalisation_factor (contour : List (Point2f α)) : α :=
  let contour_x := contour.map (fun p => |p.x|)
  let contour_y := contour.map (fun p => |p.y|)
  let max_x := minMaxIdx_max contour_x
  let max_y := minMaxIdx_max contour_y
  max max_x max_y

/-- Product `point * b` of a point and a number that need not be finite. -/
def scale_point (point : Point2f α) (b : FVal α) : Except Fault (Point2f α) :=
  match (FVal.mul (.fin point.x) b).toExcept, (FVal.mul (.fin point.y) b).toExcept with
  | .ok x, .ok y => .ok ⟨x, y⟩
  | _, _ => .error .nonFinite

/-- The loop `output_contour[i] = contour[i] * b`. -/
def scale_contour : List (Point2f α) → FVal α → Except Fault (List (Point2f α))
  | [], _ => .ok []
  | point :: rest, b =>
      match scale_point point b with
      | .error e => .error e
      | .ok q =>
        match scale_contour rest b with
        | .error e => .error e
        | .ok qs => .ok (q :: qs)

/-- Function to normalize a contour: the output contour (`Fault.nonFinite` when it holds
a NaN or an infinity) and the factor stored through the reference `factor`. -/
def normalise_contour (contour : List (Point2f α)) : Except Fault (List (Point2f α)) × α :=
  let factor := find_normalisation_factor contour
  (scale_contour contour (FVal.div (.fin 1) (.fin factor)), factor)

/-- Function to denormalize a contour. -/
def denormalise_contour (contour : List (Point2f α)) (factor : α) :
    Except Fault (List (Point2f α)) :=
  scale_contour contour (.fin factor)

end Extent

/-! ## Forward and inverse transformation -/

section Affine

variable {α : Type} [Field α] [DecidableEq α]

/-- Result of `cv::Mat::inv()` (LU method) on a 3x3 matrix: the inverse, and the zero
matrix for a singular matrix. -/
def mat_inv (m : Matrix (Fin 3) (Fin 3) α) : Matrix (Fin 3) (Fin 3) α :=
  if m.det = 0 then 0 else (m.det)⁻¹ • m.adjugate

/-- The part shared by both transformations: the contour as a `3 x n` matrix of
homogeneous columns `(x, y, 1)`, its product with `transform_matrix`, and rows 0 and 1 of
the product read back as points. -/
def transform_points (transform_matrix : Matrix (Fin 3) (Fin 3) α) (contour : List Point) :
    List (Point2f α) :=
  let tmp_original_contour : Matrix (Fin 3) (Fin contour.length) α :=
    fun r contour_point_idx =>
      if r = 0 then ((contour.get contour_point_idx).x : α)
      else if r = 1 then ((contour.get contour_point_idx).y : α)
      else 1
  let tmp_transformed_contour := transform_matrix * tmp_original_contour
  List.ofFn (fun contour_point_idx =>
    ⟨tmp_transformed_contour 0 contour_point_idx, tmp_transformed_contour 1 contour_point_idx⟩)

/-- Function to make forward transformation. -/
def forward_transformation_contour (contour : List Point)
    (rotation_matrix scaling_matrix translation_matrix : Matrix (Fin 3) (Fin 3) α) :
    List (Point2f α) :=
  let transform_matrix := rotation_matrix * scaling_matrix * translation_matrix
  transform_points transform_matrix contour

/-- Function to make inverse transformation. -/
def inverse_transformation_contour (contour : List Point)
    (rotation_matrix scaling_matrix translation_matrix : Matrix (Fin 3) (Fin 3) α) :
    List (Point2f α) :=
  let transform_matrix := rotation_matrix * scaling_matrix * translation_matrix
  let transform_matrix := mat_inv transform_matrix
  transform_points transform_matrix contour

/-- Homogeneous affine form: the bottom row is `(0, 0, 1)`. -/
def IsAffine (m : Matrix (Fin 3) (Fin 3) α) : Prop :=
  m 2 0 = 0 ∧ m 2 1 = 0 ∧ m 2 2 = 1

/-- Dehomogenisation of `(x, y, w)`. -/
def dehomogenise (v : Fin 3 → α) : Point2f α := ⟨v 0 / v 2, v 1 / v 2⟩

/-- Homogeneous coordinates `(x, y, 1)` of an integer point. -/
def homogeneous (p : Point) : Fin 3 → α := ![(p.x : α), (p.y : α), 1]

end Affine

/-- Rounding `cvRound` of OpenCV: to the nearest integer, a tie to the even one. -/
def cvRound (v : ℚ) : Int :=
  let f := ⌊v⌋
  if v - f < 1 / 2 then f
  else if 1 / 2 < v - f then f + 1
  else if f % 2 = 0 then f else f + 1

/-- Conversion `cv::Point2f` to `cv::Point` (`saturate_cast<int>` on each coordinate). -/
def Point2f.toPoint (p : Point2f ℚ) : Point := ⟨cvRound p.x, cvRound p.y⟩

/-! ## `correction_distortion` -/

/-- The fields of `cv::Moments` that `correction_distortion` reads. -/
structure Moments where
  m00 : ℝ
  m10 : ℝ
  m01 : ℝ
  mu20 : ℝ
  mu11 : ℝ
  mu02 : ℝ

/-- What one iteration of `correction_distortion` leaves for its contour: the transformed
contour and the three matrices stored at `contour_idx`. -/
structure Corrected where
  contour : List (Point2f ℝ)
  rotation_matrix : Matrix (Fin 3) (Fin 3) ℝ
  scaling_matrix : Matrix (Fin 3) (Fin 3) ℝ
  translation_matrix : Matrix (Fin 3) (Fin 3) ℝ

/-- The C function `atan` on a value that need not be finite. -/
noncomputable def fatan : FVal ℝ → FVal ℝ
  | .fin v => .fin (Real.arctan v)
  | .pinf => .fin (Real.pi / 2)
  | .ninf => .fin (-(Real.pi / 2))
  | .nan => .nan

/-- The C function `pow(x, 0.25)`: NaN below zero. -/
noncomputable def fpow_quarter (x : ℝ) : FVal ℝ :=
  if x < 0 then .nan else .fin (x ^ (0.25 : ℝ))

/-- Assignment `m.at<double>(i, j) = v`: the other entries keep their value. -/
def mat_set (m : Matrix (Fin 3) (Fin 3) ℝ) (i j : Fin 3) (v : ℝ) : Matrix (Fin 3) (Fin 3) ℝ :=
  fun a b => if a = i ∧ b = j then v else m a b

/-- The object orientation: `0.5 * atan((2 * mu11p) / (mu20p - mu02p))` when
`mu11p != 0`, else `0.0`. -/
noncomputable def orientation (mu11p mu20p mu02p : ℝ) : FVal ℝ :=
  if mu11p ≠ 0 then
    FVal.mul (.fin 0.5) (fatan (FVal.div (.fin (2 * mu11p)) (.fin (mu20p - mu02p))))
  else .fin 0.0

/-- The entries `(0, 0)` and `(1, 1)` of the scaling matrix from the raw moments `mu20`,
`mu02` and the eigenvalues `l0`, `l1` in the order of `eigen_value_matrix`. -/
noncomputable def scale_entries (mu20 mu02 l0 l1 : ℝ) : FVal ℝ × FVal ℝ :=
  if mu20 > mu02 then
    (FVal.div (fpow_quarter (l0 * l1)) (fsqrt l0), FVal.div (fpow_quarter (l0 * l1)) (fsqrt l1))
  else
    (FVal.div (fpow_quarter (l0 * l1)) (fsqrt l1), FVal.div (fpow_quarter (l0 * l1)) (fsqrt l0))

/-- The five assignments under `// Create the rotation matrix`. -/
noncomputable def write_rotation (rotation_matrix : Matrix (Fin 3) (Fin 3) ℝ)
    (contour_orientation : ℝ) : Matrix (Fin 3) (Fin 3) ℝ :=
  let rotation_matrix := mat_set rotation_matrix 0 0 (Real.cos contour_orientation)
  let rotation_matrix := mat_set rotation_matrix 0 1 (- Real.sin contour_orientation)
  let rotation_matrix := mat_set rotation_matrix 1 0 (Real.sin contour_orientation)
  let rotation_matrix := mat_set rotation_matrix 1 1 (Real.cos contour_orientation)
  mat_set rotation_matrix 2 2 1.00

/-- The three assignments under `// Create the scaling matrix`. -/
def write_scaling (scaling_matrix : Matrix (Fin 3) (Fin 3) ℝ) (scale_x scale_y : ℝ) :
    Matrix (Fin 3) (Fin 3) ℝ :=
  let scaling_matrix := mat_set scaling_matrix 0 0 scale_x
  let scaling_matrix := mat_set scaling_matrix 1 1 scale_y
  mat_set scaling_matrix 2 2 1.00

/-- The five assignments under `// Create the translation matrix`. -/
def write_translation (translation_matrix : Matrix (Fin 3) (Fin 3) ℝ) (xbar ybar : ℝ) :
    Matrix (Fin 3) (Fin 3) ℝ :=
  let translation_matrix := mat_set translation_matrix 0 0 1.00
  let translation_matrix := mat_set translation_matrix 1 1 1.00
  let translation_matrix := mat_set translation_matrix 0 2 (- xbar)
  let translation_matrix := mat_set translation_matrix 1 2 (- ybar)
  mat_set translation_matrix 2 2 1.00

/-- Body of the loop of `correction_distortion` for one contour and the matrices stored
at its index. `moments` stands for `cv::moments` and `eigen` for the eigenvalues that
`cv::eigen` returns, in its order. The result is `Fault.nonFinite` when a stored value is
a NaN or an infinity. -/
noncomputable def correct_contour (moments : List (Point2f ℝ) → Moments)
    (eigen : Matrix (Fin 2) (Fin 2) ℝ → ℝ × ℝ) (contour : List Point)
    (rotation_matrix scaling_matrix translation_matrix : Matrix (Fin 3) (Fin 3) ℝ) :
    Except Fault Corrected := do
  let contour_moments := moments (contour.map Point.toPoint2f)
  let xbar ← (FVal.div (.fin contour_moments.m10) (.fin contour_moments.m00)).toExcept
  let ybar ← (FVal.div (.fin contour_moments.m01) (.fin contour_moments.m00)).toExcept
  let mu11p ← (FVal.div (.fin contour_moments.mu11) (.fin contour_moments.m00)).toExcept
  let mu20p ← (FVal.div (.fin contour_moments.mu20) (.fin contour_moments.m00)).toExcept
  let mu02p ← (FVal.div (.fin contour_moments.mu02) (.fin contour_moments.m00)).toExcept
  let contour_orientation ← (orientation mu11p mu20p mu02p).toExcept
  let covariance_matrix : Matrix (Fin 2) (Fin 2) ℝ := !![mu20p, mu11p; mu11p, mu02p]
  let eigen_value_matrix := eigen covariance_matrix
  let rotation_matrix := write_rotation rotation_matrix contour_orientation
  let scale := scale_entries contour_moments.mu20 contour_moments.mu02
    eigen_value_matrix.1 eigen_value_matrix.2
  let scale_x ← scale.1.toExcept
  let scale_y ← scale.2.toExcept
  let scaling_matrix := write_scaling scaling_matrix scale_x scale_y
  let translation_matrix := write_translation translation_matrix xbar ybar
  pure ⟨forward_transformation_contour contour rotation_matrix scaling_matrix
      translation_matrix, rotation_matrix, scaling_matrix, translation_matrix⟩

/-- The loop `for contour_idx < undistorted_contours.size()` of `correction_distortion`,
from index `contour_idx` on: one entry per contour, in order. An entry that is
`Fault.nonFinite` is a contour stored with NaN or infinite values; reading a matrix
vector past its end stops everything. -/
noncomputable def correction_distortion_from (moments : List (Point2f ℝ) → Moments)
    (eigen : Matrix (Fin 2) (Fin 2) ℝ → ℝ × ℝ)
    (rotation_matrix scaling_matrix translation_matrix : List (Matrix (Fin 3) (Fin 3) ℝ)) :
    List (List Point) → Nat → Except Fault (List (Except Fault Corrected))
  | [], _ => .ok []
  | contour :: rest, contour_idx =>
      match vecGet rotation_matrix contour_idx, vecGet scaling_matrix contour_idx,
        vecGet translation_matrix contour_idx with
      | .ok r, .ok s, .ok t =>
        match correction_distortion_from moments eigen rotation_matrix scaling_matrix
            translation_matrix rest (contour_idx + 1) with
        | .ok undistorted => .ok (correct_contour moments eigen contour r s t :: undistorted)
        | .error e => .error e
      | _, _, _ => .error .outOfBounds

/-- Function to correct the distortion of the contours. -/
noncomputable def correction_distortion (moments : List (Point2f ℝ) → Moments)
    (eigen : Matrix (Fin 2) (Fin 2) ℝ → ℝ × ℝ) (contours : List (List Point))
    (rotation_matrix scaling_matrix translation_matrix : List (Matrix (Fin 3) (Fin 3) ℝ)) :
    Except Fault (List (Except Fault Corrected)) :=
  correction_distortion_from moments eigen rotation_matrix scaling_matrix translation_matrix
    contours 0

/-- The matrix `covariance_matrix` that `correction_distortion` builds from the moments
(for `m00 != 0`): the normalised central moments of order two. -/
noncomputable def covariance (m : Moments) : Matrix (Fin 2) (Fin 2) ℝ :=
  !![m.mu20 / m.m00, m.mu11 / m.m00; m.mu11 / m.m00, m.mu02 / m.m00]

/-- Upper-left 2x2 block of a 3x3 matrix: the linear part of an affine transformation. -/
def linear_part (m : Matrix (Fin 3) (Fin 3) ℝ) : Matrix (Fin 2) (Fin 2) ℝ :=
  !![m 0 0, m 0 1; m 1 0, m 1 1]

/-- Cross product `(pf - po) x (pc - po)`: zero exactly when `pc` is on the line `po pf`. -/
def cross (po pf pc : Point) : Int :=
  (pf.x - po.x) * (pc.y - po.y) - (pf.y - po.y) * (pc.x - po.x)

/-- Squared length of the segment `po pf`. -/
def sqDist (po pf : Point) : Int :=
  (pf.x - po.x) ^ 2 + (pf.y - po.y) ^ 2

/-! ## Auxiliary notions for the statements -/

/-- Integer form of the keep test for an integer threshold `t`: false on a degenerate
edge, else `cross^2 < t^2 * |pf - po|^2`. -/
def near_int (t : Int) (po pf pc : Point) : Bool :=
  if po = pf then false else decide ((cross po pf pc) ^ 2 < t ^ 2 * sqDist po pf)

theorem vecGet_eq_ok {β : Type} (v : List β) (i : Nat) (h : i < v.length) :
    vecGet v i = .ok (v.get ⟨i, h⟩) := by
  simp [vecGet, List.getElem?_eq_getElem h]

theorem vecGet_of_ge {β : Type} (v : List β) (i : Nat) (h : v.length ≤ i) :
    vecGet v i = .error .outOfBounds := by
  simp [vecGet, List.getElem?_eq_none h]

theorem prev_hull_idx_nonneg (hull_idx : Int) (size : Nat) (h : 0 < size) :
    0 ≤ prev_hull_idx hull_idx size := by
  unfold prev_hull_idx
  exact Int.emod_nonneg _ (by omega)

theorem prev_hull_idx_lt (hull_idx : Int) (size : Nat) (h : 0 < size) :
    prev_hull_idx hull_idx size < size := by
  unfold prev_hull_idx
  exact Int.emod_lt_of_pos _ (by omega)

theorem prev_hull_idx_toNat_lt (hull_idx : Int) (size : Nat) (h : 0 < size) :
    (prev_hull_idx hull_idx size).toNat < size := by
  have h1 := prev_hull_idx_nonneg hull_idx size h
  have h2 := prev_hull_idx_lt hull_idx size h
  omega

theorem hull_walk_sublist (near : Point → Point → Point → Bool) (hull : List Point) :
    ∀ (contour : List Point) (hull_idx : Int) (cur next : Point) (acc : List Point),
      0 ≤ hull_idx → hull_idx < hull.length →
      ∃ sub, hull_walk near hull contour hull_idx cur next acc = .ok (acc ++ sub)
        ∧ sub.Sublist contour := by
  intro contour
  induction contour with
  | nil =>
    intro hull_idx cur next acc _ _
    exact ⟨[], by simp [hull_walk], List.Sublist.refl _⟩
  | cons p rest ih =>
    intro hull_idx cur next acc h0 h1
    have hpos : 0 < hull.length := by omega
    have hget : vecGet hull hull_idx.toNat = .ok (hull.get ⟨hull_idx.toNat, by omega⟩) :=
      vecGet_eq_ok hull hull_idx.toNat (by omega)
    have hget2 := vecGet_eq_ok hull (prev_hull_idx hull_idx hull.length).toNat
      (prev_hull_idx_toNat_lt hull_idx hull.length hpos)
    have hn0 := prev_hull_idx_nonneg hull_idx hull.length hpos
    have hn1 := prev_hull_idx_lt hull_idx hull.length hpos
    unfold hull_walk
    simp only []
    by_cases hk : near cur next p = true
    · simp only [hk, if_true]
      by_cases he : next = p
      · simp only [he, if_true, hget, hget2]
        obtain ⟨sub, hs, hsub⟩ := ih (prev_hull_idx hull_idx hull.length)
          (hull.get ⟨hull_idx.toNat, by omega⟩)
          (hull.get ⟨(prev_hull_idx hull_idx hull.length).toNat,
            prev_hull_idx_toNat_lt hull_idx hull.length hpos⟩) (acc ++ [p]) hn0 hn1
        exact ⟨p :: sub, by simpa using hs, hsub.cons₂ p⟩
      · simp only [he, if_false]
        obtain ⟨sub, hs, hsub⟩ := ih hull_idx cur next (acc ++ [p]) h0 h1
        exact ⟨p :: sub, by simpa using hs, hsub.cons₂ p⟩
    · simp only [hk]
      by_cases he : next = p
      · simp only [he, if_true, hget, hget2]
        obtain ⟨sub, hs, hsub⟩ := ih (prev_hull_idx hull_idx hull.length)
          (hull.get ⟨hull_idx.toNat, by omega⟩)
          (hull.get ⟨(prev_hull_idx hull_idx hull.length).toNat,
            prev_hull_idx_toNat_lt hull_idx hull.length hpos⟩) acc hn0 hn1
        exact ⟨sub, by simpa using hs, hsub.cons p⟩
      · simp only [he, if_false]
        obtain ⟨sub, hs, hsub⟩ := ih hull_idx cur next acc h0 h1
        exact ⟨sub, by simpa using hs, hsub.cons p⟩

theorem hull_search_found (hull : List Point) (p : Point) :
    ∀ (fuel hull_idx : Nat) (cur : Point),
      hull[hull_idx]? = some cur →
      (∃ j, hull_idx ≤ j ∧ hull[j]? = some p) →
      hull.length ≤ fuel + hull_idx →
      ∃ k, hull_search hull p fuel hull_idx cur = .ok (k, p) ∧ hull_idx ≤ k ∧ k < hull.length
        ∧ hull[k]? = some p ∧ ∀ j, hull_idx ≤ j → j < k → hull[j]? ≠ some p := by
  intro fuel
  induction fuel with
  | zero =>
    intro hull_idx cur hcur _ hlen
    have hlt : hull_idx < hull.length := by
      by_contra hge
      rw [List.getElem?_eq_none (by omega)] at hcur
      exact Option.noConfusion hcur
    omega
  | succ fuel ih =>
    intro hull_idx cur hcur hex hlen
    have hlt : hull_idx < hull.length := by
      by_contra hge
      rw [List.getElem?_eq_none (by omega)] at hcur
      exact Option.noConfusion hcur
    unfold hull_search
    by_cases hc : cur = p
    · subst hc
      refine ⟨hull_idx, by simp, le_refl _, hlt, hcur, ?_⟩
      intro j h1 h2
      omega
    · obtain ⟨j, hj, hjp⟩ := hex
      have hne : j ≠ hull_idx := by
        intro h
        subst h
        rw [hcur] at hjp
        exact hc (Option.some.inj hjp)
      have hjlt : j < hull.length := by
        by_contra hge
        rw [List.getElem?_eq_none (by omega)] at hjp
        exact Option.noConfusion hjp
      have hnext : hull_idx + 1 < hull.length := by omega
      obtain ⟨k, hk, hle, hklt, hkp, hfirst⟩ :=
        ih (hull_idx + 1) (hull.get ⟨hull_idx + 1, hnext⟩)
          (by simp [List.getElem?_eq_getElem hnext]) ⟨j, by omega, hjp⟩ (by omega)
      refine ⟨k, ?_, by omega, hklt, hkp, ?_⟩
      · simp only [ne_eq, hc, not_false_eq_true, if_true, vecGet_eq_ok hull (hull_idx + 1) hnext]
        exact hk
      · intro i h1 h2
        by_cases hi : i = hull_idx
        · subst hi
          rw [hcur]
          intro h
          exact hc (Option.some.inj h)
        · exact hfirst i (by omega) h2

theorem hull_search_not_found (hull : List Point) (p : Point) :
    ∀ (fuel hull_idx : Nat) (cur : Point),
      hull[hull_idx]? = some cur →
      (∀ j, hull_idx ≤ j → hull[j]? ≠ some p) →
      hull.length ≤ fuel + hull_idx →
      hull_search hull p fuel hull_idx cur = .error .outOfBounds := by
  intro fuel
  induction fuel with
  | zero =>
    intro hull_idx cur hcur _ hlen
    have hlt : hull_idx < hull.length := by
      by_contra hge
      rw [List.getElem?_eq_none (by omega)] at hcur
      exact Option.noConfusion hcur
    omega
  | succ fuel ih =>
    intro hull_idx cur hcur hall hlen
    have hc : cur ≠ p := by
      intro h
      subst h
      exact hall hull_idx (le_refl _) hcur
    unfold hull_search
    simp only [ne_eq, hc, not_false_eq_true, if_true]
    by_cases hnext : hull_idx + 1 < hull.length
    · rw [vecGet_eq_ok hull (hull_idx + 1) hnext]
      exact ih (hull_idx + 1) _ (by simp [List.getElem?_eq_getElem hnext])
        (fun j hj => hall j (by omega)) (by omega)
    · rw [vecGet_of_ge hull (hull_idx + 1) (by omega)]

theorem threshold_contour_sublist (near : Point → Point → Point → Bool)
    (hull : List Point) (p : Point) (rest : List Point) (hp : p ∈ hull) :
    ∃ out, threshold_contour near hull (p :: rest) = .ok out ∧ out.Sublist (p :: rest) := by
  obtain ⟨j, hjlt, hj⟩ := List.getElem_of_mem hp
  have hpos : 0 < hull.length := by omega
  obtain ⟨k, hk, _, hklt, _, _⟩ :=
    hull_search_found hull p hull.length 0 (hull.get ⟨0, hpos⟩)
      (by simp [List.getElem?_eq_getElem hpos])
      ⟨j, Nat.zero_le _, by simp [List.getElem?_eq_getElem hjlt, hj]⟩ (by omega)
  have hn0 := prev_hull_idx_nonneg (k : Int) hull.length hpos
  have hn1 := prev_hull_idx_lt (k : Int) hull.length hpos
  have hn2 := prev_hull_idx_toNat_lt (k : Int) hull.length hpos
  obtain ⟨sub, hs, hsub⟩ := hull_walk_sublist near hull (p :: rest)
    (prev_hull_idx (k : Int) hull.length) p (hull.get ⟨_, hn2⟩) [] hn0 hn1
  refine ⟨sub, ?_, hsub⟩
  unfold threshold_contour
  rw [vecGet_eq_ok hull 0 hpos]
  simp only [vecGet, List.getElem?_cons_zero]
  rw [hk]
  simp only [List.getElem?_eq_getElem hn2]
  simpa using hs

theorem contours_thresholding_from_sublist (near : Point → Point → Point → Bool)
    (hull_contours : List (List Point)) :
    ∀ (contours : List (List Point)) (contour_idx : Nat) (final : List (List Point)),
      (∀ i (hi : i < contours.length), ∃ hull p rest,
          hull_contours[contour_idx + i]? = some hull ∧ contours.get ⟨i, hi⟩ = p :: rest ∧ p ∈ hull) →
      ∃ out, contours_thresholding_from near hull_contours contours contour_idx final
          = .ok (final ++ out) ∧ List.Forall₂ List.Sublist out contours := by
  intro contours
  induction contours with
  | nil =>
    intro contour_idx final _
    exact ⟨[], by simp [contours_thresholding_from], List.Forall₂.nil⟩
  | cons contour others ih =>
    intro contour_idx final h
    obtain ⟨hull, p, rest, hh, hc, hp⟩ := h 0 (by simp)
    simp only [List.get_eq_getElem, List.getElem_cons_zero] at hc
    subst hc
    obtain ⟨good, hg, hgsub⟩ := threshold_contour_sublist near hull p rest hp
    obtain ⟨out, ho, hosub⟩ := ih (contour_idx + 1) (final ++ [good]) (by
      intro i hi
      obtain ⟨hull2, p2, rest2, h1, h2, h3⟩ := h (i + 1) (by simp; omega)
      refine ⟨hull2, p2, rest2, ?_, ?_, h3⟩
      · rw [← h1]; congr 1; omega
      · simpa using h2)
    refine ⟨good :: out, ?_, List.Forall₂.cons hgsub hosub⟩
    unfold contours_thresholding_from
    simp only [Nat.add_zero] at hh
    simp only [vecGet, hh, hg]
    simpa using ho

/-- C1. When the first point of every contour occurs in the hull at the same position,
`contours_thresholding` returns, for every threshold, one output contour per input
contour, in the same position, and each output contour is a subsequence of its input
contour (points are dropped, never added, duplicated or reordered). -/
theorem contours_thresholding_subsequence
    (hull_contours contours : List (List Point)) (dist_threshold : ℝ)
    (hmatch : ∀ i (hi : i < contours.length), ∃ hull p rest,
        hull_contours[i]? = some hull ∧ contours.get ⟨i, hi⟩ = p :: rest ∧ p ∈ hull) :
    ∃ out, contours_thresholding hull_contours contours dist_threshold = .ok out
      ∧ List.Forall₂ List.Sublist out contours := by
  obtain ⟨out, ho, hsub⟩ := contours_thresholding_from_sublist
    (near_hull_edge dist_threshold) hull_contours contours 0 []
    (by intro i hi; simpa using hmatch i hi)
  exact ⟨out, by simpa [contours_thresholding] using ho, hsub⟩

/-- Witness of C1: a triangle that is its own hull. -/
theorem contours_thresholding_subsequence_witness :
    (∀ i (hi : i < [[(⟨0, 0⟩ : Point), ⟨4, 0⟩, ⟨0, 3⟩]].length), ∃ hull p rest,
        [[(⟨0, 0⟩ : Point), ⟨0, 3⟩, ⟨4, 0⟩]][i]? = some hull
        ∧ [[(⟨0, 0⟩ : Point), ⟨4, 0⟩, ⟨0, 3⟩]].get ⟨i, hi⟩ = p :: rest ∧ p ∈ hull)
    ∧ ∃ out, contours_thresholding [[⟨0, 0⟩, ⟨0, 3⟩, ⟨4, 0⟩]] [[⟨0, 0⟩, ⟨4, 0⟩, ⟨0, 3⟩]] 2 = .ok out
      ∧ List.Forall₂ List.Sublist out [[⟨0, 0⟩, ⟨4, 0⟩, ⟨0, 3⟩]] :=
  have h : ∀ i (hi : i < [[(⟨0, 0⟩ : Point), ⟨4, 0⟩, ⟨0, 3⟩]].length), ∃ hull p rest,
        [[(⟨0, 0⟩ : Point), ⟨0, 3⟩, ⟨4, 0⟩]][i]? = some hull
        ∧ [[(⟨0, 0⟩ : Point), ⟨4, 0⟩, ⟨0, 3⟩]].get ⟨i, hi⟩ = p :: rest ∧ p ∈ hull := by
    intro i hi
    have hi0 : i = 0 := by simpa using hi
    subst hi0
    exact ⟨_, _, _, rfl, rfl, by decide⟩
  ⟨h, contours_thresholding_subsequence _ _ 2 h⟩

/-! ### `distance` is the perpendicular distance -/

theorem heron_radicand_eq (ux uy vx vy a b c : ℝ)
    (ha : a ^ 2 = ux ^ 2 + uy ^ 2) (hb : b ^ 2 = vx ^ 2 + vy ^ 2)
    (hc : c ^ 2 = (ux - vx) ^ 2 + (uy - vy) ^ 2) :
    (a + b + c) / 2 * ((a + b + c) / 2 - a) * ((a + b + c) / 2 - b) * ((a + b + c) / 2 - c)
      = (ux * vy - uy * vx) ^ 2 / 4 := by
  linear_combination
    ((2 * b ^ 2 + 2 * c ^ 2 - a ^ 2 - (ux ^ 2 + uy ^ 2)) / 16) * ha
    + ((2 * (ux ^ 2 + uy ^ 2) + 2 * c ^ 2 - b ^ 2 - (vx ^ 2 + vy ^ 2)) / 16) * hb
    + ((2 * (ux ^ 2 + uy ^ 2) + 2 * (vx ^ 2 + vy ^ 2) - c ^ 2
        - ((ux - vx) ^ 2 + (uy - vy) ^ 2)) / 16) * hc

theorem distance_aux (po pf pc : Point) (h : po ≠ pf) :
    0 < Real.sqrt (((pf.x : ℝ) - po.x) ^ 2 + ((pf.y : ℝ) - po.y) ^ 2)
    ∧ (let a := Real.sqrt (((pf.x : ℝ) - po.x) ^ 2 + ((pf.y : ℝ) - po.y) ^ 2)
       let b := Real.sqrt (((pc.x : ℝ) - po.x) ^ 2 + ((pc.y : ℝ) - po.y) ^ 2)
       let c := Real.sqrt (((pf.x : ℝ) - pc.x) ^ 2 + ((pf.y : ℝ) - pc.y) ^ 2)
       let s := (a + b + c) / 2
       s * (s - a) * (s - b) * (s - c)
        = (((pf.x : ℝ) - po.x) * ((pc.y : ℝ) - po.y)
            - ((pf.y : ℝ) - po.y) * ((pc.x : ℝ) - po.x)) ^ 2 / 4) := by
  constructor
  · apply Real.sqrt_pos.mpr
    have hne : (pf.x : ℝ) - po.x ≠ 0 ∨ (pf.y : ℝ) - po.y ≠ 0 := by
      by_contra hcon
      push_neg at hcon
      obtain ⟨h1, h2⟩ := hcon
      apply h
      have e1 : po.x = pf.x := by
        have : (pf.x : ℝ) = po.x := by linarith
        exact_mod_cast this.symm
      have e2 : po.y = pf.y := by
        have : (pf.y : ℝ) = po.y := by linarith
        exact_mod_cast this.symm
      cases po
      cases pf
      simp only at e1 e2
      subst e1
      subst e2
      rfl
    rcases hne with h1 | h1
    · have := sq_pos_of_ne_zero h1
      positivity
    · have := sq_pos_of_ne_zero h1
      positivity
  · intro a b c s
    have ha : a ^ 2 = ((pf.x : ℝ) - po.x) ^ 2 + ((pf.y : ℝ) - po.y) ^ 2 :=
      Real.sq_sqrt (by positivity)
    have hb : b ^ 2 = ((pc.x : ℝ) - po.x) ^ 2 + ((pc.y : ℝ) - po.y) ^ 2 :=
      Real.sq_sqrt (by positivity)
    have hc : c ^ 2 = (((pf.x : ℝ) - po.x) - ((pc.x : ℝ) - po.x)) ^ 2
        + (((pf.y : ℝ) - po.y) - ((pc.y : ℝ) - po.y)) ^ 2 := by
      have : c ^ 2 = ((pf.x : ℝ) - pc.x) ^ 2 + ((pf.y : ℝ) - pc.y) ^ 2 :=
        Real.sq_sqrt (by positivity)
      rw [this]
      ring
    exact heron_radicand_eq _ _ _ _ a b c ha hb hc

theorem distance_eq (po pf pc : Point) (h : po ≠ pf) :
    distance po pf pc = FVal.fin
      (|((pf.x : ℝ) - po.x) * ((pc.y : ℝ) - po.y) - ((pf.y : ℝ) - po.y) * ((pc.x : ℝ) - po.x)|
        / Real.sqrt (((pf.x : ℝ) - po.x) ^ 2 + ((pf.y : ℝ) - po.y) ^ 2)) := by
  obtain ⟨hpos, hrad⟩ := distance_aux po pf pc h
  simp only [] at hrad
  unfold distance
  simp only []
  rw [hrad]
  have hnn : ¬ ((((pf.x : ℝ) - po.x) * ((pc.y : ℝ) - po.y)
      - ((pf.y : ℝ) - po.y) * ((pc.x : ℝ) - po.x)) ^ 2 / 4 < 0) := by
    have : 0 ≤ (((pf.x : ℝ) - po.x) * ((pc.y : ℝ) - po.y)
      - ((pf.y : ℝ) - po.y) * ((pc.x : ℝ) - po.x)) ^ 2 / 4 := by positivity
    linarith
  have hsq : Real.sqrt ((((pf.x : ℝ) - po.x) * ((pc.y : ℝ) - po.y)
      - ((pf.y : ℝ) - po.y) * ((pc.x : ℝ) - po.x)) ^ 2 / 4)
      = |((pf.x : ℝ) - po.x) * ((pc.y : ℝ) - po.y)
      - ((pf.y : ℝ) - po.y) * ((pc.x : ℝ) - po.x)| / 2 := by
    rw [Real.sqrt_div (sq_nonneg _), Real.sqrt_sq_eq_abs]
    congr 1
    rw [show (4 : ℝ) = 2 ^ 2 by norm_num, Real.sqrt_sq (by norm_num)]
  simp only [fsqrt, hnn, if_false, FVal.mul, FVal.div, hsq, hpos.ne', if_false]
  congr 1
  ring

/-- C2. Over exact real arithmetic, for integer points with `po ≠ pf`, the Heron
radicand `s(s-a)(s-b)(s-c)` is non-negative, `distance po pf pc` is the perpendicular
distance `|(pf - po) x (pc - po)| / |pf - po|` from `pc` to the line through `po` and
`pf`, and it is `0` exactly when `pc` lies on that line. -/
theorem distance_perpendicular (po pf pc : Point) (h : po ≠ pf) :
    (let a := Real.sqrt (((pf.x : ℝ) - po.x) ^ 2 + ((pf.y : ℝ) - po.y) ^ 2)
     let b := Real.sqrt (((pc.x : ℝ) - po.x) ^ 2 + ((pc.y : ℝ) - po.y) ^ 2)
     let c := Real.sqrt (((pf.x : ℝ) - pc.x) ^ 2 + ((pf.y : ℝ) - pc.y) ^ 2)
     let s := (a + b + c) / 2
     0 ≤ s * (s - a) * (s - b) * (s - c))
    ∧ distance po pf pc
        = FVal.fin (|(cross po pf pc : ℝ)| / Real.sqrt ((sqDist po pf : ℝ)))
    ∧ (distance po pf pc = FVal.fin 0 ↔ cross po pf pc = 0) := by
  obtain ⟨hpos, hrad⟩ := distance_aux po pf pc h
  have hd := distance_eq po pf pc h
  have hcross : (cross po pf pc : ℝ) = ((pf.x : ℝ) - po.x) * ((pc.y : ℝ) - po.y)
      - ((pf.y : ℝ) - po.y) * ((pc.x : ℝ) - po.x) := by
    unfold cross
    push_cast
    ring
  have hsq : (sqDist po pf : ℝ) = ((pf.x : ℝ) - po.x) ^ 2 + ((pf.y : ℝ) - po.y) ^ 2 := by
    unfold sqDist
    push_cast
    ring
  refine ⟨?_, ?_, ?_⟩
  · intro a b c s
    have := hrad
    simp only [] at this
    show 0 ≤ s * (s - a) * (s - b) * (s - c)
    rw [this]
    positivity
  · rw [hd, hcross, hsq]
  · rw [hd, ← hcross]
    constructor
    · intro h0
      have h1 := FVal.fin.inj h0
      rw [div_eq_zero_iff] at h1
      rcases h1 with h1 | h1
      · exact_mod_cast abs_eq_zero.mp h1
      · exact absurd h1 hpos.ne'
    · intro h0
      rw [h0]
      simp

/-- Witness of C2: the 3-4-5 triangle. -/
theorem distance_perpendicular_witness :
    (⟨0, 0⟩ : Point) ≠ ⟨4, 0⟩
    ∧ distance ⟨0, 0⟩ ⟨4, 0⟩ ⟨0, 3⟩
        = FVal.fin (|(cross ⟨0, 0⟩ ⟨4, 0⟩ ⟨0, 3⟩ : ℝ)| / Real.sqrt ((sqDist ⟨0, 0⟩ ⟨4, 0⟩ : ℝ))) :=
  ⟨by decide, (distance_perpendicular ⟨0, 0⟩ ⟨4, 0⟩ ⟨0, 3⟩ (by decide)).2.1⟩

/-! ### `removal_elt` is a filter -/

theorem eraseIdx_append_cons {β : Type} (kept : List β) (c : β) (rest : List β) :
    (kept ++ c :: rest).eraseIdx kept.length = kept ++ rest := by
  induction kept with
  | nil => simp
  | cons k ks ih => simpa using ih

theorem removal_elt_loop_filter (check : List Point → Except Fault Bool)
    (test : List Point → Bool) (hcheck : ∀ c, check c = .ok (test c)) :
    ∀ (remaining : List (List Point)) (fuel : Nat) (kept : List (List Point))
      (hierarchy : List Vec4i),
      hierarchy.length = (kept ++ remaining).length →
      (kept ++ remaining).length < 4294967296 →
      remaining.length ≤ fuel →
      ∃ h, removal_elt_loop check fuel (kept ++ remaining) hierarchy kept.length
        = .ok (kept ++ remaining.filter (fun c => !test c), h) := by
  intro remaining
  induction remaining with
  | nil =>
    intro fuel kept hierarchy _ _ _
    cases fuel with
    | zero => exact ⟨hierarchy, by simp [removal_elt_loop]⟩
    | succ f => exact ⟨hierarchy, by simp [removal_elt_loop]⟩
  | cons c rest ih =>
    intro fuel kept hierarchy hh hlen hfuel
    cases fuel with
    | zero => simp at hfuel
    | succ f =>
      simp only [List.length_append, List.length_cons] at hh hlen hfuel
      have hi : kept.length < (kept ++ c :: rest).length := by simp
      have hget : vecGet (kept ++ c :: rest) kept.length = .ok c := by
        unfold vecGet
        rw [List.getElem?_append_right (le_refl _)]
        simp
      unfold removal_elt_loop
      simp only [hi, if_true, hget, hcheck c]
      cases ht : test c with
      | true =>
        have hih : kept.length < hierarchy.length := by omega
        have hidx : ((kept.length + 4294967296 - 1) % 4294967296 + 1) % 4294967296
            = kept.length := by omega
        simp only [hih, if_true, hidx, eraseIdx_append_cons]
        obtain ⟨h, hres⟩ := ih f kept (hierarchy.eraseIdx kept.length)
          (by rw [List.length_eraseIdx]; simp [hih]; omega) (by simp; omega) (by omega)
        exact ⟨h, by simpa [List.filter_cons, ht] using hres⟩
      | false =>
        have hidx : (kept.length + 1) % 4294967296 = (kept ++ [c]).length := by
          simp
          omega
        simp only [hidx]
        obtain ⟨h, hres⟩ := ih f (kept ++ [c]) hierarchy
          (by simp; omega) (by simp; omega) (by omega)
        refine ⟨h, ?_⟩
        simpa [List.filter_cons, ht] using hres

/-- C3. With a hierarchy of the same length, `areaRatio > 0` and fewer than `2^32`
contours, after `removal_elt` the contour list consists of exactly the input contours
for which the rejection test is false, in their original order: no contour is skipped
after an erase, also at index 0 where the unsigned index wraps. -/
theorem removal_elt_filter (bRect : List Point → Rect) (contours : List (List Point))
    (hierarchy : List Vec4i) (size_image : Size) (areaRatio : Int)
    (lowAspectRatio highAspectRatio : ℚ)
    (hh : hierarchy.length = contours.length) (hr : 0 < areaRatio)
    (hlen : contours.length < 4294967296) :
    removal_elt bRect contours hierarchy size_image areaRatio lowAspectRatio highAspectRatio
      = .ok (contours.filter (fun c =>
          !inconsistent (bRect c) size_image areaRatio lowAspectRatio highAspectRatio),
        hierarchy) := by
  obtain ⟨h, hres⟩ := removal_elt_loop_filter
    (check_inconsistency bRect size_image areaRatio lowAspectRatio highAspectRatio)
    (fun c => inconsistent (bRect c) size_image areaRatio lowAspectRatio highAspectRatio)
    (by intro c; simp [check_inconsistency, hr.ne']) contours contours.length [] hierarchy
    (by simpa using hh) (by simpa using hlen) (le_refl _)
  unfold removal_elt
  simp only [List.nil_append, List.length_nil] at hres
  rw [hres]

/-- Witness of C3: the first two contours are rejected, also at index 0. -/
theorem removal_elt_filter_witness :
    ([⟨0, 0, 0, 0⟩, ⟨1, 1, 1, 1⟩, ⟨2, 2, 2, 2⟩] : List Vec4i).length
        = [[(⟨0, 0⟩ : Point)], [⟨5, 5⟩, ⟨5, 9⟩], [⟨0, 0⟩, ⟨3, 3⟩]].length
    ∧ (0 : Int) < 4
    ∧ removal_elt boundingRect [[⟨0, 0⟩], [⟨5, 5⟩, ⟨5, 9⟩], [⟨0, 0⟩, ⟨3, 3⟩]]
        [⟨0, 0, 0, 0⟩, ⟨1, 1, 1, 1⟩, ⟨2, 2, 2, 2⟩] ⟨8, 8⟩ 4 (7 / 10) (13 / 10)
      = .ok (([[⟨0, 0⟩], [⟨5, 5⟩, ⟨5, 9⟩], [⟨0, 0⟩, ⟨3, 3⟩]] : List (List Point)).filter
          (fun c => !inconsistent (boundingRect c) ⟨8, 8⟩ 4 (7 / 10) (13 / 10)),
        [⟨0, 0, 0, 0⟩, ⟨1, 1, 1, 1⟩, ⟨2, 2, 2, 2⟩]) :=
  ⟨by decide, by decide,
    removal_elt_filter boundingRect _ _ ⟨8, 8⟩ 4 (7 / 10) (13 / 10)
      (by decide) (by decide) (by decide)⟩

/-! ### Extent normalisation -/

section ExtentTheorems

variable {α : Type} [LinearOrderedField α]

theorem foldl_max_spec (xs : List α) : ∀ init : α,
    init ≤ xs.foldl max init ∧ (∀ y ∈ xs, y ≤ xs.foldl max init)
      ∧ (xs.foldl max init = init ∨ xs.foldl max init ∈ xs) := by
  induction xs with
  | nil => intro init; simp
  | cons x xs ih =>
    intro init
    obtain ⟨h1, h2, h3⟩ := ih (max init x)
    simp only [List.foldl_cons, List.mem_cons]
    refine ⟨le_trans (le_max_left _ _) h1, ?_, ?_⟩
    · intro y hy
      rcases hy with hy | hy
      · rw [hy]; exact le_trans (le_max_right _ _) h1
      · exact h2 y hy
    · rcases h3 with h3 | h3
      · rw [h3]
        rcases max_choice init x with hm | hm
        · left; exact hm
        · right; left; exact hm
      · right; right; exact h3

theorem minMaxIdx_max_spec (x : α) (xs : List α) :
    (∀ y ∈ x :: xs, y ≤ minMaxIdx_max (x :: xs)) ∧ minMaxIdx_max (x :: xs) ∈ x :: xs := by
  obtain ⟨h1, h2, h3⟩ := foldl_max_spec xs x
  refine ⟨?_, ?_⟩
  · intro y hy
    rcases List.mem_cons.mp hy with hy | hy
    · rw [hy]; exact h1
    · exact h2 y hy
  · rcases h3 with h3 | h3
    · exact List.mem_cons.mpr (Or.inl h3)
    · exact List.mem_cons.mpr (Or.inr h3)

/-- C5. For a non-empty contour, `find_normalisation_factor` returns the maximum over
its points of `max(|x|, |y|)`: it bounds `|x|` and `|y|` of every point and is `|x|` or
`|y|` of some point. -/
theorem find_normalisation_factor_max (contour : List (Point2f α)) (hne : contour ≠ []) :
    (∀ p ∈ contour, |p.x| ≤ find_normalisation_factor contour
        ∧ |p.y| ≤ find_normalisation_factor contour)
    ∧ ∃ p ∈ contour, find_normalisation_factor contour = |p.x|
        ∨ find_normalisation_factor contour = |p.y| := by
  cases contour with
  | nil => exact absurd rfl hne
  | cons q rest =>
    obtain ⟨hx1, hx2⟩ := minMaxIdx_max_spec (|q.x|) (rest.map (fun p => |p.x|))
    obtain ⟨hy1, hy2⟩ := minMaxIdx_max_spec (|q.y|) (rest.map (fun p => |p.y|))
    have hx2m : minMaxIdx_max (|q.x| :: rest.map (fun p => |p.x|))
        ∈ (q :: rest).map (fun p => |p.x|) := by simpa using hx2
    have hy2m : minMaxIdx_max (|q.y| :: rest.map (fun p => |p.y|))
        ∈ (q :: rest).map (fun p => |p.y|) := by simpa using hy2
    simp only [find_normalisation_factor, List.map_cons]
    refine ⟨?_, ?_⟩
    · intro p hp
      have hpx : |p.x| ∈ |q.x| :: rest.map (fun p => |p.x|) := by
        have := List.mem_map_of_mem (fun p : Point2f α => |p.x|) hp
        simpa using this
      have hpy : |p.y| ∈ |q.y| :: rest.map (fun p => |p.y|) := by
        have := List.mem_map_of_mem (fun p : Point2f α => |p.y|) hp
        simpa using this
      exact ⟨le_trans (hx1 _ hpx) (le_max_left _ _), le_trans (hy1 _ hpy) (le_max_right _ _)⟩
    · rcases max_choice (minMaxIdx_max (|q.x| :: rest.map (fun p => |p.x|)))
          (minMaxIdx_max (|q.y| :: rest.map (fun p => |p.y|))) with hm | hm
      · obtain ⟨p, hp, hpe⟩ := List.mem_map.mp hx2m
        exact ⟨p, hp, Or.inl (by rw [hm]; exact hpe.symm)⟩
      · obtain ⟨p, hp, hpe⟩ := List.mem_map.mp hy2m
        exact ⟨p, hp, Or.inr (by rw [hm]; exact hpe.symm)⟩

end ExtentTheorems

/-- Witness of C5: a two-point contour over the rationals. -/
theorem find_normalisation_factor_max_witness :
    ([⟨3, -4⟩, ⟨1, 2⟩] : List (Point2f ℚ)) ≠ []
    ∧ ∃ p ∈ ([⟨3, -4⟩, ⟨1, 2⟩] : List (Point2f ℚ)),
        find_normalisation_factor [⟨3, -4⟩, ⟨1, 2⟩] = |p.x|
        ∨ find_normalisation_factor [⟨3, -4⟩, ⟨1, 2⟩] = |p.y| :=
  ⟨by simp, (find_normalisation_factor_max [⟨3, -4⟩, ⟨1, 2⟩] (by simp)).2⟩

section RoundTrip

variable {α : Type} [LinearOrderedField α]

theorem scale_contour_fin (b : α) : ∀ contour : List (Point2f α),
    scale_contour contour (.fin b) = .ok (contour.map (fun p => ⟨p.x * b, p.y * b⟩)) := by
  intro contour
  induction contour with
  | nil => rfl
  | cons p rest ih =>
    simp [scale_contour, scale_point, FVal.mul, FVal.toExcept, ih]

/-- C4, amended. For every contour that is empty or has a non-zero factor `f` (some
coordinate is not zero), `normalise_contour` yields a contour of the same length, and
`denormalise_contour` with the stored factor reproduces the input point for point. -/
theorem normalise_denormalise_roundtrip (contour : List (Point2f α))
    (h : contour = [] ∨ find_normalisation_factor contour ≠ 0) :
    ∃ N, (normalise_contour contour).1 = .ok N ∧ N.length = contour.length
      ∧ (normalise_contour contour).2 = find_normalisation_factor contour
      ∧ denormalise_contour N (normalise_contour contour).2 = .ok contour := by
  rcases h with h | h
  · subst h
    exact ⟨[], rfl, rfl, rfl, rfl⟩
  · refine ⟨contour.map (fun p => ⟨p.x * (1 / find_normalisation_factor contour),
        p.y * (1 / find_normalisation_factor contour)⟩), ?_, by simp, rfl, ?_⟩
    · simp only [normalise_contour, FVal.div, h, if_false]
      exact scale_contour_fin _ contour
    · simp only [normalise_contour, denormalise_contour]
      rw [scale_contour_fin]
      congr 1
      rw [List.map_map]
      conv_rhs => rw [← List.map_id contour]
      apply List.map_congr_left
      intro p _
      cases p with
      | mk x y =>
        simp only [Function.comp, id]
        congr 1
        · field_simp
        · field_simp

end RoundTrip

/-- Witness of C4, amended: a contour with factor 4. -/
theorem normalise_denormalise_roundtrip_witness :
    (([⟨3, -4⟩, ⟨1, 2⟩] : List (Point2f ℚ)) = []
        ∨ find_normalisation_factor ([⟨3, -4⟩, ⟨1, 2⟩] : List (Point2f ℚ)) ≠ 0)
    ∧ ∃ N, (normalise_contour ([⟨3, -4⟩, ⟨1, 2⟩] : List (Point2f ℚ))).1 = .ok N
      ∧ N.length = ([⟨3, -4⟩, ⟨1, 2⟩] : List (Point2f ℚ)).length
      ∧ (normalise_contour ([⟨3, -4⟩, ⟨1, 2⟩] : List (Point2f ℚ))).2
          = find_normalisation_factor [⟨3, -4⟩, ⟨1, 2⟩]
      ∧ denormalise_contour N (normalise_contour ([⟨3, -4⟩, ⟨1, 2⟩] : List (Point2f ℚ))).2
          = .ok [⟨3, -4⟩, ⟨1, 2⟩] :=
  have h : (([⟨3, -4⟩, ⟨1, 2⟩] : List (Point2f ℚ)) = []
        ∨ find_normalisation_factor ([⟨3, -4⟩, ⟨1, 2⟩] : List (Point2f ℚ)) ≠ 0) := by
    right
    norm_num [find_normalisation_factor, minMaxIdx_max]
  ⟨h, normalise_denormalise_roundtrip _ h⟩

/-- Counterexample to C4: for the contour made of the origin alone the factor is `0`,
`1 / factor` is infinite and `0 * (1 / factor)` is NaN, so the normalised contour is not
a contour of finite points and nothing maps back to the input. -/
theorem normalise_denormalise_counterexample :
    (normalise_contour ([⟨0, 0⟩] : List (Point2f ℚ))).2 = 0
    ∧ (normalise_contour ([⟨0, 0⟩] : List (Point2f ℚ))).1 = .error .nonFinite
    ∧ ¬ ∃ N, (normalise_contour ([⟨0, 0⟩] : List (Point2f ℚ))).1 = .ok N
        ∧ denormalise_contour N (normalise_contour ([⟨0, 0⟩] : List (Point2f ℚ))).2
            = .ok [⟨0, 0⟩] := by
  have h1 : (normalise_contour ([⟨0, 0⟩] : List (Point2f ℚ))).2 = 0 := by
    simp [normalise_contour, find_normalisation_factor, minMaxIdx_max]
  have h2 : (normalise_contour ([⟨0, 0⟩] : List (Point2f ℚ))).1 = .error .nonFinite := by
    simp [normalise_contour, find_normalisation_factor, minMaxIdx_max, scale_contour,
      scale_point, FVal.div, FVal.mul, FVal.toExcept]
  refine ⟨h1, h2, ?_⟩
  rintro ⟨N, hN, _⟩
  rw [h2] at hN
  exact Except.noConfusion hN

/-! ### Forward and inverse transformation -/

section AffineTheorems

variable {α : Type} [Field α]

theorem transform_points_eq_map (m : Matrix (Fin 3) (Fin 3) α) (contour : List Point) :
    transform_points m contour
      = contour.map (fun p => ⟨(m.mulVec (homogeneous p)) 0, (m.mulVec (homogeneous p)) 1⟩) := by
  unfold transform_points
  simp only []
  rw [← List.ofFn_getElem_eq_map]
  congr 1

theorem IsAffine.mul {a b : Matrix (Fin 3) (Fin 3) α} (ha : IsAffine a) (hb : IsAffine b) :
    IsAffine (a * b) := by
  obtain ⟨a0, a1, a2⟩ := ha
  obtain ⟨b0, b1, b2⟩ := hb
  refine ⟨?_, ?_, ?_⟩ <;> simp [Matrix.mul_apply, Fin.sum_univ_three, a0, a1, a2, b0, b1, b2]

theorem IsAffine.mulVec_two {m : Matrix (Fin 3) (Fin 3) α} (hm : IsAffine m) (v : Fin 3 → α)
    (hv : v 2 = 1) : (m.mulVec v) 2 = 1 := by
  obtain ⟨m0, m1, m2⟩ := hm
  simp [Matrix.mulVec, Matrix.dotProduct, Fin.sum_univ_three, m0, m1, m2, hv]

/-- C7. For matrices of the homogeneous affine form, `forward_transformation_contour`
returns a contour of the same length whose `i`-th point is the dehomogenised result of
`Rotation * (Scale * (Translation * (x_i, y_i, 1)))`: the translation acts on the point
first, the rotation last, and the third coordinate of the product is `1`. -/
theorem forward_transformation_contour_spec (contour : List Point)
    (rotation_matrix scaling_matrix translation_matrix : Matrix (Fin 3) (Fin 3) α)
    (hR : IsAffine rotation_matrix) (hS : IsAffine scaling_matrix)
    (hT : IsAffine translation_matrix) :
    (forward_transformation_contour contour rotation_matrix scaling_matrix
        translation_matrix).length = contour.length
    ∧ ∀ (i : Nat) (hi : i < contour.length),
        (rotation_matrix.mulVec (scaling_matrix.mulVec
            (translation_matrix.mulVec (homogeneous (contour.get ⟨i, hi⟩))))) 2 = 1
        ∧ (forward_transformation_contour contour rotation_matrix scaling_matrix
            translation_matrix)[i]?
          = some (dehomogenise (rotation_matrix.mulVec (scaling_matrix.mulVec
              (translation_matrix.mulVec (homogeneous (contour.get ⟨i, hi⟩)))))) := by
  unfold forward_transformation_contour
  simp only []
  rw [transform_points_eq_map]
  refine ⟨by simp, ?_⟩
  intro i hi
  have h2 : (rotation_matrix.mulVec (scaling_matrix.mulVec
      (translation_matrix.mulVec (homogeneous (contour.get ⟨i, hi⟩))))) 2 = 1 := by
    apply hR.mulVec_two
    apply hS.mulVec_two
    apply hT.mulVec_two
    simp [homogeneous]
  refine ⟨h2, ?_⟩
  rw [List.getElem?_map, List.getElem?_eq_getElem hi]
  simp only [Option.map_some', dehomogenise, h2, div_one]
  simp only [Matrix.mulVec_mulVec, Matrix.mul_assoc, List.get_eq_getElem]

end AffineTheorems

/-- Witness of C7: a translation by `(-1, -2)`, a scaling by `(2, 3)` and a quarter turn. -/
theorem forward_transformation_contour_spec_witness :
    IsAffine (!![0, -1, 0; 1, 0, 0; 0, 0, 1] : Matrix (Fin 3) (Fin 3) ℚ)
    ∧ IsAffine (!![2, 0, 0; 0, 3, 0; 0, 0, 1] : Matrix (Fin 3) (Fin 3) ℚ)
    ∧ IsAffine (!![1, 0, -1; 0, 1, -2; 0, 0, 1] : Matrix (Fin 3) (Fin 3) ℚ)
    ∧ (forward_transformation_contour [⟨5, 7⟩, ⟨1, 2⟩]
        (!![0, -1, 0; 1, 0, 0; 0, 0, 1] : Matrix (Fin 3) (Fin 3) ℚ)
        !![2, 0, 0; 0, 3, 0; 0, 0, 1] !![1, 0, -1; 0, 1, -2; 0, 0, 1]).length
      = [(⟨5, 7⟩ : Point), ⟨1, 2⟩].length :=
  have hR : IsAffine (!![0, -1, 0; 1, 0, 0; 0, 0, 1] : Matrix (Fin 3) (Fin 3) ℚ) :=
    ⟨rfl, rfl, rfl⟩
  have hS : IsAffine (!![2, 0, 0; 0, 3, 0; 0, 0, 1] : Matrix (Fin 3) (Fin 3) ℚ) :=
    ⟨rfl, rfl, rfl⟩
  have hT : IsAffine (!![1, 0, -1; 0, 1, -2; 0, 0, 1] : Matrix (Fin 3) (Fin 3) ℚ) :=
    ⟨rfl, rfl, rfl⟩
  ⟨hR, hS, hT, (forward_transformation_contour_spec [⟨5, 7⟩, ⟨1, 2⟩] _ _ _ hR hS hT).1⟩

section AffineRoundTrip

variable {α : Type} [Field α] [DecidableEq α]

theorem mat_inv_mul (m : Matrix (Fin 3) (Fin 3) α) (hdet : m.det ≠ 0) : mat_inv m * m = 1 := by
  unfold mat_inv
  rw [if_neg hdet, Matrix.smul_mul, Matrix.adjugate_mul, smul_smul, inv_mul_cancel₀ hdet,
    one_smul]

omit [DecidableEq α] in
theorem map_eq_of_map_eq {β γ : Type} (f g : Point → β) (h k : Point → γ)
    (hfg : ∀ a b, f a = g b → h b = k a) :
    ∀ l1 l2 : List Point, l1.map f = l2.map g → l2.map h = l1.map k := by
  intro l1
  induction l1 with
  | nil =>
    intro l2 hl
    cases l2 with
    | nil => rfl
    | cons b bs => simp at hl
  | cons a as ih =>
    intro l2 hl
    cases l2 with
    | nil => simp at hl
    | cons b bs =>
      simp only [List.map_cons, List.cons.injEq] at hl ⊢
      exact ⟨hfg a b hl.1, ih bs hl.2⟩

/-- C6, amended. For matrices of the homogeneous affine form with an invertible
product, whenever the forward output has integer coordinates `q` (so that it enters
`inverse_transformation_contour` unchanged), the inverse transformation of `q`
reproduces the original points exactly. -/
theorem inverse_forward_exact (contour q : List Point)
    (rotation_matrix scaling_matrix translation_matrix : Matrix (Fin 3) (Fin 3) α)
    (hR : IsAffine rotation_matrix) (hS : IsAffine scaling_matrix)
    (hT : IsAffine translation_matrix)
    (hdet : (rotation_matrix * scaling_matrix * translation_matrix).det ≠ 0)
    (hq : forward_transformation_contour contour rotation_matrix scaling_matrix
        translation_matrix = q.map Point.toPoint2f) :
    inverse_transformation_contour q rotation_matrix scaling_matrix translation_matrix
      = contour.map Point.toPoint2f := by
  have hM : IsAffine (rotation_matrix * scaling_matrix * translation_matrix) :=
    (hR.mul hS).mul hT
  unfold forward_transformation_contour at hq
  unfold inverse_transformation_contour
  simp only [] at hq ⊢
  rw [transform_points_eq_map] at hq ⊢
  refine map_eq_of_map_eq _ _ _ _ ?_ contour q hq
  intro a b hab
  have h0 := congrArg Point2f.x hab
  have h1 := congrArg Point2f.y hab
  simp only [Point.toPoint2f] at h0 h1
  have h2 : ((rotation_matrix * scaling_matrix * translation_matrix).mulVec
      (homogeneous a)) 2 = 1 := hM.mulVec_two _ (by simp [homogeneous])
  have hv : (rotation_matrix * scaling_matrix * translation_matrix).mulVec (homogeneous a)
      = homogeneous b := by
    funext r
    fin_cases r
    · simpa [homogeneous] using h0
    · simpa [homogeneous] using h1
    · simpa [homogeneous] using h2
  rw [← hv, Matrix.mulVec_mulVec, mat_inv_mul _ hdet, Matrix.one_mulVec]
  simp [homogeneous, Point.toPoint2f]

end AffineRoundTrip

/-- Witness of C6, amended: translation by `(-1, -2)`, scaling by `(2, 3)`, quarter turn;
the point `(5, 7)` is sent to the integer point `(-15, 8)`. -/
theorem inverse_forward_exact_witness :
    forward_transformation_contour [⟨5, 7⟩]
        (!![0, -1, 0; 1, 0, 0; 0, 0, 1] : Matrix (Fin 3) (Fin 3) ℚ)
        !![2, 0, 0; 0, 3, 0; 0, 0, 1] !![1, 0, -1; 0, 1, -2; 0, 0, 1]
      = ([⟨-15, 8⟩] : List Point).map Point.toPoint2f
    ∧ inverse_transformation_contour [⟨-15, 8⟩]
        (!![0, -1, 0; 1, 0, 0; 0, 0, 1] : Matrix (Fin 3) (Fin 3) ℚ)
        !![2, 0, 0; 0, 3, 0; 0, 0, 1] !![1, 0, -1; 0, 1, -2; 0, 0, 1]
      = ([⟨5, 7⟩] : List Point).map Point.toPoint2f :=
  have hq : forward_transformation_contour [⟨5, 7⟩]
        (!![0, -1, 0; 1, 0, 0; 0, 0, 1] : Matrix (Fin 3) (Fin 3) ℚ)
        !![2, 0, 0; 0, 3, 0; 0, 0, 1] !![1, 0, -1; 0, 1, -2; 0, 0, 1]
      = ([⟨-15, 8⟩] : List Point).map Point.toPoint2f := by
    unfold forward_transformation_contour
    simp only []
    rw [transform_points_eq_map]
    simp [homogeneous, Point.toPoint2f, Matrix.mulVec, Matrix.dotProduct, Fin.sum_univ_three,
      Matrix.mul_apply]
    norm_num
  ⟨hq, inverse_forward_exact [⟨5, 7⟩] [⟨-15, 8⟩] _ _ _ ⟨rfl, rfl, rfl⟩ ⟨rfl, rfl, rfl⟩
    ⟨rfl, rfl, rfl⟩
    (by simp [Matrix.det_fin_three, Matrix.mul_apply, Fin.sum_univ_three, Matrix.vecHead,
      Matrix.vecTail]) hq⟩

/-- Counterexample to C6: with the invertible scaling by `1/4` (identity rotation and
translation) the point `(1, 0)` goes forward to `(1/4, 0)`, enters the inverse
transformation as the integer point `(0, 0)` and comes back as `(0, 0)`, not `(1, 0)`. -/
theorem affine_roundtrip_counterexample :
    IsAffine (1 : Matrix (Fin 3) (Fin 3) ℚ)
    ∧ IsAffine (!![1 / 4, 0, 0; 0, 1 / 4, 0; 0, 0, 1] : Matrix (Fin 3) (Fin 3) ℚ)
    ∧ ((1 : Matrix (Fin 3) (Fin 3) ℚ) * !![1 / 4, 0, 0; 0, 1 / 4, 0; 0, 0, 1] * 1).det ≠ 0
    ∧ forward_transformation_contour [⟨1, 0⟩] (1 : Matrix (Fin 3) (Fin 3) ℚ)
        !![1 / 4, 0, 0; 0, 1 / 4, 0; 0, 0, 1] 1 = [⟨1 / 4, 0⟩]
    ∧ inverse_transformation_contour
        ((forward_transformation_contour [⟨1, 0⟩] (1 : Matrix (Fin 3) (Fin 3) ℚ)
          !![1 / 4, 0, 0; 0, 1 / 4, 0; 0, 0, 1] 1).map Point2f.toPoint)
        (1 : Matrix (Fin 3) (Fin 3) ℚ) !![1 / 4, 0, 0; 0, 1 / 4, 0; 0, 0, 1] 1
      = [⟨0, 0⟩]
    ∧ ([⟨0, 0⟩] : List (Point2f ℚ)) ≠ ([⟨1, 0⟩] : List Point).map Point.toPoint2f := by
  have hfwd : forward_transformation_contour [⟨1, 0⟩] (1 : Matrix (Fin 3) (Fin 3) ℚ)
      !![1 / 4, 0, 0; 0, 1 / 4, 0; 0, 0, 1] 1 = [⟨1 / 4, 0⟩] := by
    unfold forward_transformation_contour
    simp only []
    rw [transform_points_eq_map]
    simp [homogeneous, Matrix.mulVec, Matrix.dotProduct, Fin.sum_univ_three]
  have hf : ⌊(1 / 4 : ℚ)⌋ = 0 := by
    rw [Int.floor_eq_iff]
    norm_num
  have hr1 : cvRound (1 / 4) = 0 := by
    unfold cvRound
    simp only [hf]
    norm_num
  have hr0 : cvRound 0 = 0 := by
    unfold cvRound
    simp
  refine ⟨⟨rfl, rfl, rfl⟩, ⟨rfl, rfl, rfl⟩, ?_, hfwd, ?_, ?_⟩
  · simp [Matrix.det_fin_three, Matrix.vecHead, Matrix.vecTail]
  · rw [hfwd]
    simp only [List.map_cons, List.map_nil, Point2f.toPoint, hr1, hr0]
    unfold inverse_transformation_contour
    simp only []
    rw [transform_points_eq_map]
    simp [homogeneous, mat_inv, Matrix.det_fin_three, Matrix.adjugate_fin_three,
      Matrix.mulVec, Matrix.dotProduct, Fin.sum_univ_three, Matrix.vecHead, Matrix.vecTail]
  · simp [Point.toPoint2f]

/-! ### `correction_distortion` -/

theorem toExcept_fin (v : ℝ) : (FVal.fin v).toExcept = .ok v := rfl

theorem fdiv_zero_toExcept (x : ℝ) :
    (FVal.div (.fin x) (.fin (0 : ℝ))).toExcept = .error .nonFinite := by
  unfold FVal.div
  simp only [if_true]
  split_ifs <;> rfl

theorem fdiv_toExcept_of_ne (x y : ℝ) (hy : y ≠ 0) :
    (FVal.div (.fin x) (.fin y)).toExcept = .ok (x / y) := by
  simp [FVal.div, hy, FVal.toExcept]

theorem correct_contour_m00_zero (moments : List (Point2f ℝ) → Moments)
    (eigen : Matrix (Fin 2) (Fin 2) ℝ → ℝ × ℝ) (contour : List Point)
    (r s t : Matrix (Fin 3) (Fin 3) ℝ)
    (h : (moments (contour.map Point.toPoint2f)).m00 = 0) :
    correct_contour moments eigen contour r s t = .error .nonFinite := by
  unfold correct_contour
  simp only [h, fdiv_zero_toExcept]
  rfl

theorem orientation_finite (mu11p mu20p mu02p : ℝ) :
    ∃ theta, orientation mu11p mu20p mu02p = .fin theta := by
  unfold orientation
  by_cases h : mu11p = 0
  · exact ⟨0.0, by simp [h]⟩
  · simp only [ne_eq, h, not_false_eq_true, if_true]
    by_cases hd : mu20p - mu02p = 0
    · have h2 : 2 * mu11p ≠ 0 := by simpa using h
      by_cases hp : 0 < 2 * mu11p
      · exact ⟨0.5 * (Real.pi / 2), by simp [FVal.div, hd, h2, hp, fatan, FVal.mul]⟩
      · exact ⟨0.5 * (-(Real.pi / 2)), by simp [FVal.div, hd, h2, hp, fatan, FVal.mul]⟩
    · exact ⟨0.5 * Real.arctan (2 * mu11p / (mu20p - mu02p)),
        by simp [FVal.div, hd, fatan, FVal.mul]⟩

theorem scale_entries_zero (mu20 mu02 l0 l1 : ℝ) (h : l0 = 0 ∨ l1 = 0) :
    (scale_entries mu20 mu02 l0 l1).1.toExcept = .error .nonFinite
    ∨ (scale_entries mu20 mu02 l0 l1).2.toExcept = .error .nonFinite := by
  have hq : fpow_quarter (l0 * l1) = .fin 0 := by
    have h0 : l0 * l1 = 0 := by
      rcases h with h | h <;> simp [h]
    unfold fpow_quarter
    rw [h0]
    simp only [lt_self_iff_false, if_false]
    congr 1
    exact Real.zero_rpow (by norm_num)
  have hs : fsqrt 0 = .fin 0 := by
    simp [fsqrt]
  have hnan : (FVal.div (FVal.fin (0 : ℝ)) (.fin 0)).toExcept = .error .nonFinite :=
    fdiv_zero_toExcept 0
  unfold scale_entries
  rw [hq]
  by_cases hb : mu20 > mu02
  · simp only [hb, if_true]
    rcases h with h | h
    · left; rw [h, hs]; exact hnan
    · right; rw [h, hs]; exact hnan
  · simp only [hb, if_false]
    rcases h with h | h
    · right; rw [h, hs]; exact hnan
    · left; rw [h, hs]; exact hnan

theorem bind_scale_error {β : Type} (sc : FVal ℝ × FVal ℝ) (f : ℝ → ℝ → Except Fault β)
    (h : sc.1.toExcept = .error .nonFinite ∨ sc.2.toExcept = .error .nonFinite) :
    (sc.1.toExcept >>= fun x => sc.2.toExcept >>= fun y => f x y) = .error .nonFinite := by
  rcases sc with ⟨a, b⟩
  cases a <;> cases b <;> simp_all [FVal.toExcept, bind, Except.bind]

theorem ok_bind {β γ : Type} (x : β) (f : β → Except Fault γ) :
    ((Except.ok x : Except Fault β) >>= f) = f x := rfl

theorem correct_contour_eigen_zero (moments : List (Point2f ℝ) → Moments)
    (eigen : Matrix (Fin 2) (Fin 2) ℝ → ℝ × ℝ) (contour : List Point)
    (r s t : Matrix (Fin 3) (Fin 3) ℝ)
    (hm : (moments (contour.map Point.toPoint2f)).m00 ≠ 0)
    (h : (eigen !![(moments (contour.map Point.toPoint2f)).mu20
              / (moments (contour.map Point.toPoint2f)).m00,
            (moments (contour.map Point.toPoint2f)).mu11
              / (moments (contour.map Point.toPoint2f)).m00;
            (moments (contour.map Point.toPoint2f)).mu11
              / (moments (contour.map Point.toPoint2f)).m00,
            (moments (contour.map Point.toPoint2f)).mu02
              / (moments (contour.map Point.toPoint2f)).m00]).1 = 0
        ∨ (eigen !![(moments (contour.map Point.toPoint2f)).mu20
              / (moments (contour.map Point.toPoint2f)).m00,
            (moments (contour.map Point.toPoint2f)).mu11
              / (moments (contour.map Point.toPoint2f)).m00;
            (moments (contour.map Point.toPoint2f)).mu11
              / (moments (contour.map Point.toPoint2f)).m00,
            (moments (contour.map Point.toPoint2f)).mu02
              / (moments (contour.map Point.toPoint2f)).m00]).2 = 0) :
    correct_contour moments eigen contour r s t = .error .nonFinite := by
  unfold correct_contour
  simp only [fdiv_toExcept_of_ne _ _ hm]
  obtain ⟨theta, ht⟩ := orientation_finite
    ((moments (contour.map Point.toPoint2f)).mu11 / (moments (contour.map Point.toPoint2f)).m00)
    ((moments (contour.map Point.toPoint2f)).mu20 / (moments (contour.map Point.toPoint2f)).m00)
    ((moments (contour.map Point.toPoint2f)).mu02 / (moments (contour.map Point.toPoint2f)).m00)
  simp only [ht, toExcept_fin, ok_bind]
  exact bind_scale_error _ _ (scale_entries_zero _ _ _ _ h)

theorem correction_distortion_from_entries (moments : List (Point2f ℝ) → Moments)
    (eigen : Matrix (Fin 2) (Fin 2) ℝ → ℝ × ℝ)
    (rot scl trl : List (Matrix (Fin 3) (Fin 3) ℝ)) :
    ∀ (contours : List (List Point)) (contour_idx : Nat),
      contour_idx + contours.length ≤ rot.length →
      contour_idx + contours.length ≤ scl.length →
      contour_idx + contours.length ≤ trl.length →
      ∃ out, correction_distortion_from moments eigen rot scl trl contours contour_idx = .ok out
        ∧ out.length = contours.length
        ∧ ∀ (i : Nat) (hi : i < contours.length), ∃ r s t,
            rot[contour_idx + i]? = some r ∧ scl[contour_idx + i]? = some s
            ∧ trl[contour_idx + i]? = some t
            ∧ out[i]? = some (correct_contour moments eigen (contours.get ⟨i, hi⟩) r s t) := by
  intro contours
  induction contours with
  | nil =>
    intro contour_idx _ _ _
    exact ⟨[], rfl, rfl, fun i hi => absurd hi (Nat.not_lt_zero i)⟩
  | cons c rest ih =>
    intro contour_idx hr hs ht
    simp only [List.length_cons] at hr hs ht
    have hr0 : contour_idx < rot.length := by omega
    have hs0 : contour_idx < scl.length := by omega
    have ht0 : contour_idx < trl.length := by omega
    obtain ⟨out, ho, hlen, hent⟩ := ih (contour_idx + 1) (by omega) (by omega) (by omega)
    refine ⟨correct_contour moments eigen c (rot.get ⟨contour_idx, hr0⟩)
      (scl.get ⟨contour_idx, hs0⟩) (trl.get ⟨contour_idx, ht0⟩) :: out, ?_, by simp [hlen], ?_⟩
    · unfold correction_distortion_from
      rw [vecGet_eq_ok rot contour_idx hr0, vecGet_eq_ok scl contour_idx hs0,
        vecGet_eq_ok trl contour_idx ht0]
      simp only [ho]
    · intro i hi
      cases i with
      | zero =>
        exact ⟨rot.get ⟨contour_idx, hr0⟩, scl.get ⟨contour_idx, hs0⟩,
          trl.get ⟨contour_idx, ht0⟩, by simp [List.getElem?_eq_getElem hr0],
          by simp [List.getElem?_eq_getElem hs0], by simp [List.getElem?_eq_getElem ht0],
          by simp⟩
      | succ j =>
        obtain ⟨r, s, t, h1, h2, h3, h4⟩ := hent j (by simpa using hi)
        refine ⟨r, s, t, ?_, ?_, ?_, ?_⟩
        · rw [← h1]; congr 1; omega
        · rw [← h2]; congr 1; omega
        · rw [← h3]; congr 1; omega
        · simpa using h4

/-- C9, amended. Given matrix vectors at least as long as the contour list,
`correction_distortion` stores exactly one entry per input contour, at the same index and
computed from that contour and its own matrices alone; nothing is reported or dropped. The
entry of a contour whose moment `m00` is `0`, or whose covariance matrix has a zero
eigenvalue, is a contour with NaN or infinite values. The number of points is not tested. -/
theorem correction_distortion_no_drop (moments : List (Point2f ℝ) → Moments)
    (eigen : Matrix (Fin 2) (Fin 2) ℝ → ℝ × ℝ) (contours : List (List Point))
    (rot scl trl : List (Matrix (Fin 3) (Fin 3) ℝ))
    (hr : contours.length ≤ rot.length) (hs : contours.length ≤ scl.length)
    (ht : contours.length ≤ trl.length) :
    ∃ out, correction_distortion moments eigen contours rot scl trl = .ok out
      ∧ out.length = contours.length
      ∧ ∀ (i : Nat) (hi : i < contours.length), ∃ r s t,
          rot[i]? = some r ∧ scl[i]? = some s ∧ trl[i]? = some t
          ∧ out[i]? = some (correct_contour moments eigen (contours.get ⟨i, hi⟩) r s t)
          ∧ (((moments ((contours.get ⟨i, hi⟩).map Point.toPoint2f)).m00 = 0
              ∨ (eigen !![(moments ((contours.get ⟨i, hi⟩).map Point.toPoint2f)).mu20
                    / (moments ((contours.get ⟨i, hi⟩).map Point.toPoint2f)).m00,
                  (moments ((contours.get ⟨i, hi⟩).map Point.toPoint2f)).mu11
                    / (moments ((contours.get ⟨i, hi⟩).map Point.toPoint2f)).m00;
                  (moments ((contours.get ⟨i, hi⟩).map Point.toPoint2f)).mu11
                    / (moments ((contours.get ⟨i, hi⟩).map Point.toPoint2f)).m00,
                  (moments ((contours.get ⟨i, hi⟩).map Point.toPoint2f)).mu02
                    / (moments ((contours.get ⟨i, hi⟩).map Point.toPoint2f)).m00]).1 = 0
              ∨ (eigen !![(moments ((contours.get ⟨i, hi⟩).map Point.toPoint2f)).mu20
                    / (moments ((contours.get ⟨i, hi⟩).map Point.toPoint2f)).m00,
                  (moments ((contours.get ⟨i, hi⟩).map Point.toPoint2f)).mu11
                    / (moments ((contours.get ⟨i, hi⟩).map Point.toPoint2f)).m00;
                  (moments ((contours.get ⟨i, hi⟩).map Point.toPoint2f)).mu11
                    / (moments ((contours.get ⟨i, hi⟩).map Point.toPoint2f)).m00,
                  (moments ((contours.get ⟨i, hi⟩).map Point.toPoint2f)).mu02
                    / (moments ((contours.get ⟨i, hi⟩).map Point.toPoint2f)).m00]).2 = 0)
            → out[i]? = some (.error .nonFinite)) := by
  obtain ⟨out, ho, hlen, hent⟩ := correction_distortion_from_entries moments eigen rot scl trl
    contours 0 (by omega) (by omega) (by omega)
  refine ⟨out, ho, hlen, ?_⟩
  intro i hi
  obtain ⟨r, s, t, h1, h2, h3, h4⟩ := hent i hi
  simp only [Nat.zero_add] at h1 h2 h3
  refine ⟨r, s, t, h1, h2, h3, h4, ?_⟩
  intro hdeg
  rw [h4]
  congr 1
  by_cases hm : (moments ((contours.get ⟨i, hi⟩).map Point.toPoint2f)).m00 = 0
  · exact correct_contour_m00_zero moments eigen _ r s t hm
  · rcases hdeg with hdeg | hdeg | hdeg
    · exact absurd hdeg hm
    · exact correct_contour_eigen_zero moments eigen _ r s t hm (Or.inl hdeg)
    · exact correct_contour_eigen_zero moments eigen _ r s t hm (Or.inr hdeg)

/-- Witness of C9, amended: a one-point contour whose moments all vanish. -/
theorem correction_distortion_no_drop_witness :
    ∃ out, correction_distortion (fun _ => ⟨0, 0, 0, 0, 0, 0⟩) (fun _ => (0, 0)) [[⟨0, 0⟩]]
        [0] [0] [0] = .ok out ∧ out.length = 1 :=
  (correction_distortion_no_drop (fun _ => ⟨0, 0, 0, 0, 0, 0⟩) (fun _ => (0, 0)) [[⟨0, 0⟩]]
    [0] [0] [0] (by simp) (by simp) (by simp)).imp (fun _ h => ⟨h.1, h.2.1⟩)

/-- Counterexample to C9: for the single one-point contour `[(0, 0)]`, whose moments are
all `0`, the output holds one entry, a contour with non-finite values: the contour is
neither reported nor dropped. -/
theorem correction_distortion_counterexample :
    correction_distortion (fun _ => ⟨0, 0, 0, 0, 0, 0⟩) (fun _ => (0, 0)) [[⟨0, 0⟩]]
      [0] [0] [0] = .ok [.error .nonFinite] := by
  have h := correct_contour_m00_zero (fun _ => ⟨0, 0, 0, 0, 0, 0⟩) (fun _ => (0, 0))
    [⟨0, 0⟩] 0 0 0 rfl
  simp only [correction_distortion, correction_distortion_from, vecGet, List.getElem?_cons_zero,
    h]

/-! ### The correspondence search without a match -/

/-- C10 at a failing input: the hull `[(1, 1)]` does not contain the first contour point
`(0, 0)`; after the only hull point the search reads the hull at index 1, past its end. -/
theorem hull_search_out_of_bounds :
    hull_search [⟨1, 1⟩] ⟨0, 0⟩ 1 0 ⟨1, 1⟩ = .error .outOfBounds
    ∧ contours_thresholding [[⟨1, 1⟩]] [[⟨0, 0⟩]] 2 = .error .outOfBounds := by
  have h : hull_search [⟨1, 1⟩] ⟨0, 0⟩ 1 0 ⟨1, 1⟩ = .error .outOfBounds := rfl
  refine ⟨h, ?_⟩
  simp only [contours_thresholding, contours_thresholding_from, threshold_contour, vecGet,
    List.getElem?_cons_zero, List.length_singleton, h]

/-! ### The linear part built by `correction_distortion` -/

theorem correct_contour_ok (moments : List (Point2f ℝ) → Moments)
    (eigen : Matrix (Fin 2) (Fin 2) ℝ → ℝ × ℝ) (contour : List Point)
    (r s t : Matrix (Fin 3) (Fin 3) ℝ) (theta sx sy : ℝ)
    (hm : (moments (contour.map Point.toPoint2f)).m00 ≠ 0)
    (ht : orientation
        ((moments (contour.map Point.toPoint2f)).mu11 / (moments (contour.map Point.toPoint2f)).m00)
        ((moments (contour.map Point.toPoint2f)).mu20 / (moments (contour.map Point.toPoint2f)).m00)
        ((moments (contour.map Point.toPoint2f)).mu02 / (moments (contour.map Point.toPoint2f)).m00)
      = .fin theta)
    (hs : scale_entries (moments (contour.map Point.toPoint2f)).mu20
        (moments (contour.map Point.toPoint2f)).mu02
        (eigen !![(moments (contour.map Point.toPoint2f)).mu20
              / (moments (contour.map Point.toPoint2f)).m00,
            (moments (contour.map Point.toPoint2f)).mu11
              / (moments (contour.map Point.toPoint2f)).m00;
            (moments (contour.map Point.toPoint2f)).mu11
              / (moments (contour.map Point.toPoint2f)).m00,
            (moments (contour.map Point.toPoint2f)).mu02
              / (moments (contour.map Point.toPoint2f)).m00]).1
        (eigen !![(moments (contour.map Point.toPoint2f)).mu20
              / (moments (contour.map Point.toPoint2f)).m00,
            (moments (contour.map Point.toPoint2f)).mu11
              / (moments (contour.map Point.toPoint2f)).m00;
            (moments (contour.map Point.toPoint2f)).mu11
              / (moments (contour.map Point.toPoint2f)).m00,
            (moments (contour.map Point.toPoint2f)).mu02
              / (moments (contour.map Point.toPoint2f)).m00]).2
      = (.fin sx, .fin sy)) :
    correct_contour moments eigen contour r s t
      = .ok ⟨forward_transformation_contour contour (write_rotation r theta)
          (write_scaling s sx sy)
          (write_translation t
            ((moments (contour.map Point.toPoint2f)).m10
              / (moments (contour.map Point.toPoint2f)).m00)
            ((moments (contour.map Point.toPoint2f)).m01
              / (moments (contour.map Point.toPoint2f)).m00)),
        write_rotation r theta, write_scaling s sx sy,
        write_translation t
          ((moments (contour.map Point.toPoint2f)).m10
            / (moments (contour.map Point.toPoint2f)).m00)
          ((moments (contour.map Point.toPoint2f)).m01
            / (moments (contour.map Point.toPoint2f)).m00)⟩ := by
  unfold correct_contour
  simp only [fdiv_toExcept_of_ne _ _ hm, ht, hs, toExcept_fin, ok_bind]
  rfl

theorem linear_part_rotation_scaling (theta sx sy : ℝ) :
    linear_part (write_rotation 0 theta * write_scaling 0 sx sy)
      = !![Real.cos theta * sx, - Real.sin theta * sy;
           Real.sin theta * sx, Real.cos theta * sy] := by
  ext i j
  fin_cases i <;> fin_cases j <;>
    simp [linear_part, write_rotation, write_scaling, mat_set, Matrix.mul_apply,
      Fin.sum_univ_three]

theorem quarter_sq (x : ℝ) (hx : 0 ≤ x) : (x ^ (0.25 : ℝ)) ^ 2 = Real.sqrt x := by
  rw [Real.sqrt_eq_rpow, ← Real.rpow_natCast, ← Real.rpow_mul hx]
  norm_num

theorem scale_entries_pos (mu20 mu02 l0 l1 : ℝ) (h0 : 0 < l0) (h1 : 0 < l1) :
    scale_entries mu20 mu02 l0 l1
      = if mu20 > mu02 then
          (.fin ((l0 * l1) ^ (0.25 : ℝ) / Real.sqrt l0),
            .fin ((l0 * l1) ^ (0.25 : ℝ) / Real.sqrt l1))
        else
          (.fin ((l0 * l1) ^ (0.25 : ℝ) / Real.sqrt l1),
            .fin ((l0 * l1) ^ (0.25 : ℝ) / Real.sqrt l0)) := by
  have hp : ¬ (l0 * l1 < 0) := not_lt.mpr (mul_pos h0 h1).le
  have hs0 : Real.sqrt l0 ≠ 0 := (Real.sqrt_pos.mpr h0).ne'
  have hs1 : Real.sqrt l1 ≠ 0 := (Real.sqrt_pos.mpr h1).ne'
  unfold scale_entries fpow_quarter fsqrt
  simp only [hp, not_lt.mpr h0.le, not_lt.mpr h1.le, if_false, FVal.div, hs0, hs1]

theorem transpose_two (p q r t : ℝ) :
    (!![p, q; r, t] : Matrix (Fin 2) (Fin 2) ℝ).transpose = !![p, r; q, t] := by
  ext i j
  fin_cases i <;> fin_cases j <;> rfl

theorem equalise_forces_axis_aligned (c s sx sy a b d g : ℝ) (hcs : c ^ 2 + s ^ 2 = 1)
    (hsx : 0 < sx) (hsy : 0 < sy)
    (h : (!![c * sx, - s * sy; s * sx, c * sy] : Matrix (Fin 2) (Fin 2) ℝ) * !![a, b; b, d]
        * (!![c * sx, - s * sy; s * sx, c * sy] : Matrix (Fin 2) (Fin 2) ℝ).transpose
      = !![g, 0; 0, g]) : b = 0 := by
  rw [transpose_two] at h
  have h00 := congrFun (congrFun h 0) 0
  have h01 := congrFun (congrFun h 0) 1
  have h11 := congrFun (congrFun h 1) 1
  simp [Matrix.mul_apply, Fin.sum_univ_two] at h00 h01 h11
  have hq : sx * sy * b = 0 := by
    linear_combination (c ^ 2 - s ^ 2) * h01 - c * s * (h00 - h11)
      - (sx * sy * b) * (1 + c ^ 2 + s ^ 2) * hcs
  rcases mul_eq_zero.mp hq with h1 | h1
  · exact absurd h1 (mul_pos hsx hsy).ne'
  · exact h1

theorem equalise_axis_aligned (sx sy a d : ℝ) :
    (!![Real.cos 0.0 * sx, - Real.sin 0.0 * sy; Real.sin 0.0 * sx, Real.cos 0.0 * sy]
        : Matrix (Fin 2) (Fin 2) ℝ) * !![a, 0; 0, d]
      * (!![Real.cos 0.0 * sx, - Real.sin 0.0 * sy; Real.sin 0.0 * sx, Real.cos 0.0 * sy]
        : Matrix (Fin 2) (Fin 2) ℝ).transpose
      = !![sx ^ 2 * a, 0; 0, sy ^ 2 * d] := by
  have h0 : (0.0 : ℝ) = 0 := by norm_num
  rw [h0, transpose_two]
  ext i j
  fin_cases i <;> fin_cases j <;>
    simp [Matrix.mul_apply, Fin.sum_univ_two] <;> ring

theorem scale_entries_spec (mu20 mu02 m00 l0 l1 b : ℝ) (hm : 0 < m00)
    (hl : l1 ≤ l0) (hl1 : 0 < l1) (htr : l0 + l1 = mu20 / m00 + mu02 / m00)
    (hdet : l0 * l1 = mu20 / m00 * (mu02 / m00) - b ^ 2) :
    ∃ sx sy, scale_entries mu20 mu02 l0 l1 = (.fin sx, .fin sy) ∧ 0 < sx ∧ 0 < sy
      ∧ (b = 0 → sx ^ 2 * (mu20 / m00) = Real.sqrt (l0 * l1)
          ∧ sy ^ 2 * (mu02 / m00) = Real.sqrt (l0 * l1)) := by
  have hl0 : 0 < l0 := lt_of_lt_of_le hl1 hl
  have hprod : 0 < l0 * l1 := mul_pos hl0 hl1
  have hp : 0 < (l0 * l1) ^ (0.25 : ℝ) := Real.rpow_pos_of_pos hprod _
  have hp2 := quarter_sq (l0 * l1) hprod.le
  have hs0 : 0 < Real.sqrt l0 := Real.sqrt_pos.mpr hl0
  have hs1 : 0 < Real.sqrt l1 := Real.sqrt_pos.mpr hl1
  have hsq0 : ((l0 * l1) ^ (0.25 : ℝ) / Real.sqrt l0) ^ 2 = Real.sqrt (l0 * l1) / l0 := by
    rw [div_pow, hp2, Real.sq_sqrt hl0.le]
  have hsq1 : ((l0 * l1) ^ (0.25 : ℝ) / Real.sqrt l1) ^ 2 = Real.sqrt (l0 * l1) / l1 := by
    rw [div_pow, hp2, Real.sq_sqrt hl1.le]
  have hroot : b = 0 → (l0 - mu20 / m00) * (l0 - mu02 / m00) = 0 := by
    intro hb
    rw [hb] at hdet
    linear_combination l0 * htr - hdet
  rw [scale_entries_pos mu20 mu02 l0 l1 hl0 hl1]
  by_cases hbr : mu20 > mu02
  · have had : mu02 / m00 < mu20 / m00 := div_lt_div_of_pos_right hbr hm
    simp only [hbr, if_true]
    refine ⟨_, _, rfl, div_pos hp hs0, div_pos hp hs1, ?_⟩
    intro hb
    have h0 : l0 = mu20 / m00 := by
      rcases mul_eq_zero.mp (hroot hb) with h | h
      · linarith
      · exfalso
        have : l1 = mu20 / m00 := by linarith
        linarith
    have h1 : l1 = mu02 / m00 := by linarith
    rw [hsq0, hsq1, ← h0, ← h1]
    exact ⟨div_mul_cancel₀ _ hl0.ne', div_mul_cancel₀ _ hl1.ne'⟩
  · have had : mu20 / m00 ≤ mu02 / m00 := div_le_div_of_nonneg_right (not_lt.mp hbr) hm.le
    simp only [hbr, if_false]
    refine ⟨_, _, rfl, div_pos hp hs1, div_pos hp hs0, ?_⟩
    intro hb
    have h0 : l0 = mu02 / m00 := by
      rcases mul_eq_zero.mp (hroot hb) with h | h
      · have : l1 = mu02 / m00 := by linarith
        linarith
      · linarith
    have h1 : l1 = mu20 / m00 := by linarith
    rw [hsq0, hsq1, ← h0, ← h1]
    exact ⟨div_mul_cancel₀ _ hl1.ne', div_mul_cancel₀ _ hl0.ne'⟩

/-- C8, amended. For moments with `m00 > 0` whose covariance matrix `Sigma` has the
eigenvalues `l0 ≥ l1 > 0` returned in descending order, and zero-initialised rotation and
scaling matrices, `correction_distortion` succeeds and the linear part
`A = Rotation * Scale` satisfies `A * Sigma * Aᵀ = diag(sqrt(l0*l1), sqrt(l0*l1))` if and
only if the mixed moment `mu11p` is `0` (the blob is already axis-aligned). -/
theorem correction_distortion_equalises_iff (moments : List (Point2f ℝ) → Moments)
    (eigen : Matrix (Fin 2) (Fin 2) ℝ → ℝ × ℝ) (contour : List Point)
    (t : Matrix (Fin 3) (Fin 3) ℝ) (l0 l1 : ℝ)
    (hm : 0 < (moments (contour.map Point.toPoint2f)).m00)
    (heig : eigen (covariance (moments (contour.map Point.toPoint2f))) = (l0, l1))
    (hl : l1 ≤ l0) (hl1 : 0 < l1)
    (htr : l0 + l1 = (moments (contour.map Point.toPoint2f)).mu20
          / (moments (contour.map Point.toPoint2f)).m00
        + (moments (contour.map Point.toPoint2f)).mu02
          / (moments (contour.map Point.toPoint2f)).m00)
    (hdet : l0 * l1 = (moments (contour.map Point.toPoint2f)).mu20
          / (moments (contour.map Point.toPoint2f)).m00
        * ((moments (contour.map Point.toPoint2f)).mu02
          / (moments (contour.map Point.toPoint2f)).m00)
        - ((moments (contour.map Point.toPoint2f)).mu11
          / (moments (contour.map Point.toPoint2f)).m00) ^ 2) :
    ∃ res, correct_contour moments eigen contour 0 0 t = .ok res
      ∧ (linear_part (res.rotation_matrix * res.scaling_matrix)
            * covariance (moments (contour.map Point.toPoint2f))
            * (linear_part (res.rotation_matrix * res.scaling_matrix)).transpose
          = !![Real.sqrt (l0 * l1), 0; 0, Real.sqrt (l0 * l1)]
        ↔ (moments (contour.map Point.toPoint2f)).mu11
            / (moments (contour.map Point.toPoint2f)).m00 = 0) := by
  obtain ⟨theta, hth⟩ := orientation_finite
    ((moments (contour.map Point.toPoint2f)).mu11 / (moments (contour.map Point.toPoint2f)).m00)
    ((moments (contour.map Point.toPoint2f)).mu20 / (moments (contour.map Point.toPoint2f)).m00)
    ((moments (contour.map Point.toPoint2f)).mu02 / (moments (contour.map Point.toPoint2f)).m00)
  obtain ⟨sx, sy, hsc, hsx, hsy, hax⟩ := scale_entries_spec
    (moments (contour.map Point.toPoint2f)).mu20 (moments (contour.map Point.toPoint2f)).mu02
    (moments (contour.map Point.toPoint2f)).m00 l0 l1
    ((moments (contour.map Point.toPoint2f)).mu11 / (moments (contour.map Point.toPoint2f)).m00)
    hm hl hl1 htr hdet
  have hok := correct_contour_ok moments eigen contour 0 0 t theta sx sy hm.ne' hth
    (by
      have he : eigen !![(moments (contour.map Point.toPoint2f)).mu20
              / (moments (contour.map Point.toPoint2f)).m00,
            (moments (contour.map Point.toPoint2f)).mu11
              / (moments (contour.map Point.toPoint2f)).m00;
            (moments (contour.map Point.toPoint2f)).mu11
              / (moments (contour.map Point.toPoint2f)).m00,
            (moments (contour.map Point.toPoint2f)).mu02
              / (moments (contour.map Point.toPoint2f)).m00] = (l0, l1) := heig
      rw [he]
      exact hsc)
  refine ⟨_, hok, ?_⟩
  simp only [linear_part_rotation_scaling]
  constructor
  · intro h
    exact equalise_forces_axis_aligned (Real.cos theta) (Real.sin theta) sx sy _ _ _ _
      (Real.cos_sq_add_sin_sq theta) hsx hsy h
  · intro hb
    have hth0 : theta = 0.0 := by
      rw [hb] at hth
      simp only [orientation, ne_eq, not_true_eq_false, if_false] at hth
      exact (FVal.fin.inj hth).symm
    obtain ⟨h1, h2⟩ := hax hb
    have hcov : covariance (moments (contour.map Point.toPoint2f))
        = !![(moments (contour.map Point.toPoint2f)).mu20
              / (moments (contour.map Point.toPoint2f)).m00, 0;
            0, (moments (contour.map Point.toPoint2f)).mu02
              / (moments (contour.map Point.toPoint2f)).m00] := by
      unfold covariance
      rw [hb]
    rw [hcov, hth0, equalise_axis_aligned, h1, h2]

/-- Witness of C8, amended: `Sigma = diag(4, 1)` with eigenvalues `4` and `1`. -/
theorem correction_distortion_equalises_iff_witness :
    ∃ res, correct_contour (fun _ => ⟨1, 0, 0, 4, 0, 1⟩) (fun _ => (4, 1)) [] 0 0 0 = .ok res
      ∧ (linear_part (res.rotation_matrix * res.scaling_matrix)
            * covariance ⟨1, 0, 0, 4, 0, 1⟩
            * (linear_part (res.rotation_matrix * res.scaling_matrix)).transpose
          = !![Real.sqrt (4 * 1), 0; 0, Real.sqrt (4 * 1)]
        ↔ (0 : ℝ) / 1 = 0) :=
  correction_distortion_equalises_iff (fun _ => ⟨1, 0, 0, 4, 0, 1⟩) (fun _ => (4, 1)) [] 0 4 1
    (by norm_num) rfl (by norm_num) (by norm_num) (by norm_num) (by norm_num)

/-- Counterexample to C8: `Sigma = [[5, 2], [2, 2]]` is symmetric positive definite with
eigenvalues `6 ≥ 1 > 0`, yet for the matrices that `correction_distortion` builds
`A * Sigma * Aᵀ` is not `diag(sqrt 6, sqrt 6)`. -/
theorem correction_distortion_equalises_counterexample :
    covariance ⟨1, 0, 0, 5, 2, 2⟩ = !![5, 2; 2, 2]
    ∧ (6 : ℝ) + 1 = 5 + 2 ∧ (6 : ℝ) * 1 = 5 * 2 - 2 ^ 2
    ∧ ∃ res, correct_contour (fun _ => ⟨1, 0, 0, 5, 2, 2⟩) (fun _ => (6, 1)) [] 0 0 0 = .ok res
      ∧ ¬ (linear_part (res.rotation_matrix * res.scaling_matrix)
            * covariance ⟨1, 0, 0, 5, 2, 2⟩
            * (linear_part (res.rotation_matrix * res.scaling_matrix)).transpose
          = !![Real.sqrt (6 * 1), 0; 0, Real.sqrt (6 * 1)]) := by
  refine ⟨by simp [covariance], by norm_num, by norm_num, ?_⟩
  obtain ⟨theta, hth⟩ := orientation_finite ((2 : ℝ) / 1) (5 / 1) (2 / 1)
  obtain ⟨sx, sy, hsc, hsx, hsy, _⟩ := scale_entries_spec 5 2 1 6 1 (2 / 1)
    (by norm_num) (by norm_num) (by norm_num) (by norm_num) (by norm_num)
  have hok := correct_contour_ok (fun _ => ⟨1, 0, 0, 5, 2, 2⟩) (fun _ => (6, 1)) [] 0 0 0
    theta sx sy (by norm_num) hth hsc
  refine ⟨_, hok, ?_⟩
  simp only [linear_part_rotation_scaling]
  intro h
  have hb := equalise_forces_axis_aligned (Real.cos theta) (Real.sin theta) sx sy _ _ _ _
    (Real.cos_sq_add_sin_sq theta) hsx hsy h
  norm_num at hb

/-! ### The keep test in integer arithmetic -/

theorem distance_degenerate (po pc : Point) : distance po po pc = FVal.nan := by
  unfold distance
  simp only [sub_self, ne_eq, OfNat.ofNat_ne_zero, not_false_eq_true, zero_pow, add_zero,
    Real.sqrt_zero, zero_add, sub_zero]
  have hc : Real.sqrt (((po.x : ℝ) - pc.x) ^ 2 + ((po.y : ℝ) - pc.y) ^ 2)
      = Real.sqrt (((pc.x : ℝ) - po.x) ^ 2 + ((pc.y : ℝ) - po.y) ^ 2) := by
    congr 1
    ring
  rw [hc]
  have hs : (Real.sqrt (((pc.x : ℝ) - po.x) ^ 2 + ((pc.y : ℝ) - po.y) ^ 2)
      + Real.sqrt (((pc.x : ℝ) - po.x) ^ 2 + ((pc.y : ℝ) - po.y) ^ 2)) / 2
      = Real.sqrt (((pc.x : ℝ) - po.x) ^ 2 + ((pc.y : ℝ) - po.y) ^ 2) := by ring
  rw [hs]
  simp [fsqrt, FVal.mul, FVal.div]

theorem distance_eq_cross (po pf pc : Point) (h : po ≠ pf) :
    distance po pf pc
      = FVal.fin (|(cross po pf pc : ℝ)| / Real.sqrt ((sqDist po pf : ℝ))) := by
  rw [distance_eq po pf pc h]
  congr 2
  · unfold cross
    push_cast
    ring_nf
  · unfold sqDist
    push_cast
    ring_nf

theorem sqDist_pos (po pf : Point) (h : po ≠ pf) : 0 < sqDist po pf := by
  unfold sqDist
  have hne : pf.x - po.x ≠ 0 ∨ pf.y - po.y ≠ 0 := by
    by_contra hcon
    push_neg at hcon
    apply h
    cases po
    cases pf
    simp only [Point.mk.injEq] at *
    omega
  rcases hne with h1 | h1
  · have := pow_pos (abs_pos.mpr h1) 2
    rw [sq_abs] at this
    nlinarith [sq_nonneg (pf.y - po.y)]
  · have := pow_pos (abs_pos.mpr h1) 2
    rw [sq_abs] at this
    nlinarith [sq_nonneg (pf.x - po.x)]

theorem near_hull_edge_int (t : Int) (ht : 0 < t) (po pf pc : Point) :
    near_hull_edge (t : ℝ) po pf pc = near_int t po pf pc := by
  unfold near_hull_edge near_int
  by_cases h : po = pf
  · subst h
    simp [distance_degenerate, FVal.lt]
  · rw [distance_eq_cross po pf pc h]
    simp only [FVal.lt, h, if_false]
    have hs : (0 : ℝ) < (sqDist po pf : ℝ) := by exact_mod_cast sqDist_pos po pf h
    have hsq : 0 < Real.sqrt ((sqDist po pf : ℝ)) := Real.sqrt_pos.mpr hs
    have htr : (0 : ℝ) < (t : ℝ) := by exact_mod_cast ht
    have hiff : (|(cross po pf pc : ℝ)| / Real.sqrt ((sqDist po pf : ℝ)) < (t : ℝ))
        ↔ (cross po pf pc) ^ 2 < t ^ 2 * sqDist po pf := by
      rw [div_lt_iff₀ hsq]
      have h1 : |(cross po pf pc : ℝ)| = Real.sqrt (((cross po pf pc : ℝ)) ^ 2) :=
        (Real.sqrt_sq_eq_abs _).symm
      have h2 : (t : ℝ) * Real.sqrt ((sqDist po pf : ℝ))
          = Real.sqrt ((t : ℝ) ^ 2 * (sqDist po pf : ℝ)) := by
        rw [Real.sqrt_mul (sq_nonneg _), Real.sqrt_sq htr.le]
      rw [h1, h2, Real.sqrt_lt_sqrt_iff (sq_nonneg _)]
      constructor
      · intro hlt
        exact_mod_cast hlt
      · intro hlt
        exact_mod_cast hlt
    exact decide_eq_decide.mpr hiff

theorem near_hull_edge_two : near_hull_edge 2 = near_int 2 := by
  funext po pf pc
  have := near_hull_edge_int 2 (by norm_num) po pf pc
  simpa using this

theorem contours_thresholding_two (hulls contours : List (List Point)) :
    contours_thresholding hulls contours 2
      = contours_thresholding_from (near_int 2) hulls contours 0 [] := by
  unfold contours_thresholding
  rw [near_hull_edge_two]

theorem prev_hull_idx_eq (idx : Int) (n : Nat) (h0 : 0 ≤ idx) (h1 : idx < n)
    (h3 : n < 2147483648) :
    prev_hull_idx idx n = if idx = 0 then (n : Int) - 1 else idx - 1 := by
  unfold prev_hull_idx
  by_cases hz : idx = 0
  · subst hz
    have hx : ((0 - 1 : Int) % 18446744073709551616 + (n : Int)) % 18446744073709551616
        = (n : Int) - 1 := by omega
    rw [hx]
    simp only [if_true]
    exact Int.emod_eq_of_lt (by omega) (by omega)
  · have hx : ((idx - 1) % 18446744073709551616 + (n : Int)) % 18446744073709551616
        = idx - 1 + (n : Int) := by omega
    rw [hx]
    simp only [hz, if_false]
    rw [Int.add_emod_self]
    exact Int.emod_eq_of_lt (by omega) (by omega)

theorem prev_hull_idx_toNat_ne (idx : Int) (n : Nat) (h0 : 0 ≤ idx) (h1 : idx < n)
    (h2 : 2 ≤ n) (h3 : n < 2147483648) :
    (prev_hull_idx idx n).toNat ≠ idx.toNat := by
  rw [prev_hull_idx_eq idx n h0 h1 h3]
  split_ifs with hz <;> omega

theorem hull_walk_fixed (near : Point → Point → Point → Bool) (hull : List Point)
    (hnd : hull.Nodup) (h2 : 2 ≤ hull.length) (h3 : hull.length < 2147483648)
    (hnext : ∀ po pf, po ≠ pf → near po pf pf = true) :
    ∀ (contour : List Point) (hull_idx : Int) (cur next : Point),
      0 ≤ hull_idx → hull_idx < hull.length → hull[hull_idx.toNat]? = some next → cur ≠ next →
      ∃ sub, (∀ acc, hull_walk near hull contour hull_idx cur next acc = .ok (acc ++ sub))
        ∧ (∀ acc, hull_walk near hull sub hull_idx cur next acc = .ok (acc ++ sub))
        ∧ (∀ p rest, contour = p :: rest → near cur next p = true → ∃ rest2, sub = p :: rest2) := by
  intro contour
  induction contour with
  | nil =>
    intro hull_idx cur next _ _ _ _
    exact ⟨[], by simp [hull_walk], by simp [hull_walk], by intro p rest h; cases h⟩
  | cons p rest ih =>
    intro hull_idx cur next h0 h1 hn hne
    have hpos : 0 < hull.length := by omega
    have hlt : hull_idx.toNat < hull.length := by omega
    have hnextv : hull.get ⟨hull_idx.toNat, hlt⟩ = next := by
      rw [List.getElem?_eq_getElem hlt] at hn
      exact Option.some.inj hn
    have hget : vecGet hull hull_idx.toNat = .ok next := by
      rw [vecGet_eq_ok hull hull_idx.toNat hlt, hnextv]
    have hlt2 := prev_hull_idx_toNat_lt hull_idx hull.length hpos
    have hget2 := vecGet_eq_ok hull (prev_hull_idx hull_idx hull.length).toNat hlt2
    have hn0 := prev_hull_idx_nonneg hull_idx hull.length hpos
    have hn1 := prev_hull_idx_lt hull_idx hull.length hpos
    have hne2 : next ≠ hull.get ⟨(prev_hull_idx hull_idx hull.length).toNat, hlt2⟩ := by
      rw [← hnextv]
      intro heq
      have := (List.Nodup.get_inj_iff hnd).mp heq
      exact prev_hull_idx_toNat_ne hull_idx hull.length h0 h1 h2 h3 (Fin.mk.inj this).symm
    by_cases he : next = p
    · subst he
      have hk : near cur next next = true := hnext cur next hne
      obtain ⟨sub, hs1, hs2, _⟩ := ih (prev_hull_idx hull_idx hull.length) next
        (hull.get ⟨(prev_hull_idx hull_idx hull.length).toNat, hlt2⟩) hn0 hn1
        (by rw [List.getElem?_eq_getElem hlt2]; rfl) hne2
      have step : ∀ (tail : List Point) (acc : List Point),
          hull_walk near hull (next :: tail) hull_idx cur next acc
            = hull_walk near hull tail (prev_hull_idx hull_idx hull.length) next
                (hull.get ⟨(prev_hull_idx hull_idx hull.length).toNat, hlt2⟩) (acc ++ [next]) := by
        intro tail acc
        rw [hull_walk]
        simp only [hk, if_true, hget, hget2]
      refine ⟨next :: sub, ?_, ?_, ?_⟩
      · intro acc
        rw [step, hs1]
        simp
      · intro acc
        rw [step, hs2]
        simp
      · intro q rest2 hq _
        exact ⟨sub, by rw [(List.cons.inj hq).1]⟩
    · obtain ⟨sub, hs1, hs2, _⟩ := ih hull_idx cur next h0 h1 hn hne
      by_cases hk : near cur next p = true
      · have step : ∀ (tail : List Point) (acc : List Point),
            hull_walk near hull (p :: tail) hull_idx cur next acc
              = hull_walk near hull tail hull_idx cur next (acc ++ [p]) := by
          intro tail acc
          rw [hull_walk]
          simp only [hk, if_true, he, if_false]
        refine ⟨p :: sub, ?_, ?_, ?_⟩
        · intro acc
          rw [step, hs1]
          simp
        · intro acc
          rw [step, hs2]
          simp
        · intro q rest2 hq _
          exact ⟨sub, by rw [(List.cons.inj hq).1]⟩
      · have step : ∀ (acc : List Point),
            hull_walk near hull (p :: rest) hull_idx cur next acc
              = hull_walk near hull rest hull_idx cur next acc := by
          intro acc
          rw [hull_walk]
          simp only [hk, he, if_false]
          rfl
        refine ⟨sub, ?_, hs2, ?_⟩
        · intro acc
          rw [step, hs1]
        · intro q rest2 hq hnear
          rw [(List.cons.inj hq).1] at hk
          exact absurd hnear hk

theorem threshold_contour_unfold (near : Point → Point → Point → Bool) (hull : List Point)
    (p : Point) (hp : p ∈ hull) :
    ∃ (k : Nat) (next : Point), k < hull.length ∧ hull[k]? = some p
      ∧ hull[(prev_hull_idx (k : Int) hull.length).toNat]? = some next
      ∧ ∀ tail, threshold_contour near hull (p :: tail)
          = hull_walk near hull (p :: tail) (prev_hull_idx (k : Int) hull.length) p next [] := by
  obtain ⟨j, hjlt, hj⟩ := List.getElem_of_mem hp
  have hpos : 0 < hull.length := by omega
  obtain ⟨k, hk, _, hklt, hkp, _⟩ :=
    hull_search_found hull p hull.length 0 (hull.get ⟨0, hpos⟩)
      (by simp [List.getElem?_eq_getElem hpos])
      ⟨j, Nat.zero_le _, by simp [List.getElem?_eq_getElem hjlt, hj]⟩ (by omega)
  have hn2 := prev_hull_idx_toNat_lt (k : Int) hull.length hpos
  refine ⟨k, hull.get ⟨_, hn2⟩, hklt, hkp, by rw [List.getElem?_eq_getElem hn2]; rfl, ?_⟩
  intro tail
  unfold threshold_contour
  rw [vecGet_eq_ok hull 0 hpos]
  simp only [vecGet, List.getElem?_cons_zero]
  rw [hk]
  simp only [List.getElem?_eq_getElem hn2]
  rfl

theorem threshold_contour_ok_mem (near : Point → Point → Point → Bool) (hull contour out : List Point)
    (h : threshold_contour near hull contour = .ok out) :
    ∃ p rest, contour = p :: rest ∧ p ∈ hull := by
  cases contour with
  | nil =>
    unfold threshold_contour at h
    cases hv : vecGet hull 0 with
    | error e => rw [hv] at h; cases h
    | ok c => rw [hv] at h; simp [vecGet] at h
  | cons p rest =>
    refine ⟨p, rest, rfl, ?_⟩
    by_contra hp
    have hlen : 0 < hull.length := by
      by_contra hz
      have : hull = [] := List.eq_nil_of_length_eq_zero (by omega)
      subst this
      unfold threshold_contour at h
      simp [vecGet] at h
    have hnf := hull_search_not_found hull p hull.length 0 (hull.get ⟨0, hlen⟩)
      (by simp [List.getElem?_eq_getElem hlen])
      (by
        intro j _ hj
        exact hp (List.getElem?_mem hj)) (by omega)
    unfold threshold_contour at h
    rw [vecGet_eq_ok hull 0 hlen] at h
    simp only [vecGet, List.getElem?_cons_zero] at h
    rw [hnf] at h
    cases h

theorem threshold_contour_fixed (near : Point → Point → Point → Bool) (hull : List Point)
    (hnd : hull.Nodup) (h2 : 2 ≤ hull.length) (h3 : hull.length < 2147483648)
    (hnext : ∀ po pf, po ≠ pf → near po pf pf = true)
    (hcur : ∀ po pf, po ≠ pf → near po pf po = true)
    (contour out : List Point) (h : threshold_contour near hull contour = .ok out) :
    threshold_contour near hull out = .ok out := by
  obtain ⟨p, rest, hc, hp⟩ := threshold_contour_ok_mem near hull contour out h
  subst hc
  obtain ⟨k, next, hklt, hkp, hnx, hun⟩ := threshold_contour_unfold near hull p hp
  have hpos : 0 < hull.length := by omega
  have hn0 := prev_hull_idx_nonneg (k : Int) hull.length hpos
  have hn1 := prev_hull_idx_lt (k : Int) hull.length hpos
  have hn2 := prev_hull_idx_toNat_lt (k : Int) hull.length hpos
  have hne : p ≠ next := by
    intro heq
    rw [← heq, ← hkp] at hnx
    rw [List.getElem?_eq_getElem hn2, List.getElem?_eq_getElem hklt] at hnx
    have hinj := (List.Nodup.get_inj_iff hnd).mp (Option.some.inj hnx)
    have hk' := prev_hull_idx_toNat_ne (k : Int) hull.length (by omega) (by omega) h2 h3
    exact hk' (by simpa using Fin.mk.inj hinj)
  obtain ⟨sub, hs1, hs2, hhead⟩ := hull_walk_fixed near hull hnd h2 h3 hnext (p :: rest)
    (prev_hull_idx (k : Int) hull.length) p next hn0 hn1 hnx hne
  have hout : out = sub := by
    rw [hun rest, hs1 []] at h
    simpa using (Except.ok.inj h).symm
  obtain ⟨rest2, hsub⟩ := hhead p rest rfl (hcur p next hne)
  rw [hout]
  have h2' := hs2 []
  rw [hsub] at h2' ⊢
  rw [hun rest2, h2']
  simp

theorem contours_thresholding_from_fixed (near : Point → Point → Point → Bool)
    (hull_contours : List (List Point))
    (hH : ∀ hull ∈ hull_contours, hull.Nodup ∧ 2 ≤ hull.length ∧ hull.length < 2147483648)
    (hnext : ∀ po pf, po ≠ pf → near po pf pf = true)
    (hcur : ∀ po pf, po ≠ pf → near po pf po = true) :
    ∀ (contours : List (List Point)) (contour_idx : Nat) (final out : List (List Point)),
      contours_thresholding_from near hull_contours contours contour_idx final = .ok out →
      ∃ outs, out = final ++ outs
        ∧ ∀ final2, contours_thresholding_from near hull_contours outs contour_idx final2
            = .ok (final2 ++ outs) := by
  intro contours
  induction contours with
  | nil =>
    intro contour_idx final out h
    refine ⟨[], ?_, ?_⟩
    · simp only [contours_thresholding_from] at h
      simpa using (Except.ok.inj h).symm
    · intro final2
      simp [contours_thresholding_from]
  | cons c rest ih =>
    intro contour_idx final out h
    unfold contours_thresholding_from at h
    cases hv : vecGet hull_contours contour_idx with
    | error e => rw [hv] at h; cases h
    | ok hull =>
      rw [hv] at h
      simp only [] at h
      cases ht : threshold_contour near hull c with
      | error e => rw [ht] at h; cases h
      | ok good =>
        rw [ht] at h
        simp only [] at h
        obtain ⟨outs, ho, hre⟩ := ih (contour_idx + 1) (final ++ [good]) out h
        have hmem : hull ∈ hull_contours := by
          unfold vecGet at hv
          cases hg : hull_contours[contour_idx]? with
          | none => rw [hg] at hv; cases hv
          | some b =>
            rw [hg] at hv
            have hb : b = hull := Except.ok.inj hv
            rw [hb] at hg
            exact List.getElem?_mem hg
        obtain ⟨hnd, h2, h3⟩ := hH hull hmem
        have hfix := threshold_contour_fixed near hull hnd h2 h3 hnext hcur c good ht
        refine ⟨good :: outs, by simp [ho], ?_⟩
        intro final2
        unfold contours_thresholding_from
        rw [hv]
        simp only [hfix]
        rw [hre]
        simp

/-- C15, amended. On a degenerate hull edge (`po = pf`, so `a = 0`) `distance` has no
guard: it is the quotient `0 / 0`, a NaN, the comparison with the threshold is false and
the contour point is not kept, whatever the threshold is. -/
theorem distance_degenerate_unguarded (po pc : Point) (dist_threshold : ℝ) :
    distance po po pc = FVal.div (.fin 0) (.fin 0)
    ∧ distance po po pc = FVal.nan
    ∧ near_hull_edge dist_threshold po po pc = false := by
  have h := distance_degenerate po pc
  refine ⟨?_, h, ?_⟩
  · rw [h]
    simp [FVal.div]
  · simp [near_hull_edge, h, FVal.lt]

/-- Counterexample to C15: with `po = pf = (0, 0)` the altitude of the point `(0, 0)`
itself is NaN, not `0`, the point is not accepted for the threshold `2`, and a contour
whose hull is that single point loses its point. -/
theorem distance_degenerate_counterexample :
    distance ⟨0, 0⟩ ⟨0, 0⟩ ⟨0, 0⟩ = FVal.nan
    ∧ distance ⟨0, 0⟩ ⟨0, 0⟩ ⟨0, 0⟩ ≠ FVal.fin 0
    ∧ near_hull_edge 2 ⟨0, 0⟩ ⟨0, 0⟩ ⟨0, 0⟩ = false
    ∧ contours_thresholding [[⟨0, 0⟩]] [[⟨0, 0⟩]] 2 = .ok [[]] := by
  have h := distance_degenerate ⟨0, 0⟩ ⟨0, 0⟩
  refine ⟨h, ?_, ?_, ?_⟩
  · rw [h]
    intro hc
    cases hc
  · simp [near_hull_edge, h, FVal.lt]
  · rw [contours_thresholding_two]
    rfl

/-! ### Hulls with fewer than three points -/

theorem inconsistent_eq (bound_rect : Rect) (size_image : Size) (areaRatio : Int)
    (lowAspectRatio highAspectRatio : ℚ) (hh : bound_rect.height ≠ 0) :
    inconsistent bound_rect size_image areaRatio lowAspectRatio highAspectRatio
      = (decide (bound_rect.area < Int.tdiv size_image.area areaRatio)
          || (decide (highAspectRatio < (bound_rect.width : ℚ) / (bound_rect.height : ℚ))
            || decide ((bound_rect.width : ℚ) / (bound_rect.height : ℚ) < lowAspectRatio))) := by
  have hq : (bound_rect.height : ℚ) ≠ 0 := by exact_mod_cast hh
  simp only [inconsistent, FVal.div, hq, if_false, FVal.gt, FVal.lt]

/-- C12. For a bounding box of non-zero height that passes the area test, the contour is
rejected if and only if `ratio = width / height` is strictly greater than
`highAspectRatio` or strictly less than `lowAspectRatio`; with `lowAspectRatio ≤
highAspectRatio`, a ratio equal to either bound is kept. -/
theorem aspect_ratio_convention (bound_rect : Rect) (size_image : Size) (areaRatio : Int)
    (lowAspectRatio highAspectRatio : ℚ) (hh : bound_rect.height ≠ 0)
    (harea : ¬ bound_rect.area < Int.tdiv size_image.area areaRatio) :
    (inconsistent bound_rect size_image areaRatio lowAspectRatio highAspectRatio = true
      ↔ (highAspectRatio < (bound_rect.width : ℚ) / (bound_rect.height : ℚ)
          ∨ (bound_rect.width : ℚ) / (bound_rect.height : ℚ) < lowAspectRatio))
    ∧ (lowAspectRatio ≤ highAspectRatio →
        (bound_rect.width : ℚ) / (bound_rect.height : ℚ) = lowAspectRatio →
        inconsistent bound_rect size_image areaRatio lowAspectRatio highAspectRatio = false)
    ∧ (lowAspectRatio ≤ highAspectRatio →
        (bound_rect.width : ℚ) / (bound_rect.height : ℚ) = highAspectRatio →
        inconsistent bound_rect size_image areaRatio lowAspectRatio highAspectRatio = false) := by
  rw [inconsistent_eq bound_rect size_image areaRatio lowAspectRatio highAspectRatio hh]
  simp only [harea, decide_False, Bool.false_or]
  refine ⟨?_, ?_, ?_⟩
  · simp only [Bool.or_eq_true, decide_eq_true_eq]
  · intro hle heq
    rw [heq]
    simp only [Bool.or_eq_false_iff, decide_eq_false_iff_not, not_lt]
    exact ⟨hle, le_refl _⟩
  · intro hle heq
    rw [heq]
    simp only [Bool.or_eq_false_iff, decide_eq_false_iff_not, not_lt]
    exact ⟨le_refl _, hle⟩

/-- Witness of C12: a bounding box 7 wide and 10 high, ratio exactly `0.7`. -/
theorem aspect_ratio_convention_witness :
    (⟨0, 0, 7, 10⟩ : Rect).height ≠ 0
    ∧ ¬ (⟨0, 0, 7, 10⟩ : Rect).area < Int.tdiv (⟨8, 8⟩ : Size).area 4
    ∧ inconsistent ⟨0, 0, 7, 10⟩ ⟨8, 8⟩ 4 (7 / 10) (13 / 10) = false :=
  ⟨by decide, by decide,
    (aspect_ratio_convention ⟨0, 0, 7, 10⟩ ⟨8, 8⟩ 4 (7 / 10) (13 / 10) (by decide)
      (by decide)).2.1 (by norm_num) (by norm_num)⟩

/-- C13, amended. For a positive `areaRatio` and a mask of non-negative area, a contour is
rejected whenever its bounding-box area is strictly less than the truncated integer
quotient of the mask area by `areaRatio`, that is, whenever the area plus one is at most
the exact quotient. -/
theorem area_rule_truncated (bound_rect : Rect) (size_image : Size) (areaRatio : Int)
    (lowAspectRatio highAspectRatio : ℚ) (hr : 0 < areaRatio) (hs : 0 ≤ size_image.area) :
    (bound_rect.area < Int.tdiv size_image.area areaRatio →
      inconsistent bound_rect size_image areaRatio lowAspectRatio highAspectRatio = true)
    ∧ (bound_rect.area < Int.tdiv size_image.area areaRatio
        ↔ (bound_rect.area : ℚ) + 1 ≤ (size_image.area : ℚ) / (areaRatio : ℚ)) := by
  constructor
  · intro h
    simp [inconsistent, h]
  · rw [Int.tdiv_eq_ediv hs hr.le]
    have hrq : (0 : ℚ) < (areaRatio : ℚ) := by exact_mod_cast hr
    rw [le_div_iff₀ hrq]
    constructor
    · intro h
      have h1 : bound_rect.area + 1 ≤ size_image.area / areaRatio := h
      have h2 := (Int.le_ediv_iff_mul_le hr).mp h1
      exact_mod_cast h2
    · intro h
      have h2 : (bound_rect.area + 1) * areaRatio ≤ size_image.area := by exact_mod_cast h
      have h1 := (Int.le_ediv_iff_mul_le hr).mpr h2
      omega

/-- Witness of C13, amended: a 1 x 1 box in an 8 x 8 mask with `areaRatio = 4`. -/
theorem area_rule_truncated_witness :
    (0 : Int) < 4 ∧ 0 ≤ (⟨8, 8⟩ : Size).area
    ∧ inconsistent ⟨0, 0, 1, 1⟩ ⟨8, 8⟩ 4 (7 / 10) (13 / 10) = true :=
  ⟨by decide, by decide,
    (area_rule_truncated ⟨0, 0, 1, 1⟩ ⟨8, 8⟩ 4 (7 / 10) (13 / 10) (by decide) (by decide)).1
      (by decide)⟩

/-- Counterexample to C13: a 2 x 2 bounding box (area 4) in a 3 x 3 mask with
`areaRatio = 2` has an area below the exact quotient `9 / 2`, but `9 / 2` is `4` in
integer arithmetic and the contour is not rejected; likewise the area 3 with mask area 10
and `areaRatio = 3` (aspect bounds 0 and 10). -/
theorem area_rule_counterexample :
    ((⟨0, 0, 2, 2⟩ : Rect).area : ℚ) < ((⟨3, 3⟩ : Size).area : ℚ) / ((2 : Int) : ℚ)
    ∧ inconsistent ⟨0, 0, 2, 2⟩ ⟨3, 3⟩ 2 (7 / 10) (13 / 10) = false
    ∧ ((⟨0, 0, 3, 1⟩ : Rect).area : ℚ) < ((⟨5, 2⟩ : Size).area : ℚ) / ((3 : Int) : ℚ)
    ∧ inconsistent ⟨0, 0, 3, 1⟩ ⟨5, 2⟩ 3 0 10 = false := by
  refine ⟨?_, ?_, ?_, ?_⟩
  · norm_num [Rect.area, Size.area]
  · rw [inconsistent_eq _ _ _ _ _ (by decide)]
    have h : Int.tdiv 9 2 = 4 := by decide
    norm_num [Rect.area, Size.area, h]
  · norm_num [Rect.area, Size.area]
  · rw [inconsistent_eq _ _ _ _ _ (by decide)]
    have h : Int.tdiv 10 3 = 3 := by decide
    norm_num [Rect.area, Size.area, h]

/-- C19 at a failing input: the only contour is rejected and erased, and the hierarchy of
the caller still holds its entry. -/
theorem removal_elt_hierarchy_unchanged :
    removal_elt boundingRect [[⟨0, 0⟩]] [⟨-1, -1, -1, -1⟩] ⟨8, 8⟩ 4 (7 / 10) (13 / 10)
      = .ok ([], [⟨-1, -1, -1, -1⟩]) := by
  rfl

/-! ### The normalised contour lies in the reference square -/

section ReferenceSquare

variable {α : Type} [LinearOrderedField α]

theorem abs_le_factor (contour : List (Point2f α)) (p : Point2f α) (hp : p ∈ contour) :
    |p.x| ≤ find_normalisation_factor contour ∧ |p.y| ≤ find_normalisation_factor contour := by
  cases contour with
  | nil => cases hp
  | cons q rest =>
    have hx := (minMaxIdx_max_spec (|q.x|) (rest.map (fun p => |p.x|))).1 (|p.x|) (by
      have := List.mem_map_of_mem (fun p : Point2f α => |p.x|) hp
      simpa using this)
    have hy := (minMaxIdx_max_spec (|q.y|) (rest.map (fun p => |p.y|))).1 (|p.y|) (by
      have := List.mem_map_of_mem (fun p : Point2f α => |p.y|) hp
      simpa using this)
    simp only [find_normalisation_factor, List.map_cons]
    exact ⟨le_trans hx (le_max_left _ _), le_trans hy (le_max_right _ _)⟩

theorem factor_attained (contour : List (Point2f α)) (hne : contour ≠ []) :
    ∃ p ∈ contour, |p.x| = find_normalisation_factor contour
      ∨ |p.y| = find_normalisation_factor contour := by
  cases contour with
  | nil => exact absurd rfl hne
  | cons q rest =>
    have hx := (minMaxIdx_max_spec (|q.x|) (rest.map (fun p => |p.x|))).2
    have hy := (minMaxIdx_max_spec (|q.y|) (rest.map (fun p => |p.y|))).2
    have hxm : minMaxIdx_max (|q.x| :: rest.map (fun p => |p.x|))
        ∈ (q :: rest).map (fun p => |p.x|) := by simpa using hx
    have hym : minMaxIdx_max (|q.y| :: rest.map (fun p => |p.y|))
        ∈ (q :: rest).map (fun p => |p.y|) := by simpa using hy
    simp only [find_normalisation_factor, List.map_cons]
    rcases max_choice (minMaxIdx_max (|q.x| :: rest.map (fun p => |p.x|)))
        (minMaxIdx_max (|q.y| :: rest.map (fun p => |p.y|))) with hm | hm
    · obtain ⟨p, hp, hpe⟩ := List.mem_map.mp hxm
      exact ⟨p, hp, Or.inl (by rw [hm]; exact hpe)⟩
    · obtain ⟨p, hp, hpe⟩ := List.mem_map.mp hym
      exact ⟨p, hp, Or.inr (by rw [hm]; exact hpe)⟩

/-- C20. For a non-empty contour with factor `f > 0`, `normalise_contour` yields a
contour all of whose points have `|x| ≤ 1` and `|y| ≤ 1`, and some coordinate of some
point has absolute value exactly `1`. -/
theorem normalise_contour_in_unit_square (contour : List (Point2f α)) (hne : contour ≠ [])
    (hf : 0 < find_normalisation_factor contour) :
    ∃ N, (normalise_contour contour).1 = .ok N
      ∧ (∀ q ∈ N, |q.x| ≤ 1 ∧ |q.y| ≤ 1)
      ∧ ∃ q ∈ N, |q.x| = 1 ∨ |q.y| = 1 := by
  have hscale : ∀ v : α, |v * (1 / find_normalisation_factor contour)|
      = |v| / find_normalisation_factor contour := by
    intro v
    rw [mul_one_div, abs_div, abs_of_pos hf]
  refine ⟨contour.map (fun p => ⟨p.x * (1 / find_normalisation_factor contour),
      p.y * (1 / find_normalisation_factor contour)⟩), ?_, ?_, ?_⟩
  · simp only [normalise_contour, FVal.div, hf.ne', if_false]
    exact scale_contour_fin _ contour
  · intro q hq
    obtain ⟨p, hp, hpq⟩ := List.mem_map.mp hq
    obtain ⟨hx, hy⟩ := abs_le_factor contour p hp
    rw [← hpq]
    simp only [hscale]
    exact ⟨(div_le_one hf).mpr hx, (div_le_one hf).mpr hy⟩
  · obtain ⟨p, hp, hpe⟩ := factor_attained contour hne
    refine ⟨_, List.mem_map_of_mem _ hp, ?_⟩
    simp only [hscale]
    rcases hpe with h | h
    · left
      rw [h]
      exact div_self hf.ne'
    · right
      rw [h]
      exact div_self hf.ne'

end ReferenceSquare

/-- Witness of C20: a two-point contour with factor 4. -/
theorem normalise_contour_in_unit_square_witness :
    ∃ N, (normalise_contour ([⟨3, -4⟩, ⟨1, 2⟩] : List (Point2f ℚ))).1 = .ok N
      ∧ (∀ q ∈ N, |q.x| ≤ 1 ∧ |q.y| ≤ 1)
      ∧ ∃ q ∈ N, |q.x| = 1 ∨ |q.y| = 1 :=
  normalise_contour_in_unit_square [⟨3, -4⟩, ⟨1, 2⟩] (by simp)
    (by norm_num [find_normalisation_factor, minMaxIdx_max])

/-! ### Orientation and scale of `correction_distortion` -/

theorem orientation_cases (mu11p mu20p mu02p : ℝ) :
    (mu11p = 0 → orientation mu11p mu20p mu02p = .fin 0)
    ∧ (mu11p ≠ 0 → mu20p - mu02p ≠ 0 →
        orientation mu11p mu20p mu02p
          = .fin (0.5 * Real.arctan (2 * mu11p / (mu20p - mu02p))))
    ∧ (0 < mu11p → mu20p - mu02p = 0 →
        orientation mu11p mu20p mu02p = .fin (0.5 * (Real.pi / 2)))
    ∧ (mu11p < 0 → mu20p - mu02p = 0 →
        orientation mu11p mu20p mu02p = .fin (0.5 * (-(Real.pi / 2)))) := by
  refine ⟨?_, ?_, ?_, ?_⟩
  · intro h
    simp only [orientation, h, ne_eq, not_true_eq_false, if_false]
    norm_num
  · intro h hd
    simp [orientation, h, FVal.div, hd, fatan, FVal.mul]
  · intro h hd
    have h2 : 2 * mu11p ≠ 0 := by linarith
    have h3 : 0 < 2 * mu11p := by linarith
    simp [orientation, h.ne', FVal.div, hd, h2, h3, fatan, FVal.mul]
  · intro h hd
    have h2 : 2 * mu11p ≠ 0 := by linarith
    have h3 : ¬ 0 < 2 * mu11p := by linarith
    simp [orientation, h.ne, FVal.div, hd, h2, h3, fatan, FVal.mul]

theorem correct_contour_inv (moments : List (Point2f ℝ) → Moments)
    (eigen : Matrix (Fin 2) (Fin 2) ℝ → ℝ × ℝ) (contour : List Point)
    (r s t : Matrix (Fin 3) (Fin 3) ℝ) (res : Corrected)
    (h : correct_contour moments eigen contour r s t = .ok res) :
    (moments (contour.map Point.toPoint2f)).m00 ≠ 0
    ∧ ∃ theta sx sy,
        orientation
          ((moments (contour.map Point.toPoint2f)).mu11
            / (moments (contour.map Point.toPoint2f)).m00)
          ((moments (contour.map Point.toPoint2f)).mu20
            / (moments (contour.map Point.toPoint2f)).m00)
          ((moments (contour.map Point.toPoint2f)).mu02
            / (moments (contour.map Point.toPoint2f)).m00) = .fin theta
        ∧ scale_entries (moments (contour.map Point.toPoint2f)).mu20
            (moments (contour.map Point.toPoint2f)).mu02
            (eigen (covariance (moments (contour.map Point.toPoint2f)))).1
            (eigen (covariance (moments (contour.map Point.toPoint2f)))).2
          = (.fin sx, .fin sy)
        ∧ res.rotation_matrix = write_rotation r theta
        ∧ res.scaling_matrix = write_scaling s sx sy
        ∧ res.translation_matrix = write_translation t
            ((moments (contour.map Point.toPoint2f)).m10
              / (moments (contour.map Point.toPoint2f)).m00)
            ((moments (contour.map Point.toPoint2f)).m01
              / (moments (contour.map Point.toPoint2f)).m00)
        ∧ res.contour = forward_transformation_contour contour res.rotation_matrix
            res.scaling_matrix res.translation_matrix := by
  have hm : (moments (contour.map Point.toPoint2f)).m00 ≠ 0 := by
    intro hz
    rw [correct_contour_m00_zero moments eigen contour r s t hz] at h
    cases h
  refine ⟨hm, ?_⟩
  obtain ⟨theta, hth⟩ := orientation_finite
    ((moments (contour.map Point.toPoint2f)).mu11 / (moments (contour.map Point.toPoint2f)).m00)
    ((moments (contour.map Point.toPoint2f)).mu20 / (moments (contour.map Point.toPoint2f)).m00)
    ((moments (contour.map Point.toPoint2f)).mu02 / (moments (contour.map Point.toPoint2f)).m00)
  rcases hsc : scale_entries (moments (contour.map Point.toPoint2f)).mu20
      (moments (contour.map Point.toPoint2f)).mu02
      (eigen (covariance (moments (contour.map Point.toPoint2f)))).1
      (eigen (covariance (moments (contour.map Point.toPoint2f)))).2 with ⟨a, b⟩
  have hbad : ∀ (x y : FVal ℝ), (x, y) = (a, b) →
      (x.toExcept = .error .nonFinite ∨ y.toExcept = .error .nonFinite) → False := by
    intro x y hxy hor
    have herr := bind_scale_error (a, b)
      (fun scale_x scale_y => (pure
        ⟨forward_transformation_contour contour (write_rotation r theta)
            (write_scaling s scale_x scale_y)
            (write_translation t
              ((moments (contour.map Point.toPoint2f)).m10
                / (moments (contour.map Point.toPoint2f)).m00)
              ((moments (contour.map Point.toPoint2f)).m01
                / (moments (contour.map Point.toPoint2f)).m00)),
          write_rotation r theta, write_scaling s scale_x scale_y,
          write_translation t
            ((moments (contour.map Point.toPoint2f)).m10
              / (moments (contour.map Point.toPoint2f)).m00)
            ((moments (contour.map Point.toPoint2f)).m01
              / (moments (contour.map Point.toPoint2f)).m00)⟩ : Except Fault Corrected))
      (by
        have h1 := (Prod.mk.inj hxy).1
        have h2 := (Prod.mk.inj hxy).2
        subst h1
        subst h2
        exact hor)
    have hcc : correct_contour moments eigen contour r s t = .error .nonFinite := by
      rw [← herr]
      unfold correct_contour
      simp only [fdiv_toExcept_of_ne _ _ hm, hth, toExcept_fin, ok_bind]
      have hsc' : scale_entries (moments (contour.map Point.toPoint2f)).mu20
          (moments (contour.map Point.toPoint2f)).mu02
          (eigen !![(moments (contour.map Point.toPoint2f)).mu20
                / (moments (contour.map Point.toPoint2f)).m00,
              (moments (contour.map Point.toPoint2f)).mu11
                / (moments (contour.map Point.toPoint2f)).m00;
              (moments (contour.map Point.toPoint2f)).mu11
                / (moments (contour.map Point.toPoint2f)).m00,
              (moments (contour.map Point.toPoint2f)).mu02
                / (moments (contour.map Point.toPoint2f)).m00]).1
          (eigen !![(moments (contour.map Point.toPoint2f)).mu20
                / (moments (contour.map Point.toPoint2f)).m00,
              (moments (contour.map Point.toPoint2f)).mu11
                / (moments (contour.map Point.toPoint2f)).m00;
              (moments (contour.map Point.toPoint2f)).mu11
                / (moments (contour.map Point.toPoint2f)).m00,
              (moments (contour.map Point.toPoint2f)).mu02
                / (moments (contour.map Point.toPoint2f)).m00]).2 = (a, b) := hsc
      rw [hsc']
    rw [hcc] at h
    cases h
  cases a with
  | fin sx =>
    cases b with
    | fin sy =>
      have hok := correct_contour_ok moments eigen contour r s t theta sx sy hm hth hsc
      rw [hok] at h
      have hres := Except.ok.inj h
      refine ⟨theta, sx, sy, hth, rfl, ?_, ?_, ?_, ?_⟩ <;> rw [← hres]
    | pinf => exact (hbad _ _ rfl (Or.inr rfl)).elim
    | ninf => exact (hbad _ _ rfl (Or.inr rfl)).elim
    | nan => exact (hbad _ _ rfl (Or.inr rfl)).elim
  | pinf => exact (hbad _ _ rfl (Or.inl rfl)).elim
  | ninf => exact (hbad _ _ rfl (Or.inl rfl)).elim
  | nan => exact (hbad _ _ rfl (Or.inl rfl)).elim

theorem write_rotation_block (r : Matrix (Fin 3) (Fin 3) ℝ) (theta : ℝ) :
    write_rotation r theta 0 0 = Real.cos theta ∧ write_rotation r theta 0 1 = - Real.sin theta
    ∧ write_rotation r theta 1 0 = Real.sin theta
    ∧ write_rotation r theta 1 1 = Real.cos theta := by
  refine ⟨?_, ?_, ?_, ?_⟩ <;> simp [write_rotation, mat_set]

theorem write_scaling_diag (s : Matrix (Fin 3) (Fin 3) ℝ) (sx sy : ℝ) :
    write_scaling s sx sy 0 0 = sx ∧ write_scaling s sx sy 1 1 = sy := by
  refine ⟨?_, ?_⟩ <;> simp [write_scaling, mat_set]

/-- C14, amended. The guard of the orientation step tests `mu11p`, not the denominator:
in every successful run of the loop body the rotation matrix is written for `theta = 0`
when `mu11p = 0`, for `theta = 0.5 * atan(2 * mu11p / (mu20p - mu02p))` when `mu11p ≠ 0`
and the denominator is not zero, and, when `mu11p ≠ 0` and the denominator is zero, for
`theta = 0.5 * (±pi / 2)`, the quotient being plus or minus infinity. -/
theorem orientation_guard_on_mu11p (moments : List (Point2f ℝ) → Moments)
    (eigen : Matrix (Fin 2) (Fin 2) ℝ → ℝ × ℝ) (contour : List Point)
    (r s t : Matrix (Fin 3) (Fin 3) ℝ) (res : Corrected)
    (h : correct_contour moments eigen contour r s t = .ok res) :
    ((moments (contour.map Point.toPoint2f)).mu11
        / (moments (contour.map Point.toPoint2f)).m00 = 0 →
      res.rotation_matrix = write_rotation r 0)
    ∧ ((moments (contour.map Point.toPoint2f)).mu11
        / (moments (contour.map Point.toPoint2f)).m00 ≠ 0 →
      (moments (contour.map Point.toPoint2f)).mu20
          / (moments (contour.map Point.toPoint2f)).m00
        - (moments (contour.map Point.toPoint2f)).mu02
          / (moments (contour.map Point.toPoint2f)).m00 ≠ 0 →
      res.rotation_matrix = write_rotation r
        (0.5 * Real.arctan (2 * ((moments (contour.map Point.toPoint2f)).mu11
            / (moments (contour.map Point.toPoint2f)).m00)
          / ((moments (contour.map Point.toPoint2f)).mu20
              / (moments (contour.map Point.toPoint2f)).m00
            - (moments (contour.map Point.toPoint2f)).mu02
              / (moments (contour.map Point.toPoint2f)).m00))))
    ∧ (0 < (moments (contour.map Point.toPoint2f)).mu11
          / (moments (contour.map Point.toPoint2f)).m00 →
      (moments (contour.map Point.toPoint2f)).mu20
          / (moments (contour.map Point.toPoint2f)).m00
        - (moments (contour.map Point.toPoint2f)).mu02
          / (moments (contour.map Point.toPoint2f)).m00 = 0 →
      res.rotation_matrix = write_rotation r (0.5 * (Real.pi / 2)))
    ∧ ((moments (contour.map Point.toPoint2f)).mu11
          / (moments (contour.map Point.toPoint2f)).m00 < 0 →
      (moments (contour.map Point.toPoint2f)).mu20
          / (moments (contour.map Point.toPoint2f)).m00
        - (moments (contour.map Point.toPoint2f)).mu02
          / (moments (contour.map Point.toPoint2f)).m00 = 0 →
      res.rotation_matrix = write_rotation r (0.5 * (-(Real.pi / 2)))) := by
  obtain ⟨_, theta, sx, sy, hth, _, hrot, _, _, _⟩ :=
    correct_contour_inv moments eigen contour r s t res h
  obtain ⟨c1, c2, c3, c4⟩ := orientation_cases
    ((moments (contour.map Point.toPoint2f)).mu11 / (moments (contour.map Point.toPoint2f)).m00)
    ((moments (contour.map Point.toPoint2f)).mu20 / (moments (contour.map Point.toPoint2f)).m00)
    ((moments (contour.map Point.toPoint2f)).mu02 / (moments (contour.map Point.toPoint2f)).m00)
  refine ⟨?_, ?_, ?_, ?_⟩
  · intro h1
    rw [hrot, FVal.fin.inj (hth.symm.trans (c1 h1))]
  · intro h1 h2
    rw [hrot, FVal.fin.inj (hth.symm.trans (c2 h1 h2))]
  · intro h1 h2
    rw [hrot, FVal.fin.inj (hth.symm.trans (c3 h1 h2))]
  · intro h1 h2
    rw [hrot, FVal.fin.inj (hth.symm.trans (c4 h1 h2))]

theorem correct_contour_example_ok (m : Moments) (l0 l1 : ℝ) (hm : m.m00 ≠ 0)
    (h0 : 0 < l0) (h1 : 0 < l1) :
    ∃ res, correct_contour (fun _ => m) (fun _ => (l0, l1)) [] 0 0 0 = .ok res := by
  obtain ⟨theta, hth⟩ := orientation_finite (m.mu11 / m.m00) (m.mu20 / m.m00) (m.mu02 / m.m00)
  have hsc := scale_entries_pos m.mu20 m.mu02 l0 l1 h0 h1
  by_cases hb : m.mu20 > m.mu02
  · simp only [hb, if_true] at hsc
    exact ⟨_, correct_contour_ok (fun _ => m) (fun _ => (l0, l1)) [] 0 0 0 theta _ _ hm hth hsc⟩
  · simp only [hb, if_false] at hsc
    exact ⟨_, correct_contour_ok (fun _ => m) (fun _ => (l0, l1)) [] 0 0 0 theta _ _ hm hth hsc⟩

/-- Witness of C14, amended: moments with `mu11p = 1` and `mu20p = mu02p = 2`. -/
theorem orientation_guard_on_mu11p_witness :
    ∃ res, correct_contour (fun _ => ⟨1, 0, 0, 2, 1, 2⟩) (fun _ => (3, 1)) [] 0 0 0 = .ok res
      ∧ res.rotation_matrix = write_rotation 0 (0.5 * (Real.pi / 2)) := by
  obtain ⟨res, hres⟩ := correct_contour_example_ok ⟨1, 0, 0, 2, 1, 2⟩ 3 1 (by norm_num)
    (by norm_num) (by norm_num)
  exact ⟨res, hres, (orientation_guard_on_mu11p _ _ _ _ _ _ res hres).2.2.1
    (by norm_num) (by norm_num)⟩

/-- Counterexample to C14: for `mu11p = 1` and `mu20p = mu02p = 2` the denominator is `0`,
the quotient `2 / 0` is evaluated and is infinite, and the orientation is
`0.5 * (pi / 2)`, not `0`: the rotation matrix holds `sin(theta) ≠ 0`. -/
theorem orientation_guard_counterexample :
    (2 : ℝ) / 1 - 2 / 1 = 0
    ∧ orientation (1 / 1) (2 / 1) (2 / 1) = .fin (0.5 * (Real.pi / 2))
    ∧ (0.5 * (Real.pi / 2) : ℝ) ≠ 0
    ∧ ∃ res, correct_contour (fun _ => ⟨1, 0, 0, 2, 1, 2⟩) (fun _ => (3, 1)) [] 0 0 0 = .ok res
        ∧ res.rotation_matrix 1 0 ≠ 0 := by
  have hor : orientation ((1 : ℝ) / 1) (2 / 1) (2 / 1) = .fin (0.5 * (Real.pi / 2)) :=
    (orientation_cases (1 / 1) (2 / 1) (2 / 1)).2.2.1 (by norm_num) (by norm_num)
  have hpi := Real.pi_pos
  refine ⟨by norm_num, hor, by positivity, ?_⟩
  obtain ⟨res, hres⟩ := correct_contour_example_ok ⟨1, 0, 0, 2, 1, 2⟩ 3 1 (by norm_num)
    (by norm_num) (by norm_num)
  refine ⟨res, hres, ?_⟩
  obtain ⟨_, theta, sx, sy, hth, _, hrot, _, _, _⟩ :=
    correct_contour_inv _ _ _ _ _ _ res hres
  have hth2 : theta = 0.5 * (Real.pi / 2) := FVal.fin.inj (hth.symm.trans hor)
  rw [hrot, (write_rotation_block 0 theta).2.2.1, hth2]
  apply ne_of_gt
  apply Real.sin_pos_of_pos_of_lt_pi
  · positivity
  · nlinarith

/-- C18. Whenever the normalised mixed moment `mu11p` is `0`, `correction_distortion`
takes `theta = 0` without a division, whatever `mu20p` and `mu02p` are (also when they
are equal), and the rotation block it writes is the identity: `cos = 1`, `sin = 0`. -/
theorem orientation_symmetry (moments : List (Point2f ℝ) → Moments)
    (eigen : Matrix (Fin 2) (Fin 2) ℝ → ℝ × ℝ) (contour : List Point)
    (r s t : Matrix (Fin 3) (Fin 3) ℝ) (res : Corrected)
    (h : correct_contour moments eigen contour r s t = .ok res)
    (hmu : (moments (contour.map Point.toPoint2f)).mu11
        / (moments (contour.map Point.toPoint2f)).m00 = 0) :
    (∀ mu20p mu02p : ℝ, orientation 0 mu20p mu02p = .fin 0)
    ∧ orientation
        ((moments (contour.map Point.toPoint2f)).mu11
          / (moments (contour.map Point.toPoint2f)).m00)
        ((moments (contour.map Point.toPoint2f)).mu20
          / (moments (contour.map Point.toPoint2f)).m00)
        ((moments (contour.map Point.toPoint2f)).mu02
          / (moments (contour.map Point.toPoint2f)).m00) = .fin 0
    ∧ res.rotation_matrix 0 0 = 1 ∧ res.rotation_matrix 0 1 = 0
    ∧ res.rotation_matrix 1 0 = 0 ∧ res.rotation_matrix 1 1 = 1 := by
  obtain ⟨_, theta, sx, sy, hth, _, hrot, _, _, _⟩ :=
    correct_contour_inv moments eigen contour r s t res h
  have hzero : ∀ a b : ℝ, orientation 0 a b = .fin 0 :=
    fun a b => (orientation_cases 0 a b).1 rfl
  have hor := hth
  rw [hmu] at hor
  have hth0 : theta = 0 := FVal.fin.inj (hor.symm.trans (hzero _ _))
  obtain ⟨b00, b01, b10, b11⟩ := write_rotation_block r theta
  refine ⟨hzero, ?_, ?_, ?_, ?_, ?_⟩
  · rw [hmu]
    exact hzero _ _
  · rw [hrot, b00, hth0, Real.cos_zero]
  · rw [hrot, b01, hth0, Real.sin_zero, neg_zero]
  · rw [hrot, b10, hth0, Real.sin_zero]
  · rw [hrot, b11, hth0, Real.cos_zero]

/-- Witness of C18: circular moments `mu20p = mu02p = 2`, `mu11p = 0`. -/
theorem orientation_symmetry_witness :
    ∃ res, correct_contour (fun _ => ⟨1, 0, 0, 2, 0, 2⟩) (fun _ => (2, 2)) [] 0 0 0 = .ok res
      ∧ res.rotation_matrix 0 0 = 1 ∧ res.rotation_matrix 0 1 = 0
      ∧ res.rotation_matrix 1 0 = 0 ∧ res.rotation_matrix 1 1 = 1 := by
  obtain ⟨res, hres⟩ := correct_contour_example_ok ⟨1, 0, 0, 2, 0, 2⟩ 2 2 (by norm_num)
    (by norm_num) (by norm_num)
  exact ⟨res, hres, (orientation_symmetry _ _ _ _ _ _ res hres (by norm_num)).2.2⟩

/-- C17. For an axis-aligned blob (`mu11 = 0`, moments with `m00 > 0`) with `mu20p > 0`,
`mu02p > 0` and the eigenvalues of the covariance matrix returned in descending order,
`correction_distortion` succeeds and the scaling matrix it writes satisfies
`scale.y / scale.x = sqrt(mu20p / mu02p)`, whichever branch of the `mu20 > mu02` test is
taken; hence `scale.x ≠ scale.y` when `mu20p ≠ mu02p`, and both are `1` when
`mu20p = mu02p`. -/
theorem scale_ratio_axis_aligned (moments : List (Point2f ℝ) → Moments)
    (eigen : Matrix (Fin 2) (Fin 2) ℝ → ℝ × ℝ) (contour : List Point)
    (r s t : Matrix (Fin 3) (Fin 3) ℝ) (l0 l1 : ℝ)
    (hm : 0 < (moments (contour.map Point.toPoint2f)).m00)
    (hmu : (moments (contour.map Point.toPoint2f)).mu11 = 0)
    (h20 : 0 < (moments (contour.map Point.toPoint2f)).mu20
        / (moments (contour.map Point.toPoint2f)).m00)
    (h02 : 0 < (moments (contour.map Point.toPoint2f)).mu02
        / (moments (contour.map Point.toPoint2f)).m00)
    (heig : eigen (covariance (moments (contour.map Point.toPoint2f))) = (l0, l1))
    (hl : l1 ≤ l0)
    (htr : l0 + l1 = (moments (contour.map Point.toPoint2f)).mu20
          / (moments (contour.map Point.toPoint2f)).m00
        + (moments (contour.map Point.toPoint2f)).mu02
          / (moments (contour.map Point.toPoint2f)).m00)
    (hdet : l0 * l1 = (moments (contour.map Point.toPoint2f)).mu20
          / (moments (contour.map Point.toPoint2f)).m00
        * ((moments (contour.map Point.toPoint2f)).mu02
          / (moments (contour.map Point.toPoint2f)).m00)
        - ((moments (contour.map Point.toPoint2f)).mu11
          / (moments (contour.map Point.toPoint2f)).m00) ^ 2) :
    ∃ res, correct_contour moments eigen contour r s t = .ok res
      ∧ res.scaling_matrix 1 1 / res.scaling_matrix 0 0
          = Real.sqrt ((moments (contour.map Point.toPoint2f)).mu20
              / (moments (contour.map Point.toPoint2f)).m00
            / ((moments (contour.map Point.toPoint2f)).mu02
              / (moments (contour.map Point.toPoint2f)).m00))
      ∧ ((moments (contour.map Point.toPoint2f)).mu20
            / (moments (contour.map Point.toPoint2f)).m00
          ≠ (moments (contour.map Point.toPoint2f)).mu02
            / (moments (contour.map Point.toPoint2f)).m00 →
          res.scaling_matrix 0 0 ≠ res.scaling_matrix 1 1)
      ∧ ((moments (contour.map Point.toPoint2f)).mu20
            / (moments (contour.map Point.toPoint2f)).m00
          = (moments (contour.map Point.toPoint2f)).mu02
            / (moments (contour.map Point.toPoint2f)).m00 →
          res.scaling_matrix 0 0 = 1 ∧ res.scaling_matrix 1 1 = 1) := by
  have hb : (moments (contour.map Point.toPoint2f)).mu11
      / (moments (contour.map Point.toPoint2f)).m00 = 0 := by rw [hmu, zero_div]
  have hdet0 : l0 * l1 = (moments (contour.map Point.toPoint2f)).mu20
        / (moments (contour.map Point.toPoint2f)).m00
      * ((moments (contour.map Point.toPoint2f)).mu02
        / (moments (contour.map Point.toPoint2f)).m00) := by
    rw [hdet, hb]
    ring
  have hprod : 0 < l0 * l1 := by
    rw [hdet0]
    exact mul_pos h20 h02
  have hl1 : 0 < l1 := by
    by_contra hneg
    have hl1' : l1 ≤ 0 := not_lt.mp hneg
    have hl0 : 0 < l0 := by linarith
    nlinarith
  obtain ⟨theta, hth⟩ := orientation_finite
    ((moments (contour.map Point.toPoint2f)).mu11 / (moments (contour.map Point.toPoint2f)).m00)
    ((moments (contour.map Point.toPoint2f)).mu20 / (moments (contour.map Point.toPoint2f)).m00)
    ((moments (contour.map Point.toPoint2f)).mu02 / (moments (contour.map Point.toPoint2f)).m00)
  obtain ⟨sx, sy, hsc, hsx, hsy, hax⟩ := scale_entries_spec
    (moments (contour.map Point.toPoint2f)).mu20 (moments (contour.map Point.toPoint2f)).mu02
    (moments (contour.map Point.toPoint2f)).m00 l0 l1
    ((moments (contour.map Point.toPoint2f)).mu11 / (moments (contour.map Point.toPoint2f)).m00)
    hm hl hl1 htr hdet
  obtain ⟨hx, hy⟩ := hax hb
  have hok := correct_contour_ok moments eigen contour r s t theta sx sy hm.ne' hth
    (by
      have he : eigen !![(moments (contour.map Point.toPoint2f)).mu20
              / (moments (contour.map Point.toPoint2f)).m00,
            (moments (contour.map Point.toPoint2f)).mu11
              / (moments (contour.map Point.toPoint2f)).m00;
            (moments (contour.map Point.toPoint2f)).mu11
              / (moments (contour.map Point.toPoint2f)).m00,
            (moments (contour.map Point.toPoint2f)).mu02
              / (moments (contour.map Point.toPoint2f)).m00] = (l0, l1) := heig
      rw [he]
      exact hsc)
  refine ⟨_, hok, ?_⟩
  simp only [(write_scaling_diag s sx sy).1, (write_scaling_diag s sx sy).2]
  have hg : 0 < Real.sqrt (l0 * l1) := Real.sqrt_pos.mpr hprod
  have hxy : sx ^ 2 * ((moments (contour.map Point.toPoint2f)).mu20
        / (moments (contour.map Point.toPoint2f)).m00)
      = sy ^ 2 * ((moments (contour.map Point.toPoint2f)).mu02
        / (moments (contour.map Point.toPoint2f)).m00) := by rw [hx, hy]
  refine ⟨?_, ?_, ?_⟩
  · have hsq : (moments (contour.map Point.toPoint2f)).mu20
          / (moments (contour.map Point.toPoint2f)).m00
        / ((moments (contour.map Point.toPoint2f)).mu02
          / (moments (contour.map Point.toPoint2f)).m00) = (sy / sx) ^ 2 := by
      rw [div_pow, div_eq_div_iff h02.ne' (pow_pos hsx 2).ne']
      linear_combination hxy
    rw [hsq, Real.sqrt_sq (div_pos hsy hsx).le]
  · intro hne heq
    apply hne
    rw [heq] at hxy
    exact mul_left_cancel₀ (pow_pos hsy 2).ne' hxy
  · intro heq
    have hgd : Real.sqrt (l0 * l1) = (moments (contour.map Point.toPoint2f)).mu02
        / (moments (contour.map Point.toPoint2f)).m00 := by
      rw [hdet0, heq, ← pow_two, Real.sqrt_sq h02.le]
    have hsx1 : sx ^ 2 = 1 := by
      rw [heq, hgd] at hx
      exact mul_right_cancel₀ h02.ne' (by rw [hx, one_mul])
    have hsy1 : sy ^ 2 = 1 := by
      rw [hgd] at hy
      exact mul_right_cancel₀ h02.ne' (by rw [hy, one_mul])
    constructor
    · nlinarith
    · nlinarith

/-- Witness of C17: `mu20p = 4`, `mu02p = 1`, eigenvalues `4` and `1`. -/
theorem scale_ratio_axis_aligned_witness :
    ∃ res, correct_contour (fun _ => ⟨1, 0, 0, 4, 0, 1⟩) (fun _ => (4, 1)) [] 0 0 0 = .ok res
      ∧ res.scaling_matrix 1 1 / res.scaling_matrix 0 0 = Real.sqrt ((4 : ℝ) / 1 / (1 / 1)) :=
  (scale_ratio_axis_aligned (fun _ => ⟨1, 0, 0, 4, 0, 1⟩) (fun _ => (4, 1)) [] 0 0 0 4 1
    (by norm_num) rfl (by norm_num) (by norm_num) rfl (by norm_num) (by norm_num)
    (by norm_num)).imp (fun _ h => ⟨h.1, h.2.1⟩)

/-! ### The matrices written by `correction_distortion` -/

theorem one_literal : (1.00 : ℝ) = 1 := by norm_num

theorem write_rotation_entries (r : Matrix (Fin 3) (Fin 3) ℝ) (theta : ℝ) :
    write_rotation r theta
      = !![Real.cos theta, - Real.sin theta, r 0 2;
           Real.sin theta, Real.cos theta, r 1 2;
           r 2 0, r 2 1, 1] := by
  ext i j
  fin_cases i <;> fin_cases j <;> simp [write_rotation, mat_set, one_literal]

theorem write_scaling_entries (s : Matrix (Fin 3) (Fin 3) ℝ) (sx sy : ℝ) :
    write_scaling s sx sy
      = !![sx, s 0 1, s 0 2;
           s 1 0, sy, s 1 2;
           s 2 0, s 2 1, 1] := by
  ext i j
  fin_cases i <;> fin_cases j <;> simp [write_scaling, mat_set, one_literal]

theorem write_translation_entries (t : Matrix (Fin 3) (Fin 3) ℝ) (xbar ybar : ℝ) :
    write_translation t xbar ybar
      = !![1, t 0 1, - xbar;
           t 1 0, 1, - ybar;
           t 2 0, t 2 1, 1] := by
  ext i j
  fin_cases i <;> fin_cases j <;> simp [write_translation, mat_set, one_literal]

theorem correct_contour_pos_ok (moments : List (Point2f ℝ) → Moments)
    (eigen : Matrix (Fin 2) (Fin 2) ℝ → ℝ × ℝ) (contour : List Point)
    (r s t : Matrix (Fin 3) (Fin 3) ℝ)
    (hm : (moments (contour.map Point.toPoint2f)).m00 ≠ 0)
    (h0 : 0 < (eigen (covariance (moments (contour.map Point.toPoint2f)))).1)
    (h1 : 0 < (eigen (covariance (moments (contour.map Point.toPoint2f)))).2) :
    ∃ res, correct_contour moments eigen contour r s t = .ok res := by
  obtain ⟨theta, hth⟩ := orientation_finite
    ((moments (contour.map Point.toPoint2f)).mu11 / (moments (contour.map Point.toPoint2f)).m00)
    ((moments (contour.map Point.toPoint2f)).mu20 / (moments (contour.map Point.toPoint2f)).m00)
    ((moments (contour.map Point.toPoint2f)).mu02 / (moments (contour.map Point.toPoint2f)).m00)
  have hsc := scale_entries_pos (moments (contour.map Point.toPoint2f)).mu20
    (moments (contour.map Point.toPoint2f)).mu02 _ _ h0 h1
  by_cases hb : (moments (contour.map Point.toPoint2f)).mu20
      > (moments (contour.map Point.toPoint2f)).mu02
  · simp only [hb, if_true] at hsc
    exact ⟨_, correct_contour_ok moments eigen contour r s t theta _ _ hm hth hsc⟩
  · simp only [hb, if_false] at hsc
    exact ⟨_, correct_contour_ok moments eigen contour r s t theta _ _ hm hth hsc⟩

theorem composite_at_mass_center (theta sx sy xbar ybar : ℝ) :
    (write_rotation 0 theta * write_scaling 0 sx sy * write_translation 0 xbar ybar).mulVec
        ![xbar, ybar, 1] = ![0, 0, 1] := by
  rw [write_rotation_entries, write_scaling_entries, write_translation_entries]
  ext i
  fin_cases i
  · simp [Matrix.mulVec, Matrix.dotProduct, Matrix.mul_apply, Fin.sum_univ_three,
      Matrix.vecHead, Matrix.vecTail]
    ring
  · simp [Matrix.mulVec, Matrix.dotProduct, Matrix.mul_apply, Fin.sum_univ_three,
      Matrix.vecHead, Matrix.vecTail]
    ring
  · simp [Matrix.mulVec, Matrix.dotProduct, Matrix.mul_apply, Fin.sum_univ_three,
      Matrix.vecHead, Matrix.vecTail]

theorem translation_mulVec (xbar ybar : ℝ) (p : Point) :
    (write_translation 0 xbar ybar).mulVec (homogeneous p)
      = ![(p.x : ℝ) - xbar, (p.y : ℝ) - ybar, 1] := by
  rw [write_translation_entries]
  ext i
  fin_cases i <;>
    simp [Matrix.mulVec, Matrix.dotProduct, Fin.sum_univ_three, homogeneous,
      Matrix.vecHead, Matrix.vecTail, sub_eq_add_neg]

/-- C21. For a contour with `m00 ≠ 0` and zero-initialised matrices, every run of the loop
body of `correction_distortion` that stores finite values builds a composite
`Rotation * Scale * Translation` that maps the mass center `(xbar, ybar, 1)` to
`(0, 0, 1)`, and every output point is `Rotation * Scale` applied to `p - (xbar, ybar)`;
the run stores finite values whenever both eigenvalues are positive. -/
theorem mass_center_to_origin (moments : List (Point2f ℝ) → Moments)
    (eigen : Matrix (Fin 2) (Fin 2) ℝ → ℝ × ℝ) (contour : List Point)
    (hm : (moments (contour.map Point.toPoint2f)).m00 ≠ 0) :
    (∀ res, correct_contour moments eigen contour 0 0 0 = .ok res →
      (res.rotation_matrix * res.scaling_matrix * res.translation_matrix).mulVec
          ![(moments (contour.map Point.toPoint2f)).m10
              / (moments (contour.map Point.toPoint2f)).m00,
            (moments (contour.map Point.toPoint2f)).m01
              / (moments (contour.map Point.toPoint2f)).m00, 1] = ![0, 0, 1]
      ∧ res.contour = contour.map (fun p =>
          ⟨((res.rotation_matrix * res.scaling_matrix).mulVec
              ![(p.x : ℝ) - (moments (contour.map Point.toPoint2f)).m10
                  / (moments (contour.map Point.toPoint2f)).m00,
                (p.y : ℝ) - (moments (contour.map Point.toPoint2f)).m01
                  / (moments (contour.map Point.toPoint2f)).m00, 1]) 0,
            ((res.rotation_matrix * res.scaling_matrix).mulVec
              ![(p.x : ℝ) - (moments (contour.map Point.toPoint2f)).m10
                  / (moments (contour.map Point.toPoint2f)).m00,
                (p.y : ℝ) - (moments (contour.map Point.toPoint2f)).m01
                  / (moments (contour.map Point.toPoint2f)).m00, 1]) 1⟩))
    ∧ (0 < (eigen (covariance (moments (contour.map Point.toPoint2f)))).1 →
        0 < (eigen (covariance (moments (contour.map Point.toPoint2f)))).2 →
        ∃ res, correct_contour moments eigen contour 0 0 0 = .ok res) := by
  refine ⟨?_, fun h0 h1 => correct_contour_pos_ok moments eigen contour 0 0 0 hm h0 h1⟩
  intro res h
  obtain ⟨_, theta, sx, sy, _, _, hrot, hscl, htrl, hcont⟩ :=
    correct_contour_inv moments eigen contour 0 0 0 res h
  refine ⟨?_, ?_⟩
  · rw [hrot, hscl, htrl]
    exact composite_at_mass_center theta sx sy _ _
  · rw [hcont]
    unfold forward_transformation_contour
    simp only []
    rw [transform_points_eq_map]
    apply List.map_congr_left
    intro p _
    rw [← Matrix.mulVec_mulVec, htrl, translation_mulVec]

/-- Witness of C21: the rectangle `[0, 4] x [0, 2]`, of area `8`, mass center `(2, 1)`
and eigenvalues `4 / 3` and `1 / 3`. -/
theorem mass_center_to_origin_witness :
    ∃ res, correct_contour (fun _ => ⟨8, 16, 8, 32 / 3, 0, 8 / 3⟩) (fun _ => (4 / 3, 1 / 3))
        [⟨0, 0⟩, ⟨4, 0⟩, ⟨4, 2⟩, ⟨0, 2⟩] 0 0 0 = .ok res
      ∧ (res.rotation_matrix * res.scaling_matrix * res.translation_matrix).mulVec
          ![(16 : ℝ) / 8, (8 : ℝ) / 8, 1] = ![0, 0, 1] := by
  have hthm := mass_center_to_origin (fun _ => ⟨8, 16, 8, 32 / 3, 0, 8 / 3⟩)
    (fun _ => (4 / 3, 1 / 3)) [⟨0, 0⟩, ⟨4, 0⟩, ⟨4, 2⟩, ⟨0, 2⟩] (by norm_num)
  obtain ⟨res, hres⟩ := hthm.2 (by norm_num) (by norm_num)
  exact ⟨res, hres, (hthm.1 res hres).1⟩

/-! ### Entries that `correction_distortion` does not write -/

/-- C22, amended. `correction_distortion` assigns five entries of the rotation matrix,
three of the scaling matrix and five of the translation matrix; every other entry keeps
the value the caller's matrix held before the call. The three matrices are the ones of
the specification when the matrices were zero before the call. -/
theorem matrices_keep_unwritten_entries (moments : List (Point2f ℝ) → Moments)
    (eigen : Matrix (Fin 2) (Fin 2) ℝ → ℝ × ℝ) (contour : List Point)
    (r s t : Matrix (Fin 3) (Fin 3) ℝ) (res : Corrected)
    (h : correct_contour moments eigen contour r s t = .ok res) :
    ∃ theta sx sy,
      orientation
          ((moments (contour.map Point.toPoint2f)).mu11
            / (moments (contour.map Point.toPoint2f)).m00)
          ((moments (contour.map Point.toPoint2f)).mu20
            / (moments (contour.map Point.toPoint2f)).m00)
          ((moments (contour.map Point.toPoint2f)).mu02
            / (moments (contour.map Point.toPoint2f)).m00) = .fin theta
      ∧ scale_entries (moments (contour.map Point.toPoint2f)).mu20
          (moments (contour.map Point.toPoint2f)).mu02
          (eigen (covariance (moments (contour.map Point.toPoint2f)))).1
          (eigen (covariance (moments (contour.map Point.toPoint2f)))).2
        = (.fin sx, .fin sy)
      ∧ res.rotation_matrix
          = !![Real.cos theta, - Real.sin theta, r 0 2;
               Real.sin theta, Real.cos theta, r 1 2;
               r 2 0, r 2 1, 1]
      ∧ res.scaling_matrix
          = !![sx, s 0 1, s 0 2;
               s 1 0, sy, s 1 2;
               s 2 0, s 2 1, 1]
      ∧ res.translation_matrix
          = !![1, t 0 1, - ((moments (contour.map Point.toPoint2f)).m10
                  / (moments (contour.map Point.toPoint2f)).m00);
               t 1 0, 1, - ((moments (contour.map Point.toPoint2f)).m01
                  / (moments (contour.map Point.toPoint2f)).m00);
               t 2 0, t 2 1, 1]
      ∧ (r = 0 → res.rotation_matrix
          = !![Real.cos theta, - Real.sin theta, 0;
               Real.sin theta, Real.cos theta, 0;
               0, 0, 1])
      ∧ (s = 0 → res.scaling_matrix = !![sx, 0, 0; 0, sy, 0; 0, 0, 1])
      ∧ (t = 0 → res.translation_matrix
          = !![1, 0, - ((moments (contour.map Point.toPoint2f)).m10
                  / (moments (contour.map Point.toPoint2f)).m00);
               0, 1, - ((moments (contour.map Point.toPoint2f)).m01
                  / (moments (contour.map Point.toPoint2f)).m00);
               0, 0, 1]) := by
  obtain ⟨_, theta, sx, sy, hth, hsc, hrot, hscl, htrl, _⟩ :=
    correct_contour_inv moments eigen contour r s t res h
  refine ⟨theta, sx, sy, hth, hsc, ?_, ?_, ?_, ?_, ?_, ?_⟩
  · rw [hrot, write_rotation_entries]
  · rw [hscl, write_scaling_entries]
  · rw [htrl, write_translation_entries]
  · intro hr
    rw [hrot, write_rotation_entries, hr]
    rfl
  · intro hs
    rw [hscl, write_scaling_entries, hs]
    rfl
  · intro ht
    rw [htrl, write_translation_entries, ht]
    rfl

/-- Witness of C22, amended: zero matrices and the square `[0, 2] x [0, 2]`, of area `4`,
mass center `(1, 1)` and eigenvalues `1 / 3` and `1 / 3`. -/
theorem matrices_keep_unwritten_entries_witness :
    ∃ res, correct_contour (fun _ => ⟨4, 4, 4, 4 / 3, 0, 4 / 3⟩) (fun _ => (1 / 3, 1 / 3))
        [⟨0, 0⟩, ⟨2, 0⟩, ⟨2, 2⟩, ⟨0, 2⟩] 0 0 0 = .ok res
      ∧ res.translation_matrix = !![1, 0, - ((4 : ℝ) / 4); 0, 1, - ((4 : ℝ) / 4); 0, 0, 1] := by
  obtain ⟨res, hres⟩ := correct_contour_pos_ok (fun _ => ⟨4, 4, 4, 4 / 3, 0, 4 / 3⟩)
    (fun _ => (1 / 3, 1 / 3)) [⟨0, 0⟩, ⟨2, 0⟩, ⟨2, 2⟩, ⟨0, 2⟩] 0 0 0
    (by norm_num) (by norm_num) (by norm_num)
  obtain ⟨_, _, _, _, _, _, _, _, _, _, ht⟩ :=
    matrices_keep_unwritten_entries _ _ _ _ _ _ res hres
  exact ⟨res, hres, ht rfl⟩

/-- Counterexample to C22: the same contour with matrices that hold `1` in every entry
before the call. After the call the entries `(0, 2)` of the rotation matrix, `(0, 1)` of the
scaling matrix and `(1, 0)` of the translation matrix are still `1`, where the claim has
`0`. -/
theorem matrices_unwritten_counterexample :
    ∃ res, correct_contour (fun _ => ⟨4, 4, 4, 4 / 3, 0, 4 / 3⟩) (fun _ => (1 / 3, 1 / 3))
        [⟨0, 0⟩, ⟨2, 0⟩, ⟨2, 2⟩, ⟨0, 2⟩] (fun _ _ => 1) (fun _ _ => 1) (fun _ _ => 1) = .ok res
      ∧ res.rotation_matrix 0 2 = 1 ∧ res.rotation_matrix 0 2 ≠ 0
      ∧ res.scaling_matrix 0 1 = 1 ∧ res.scaling_matrix 0 1 ≠ 0
      ∧ res.translation_matrix 1 0 = 1 ∧ res.translation_matrix 1 0 ≠ 0 := by
  obtain ⟨res, hres⟩ := correct_contour_pos_ok (fun _ => ⟨4, 4, 4, 4 / 3, 0, 4 / 3⟩)
    (fun _ => (1 / 3, 1 / 3)) [⟨0, 0⟩, ⟨2, 0⟩, ⟨2, 2⟩, ⟨0, 2⟩]
    (fun _ _ => 1) (fun _ _ => 1) (fun _ _ => 1) (by norm_num) (by norm_num) (by norm_num)
  obtain ⟨_, theta, sx, sy, _, _, hrot, hscl, htrl, _⟩ :=
    correct_contour_inv _ _ _ _ _ _ res hres
  have h1 : res.rotation_matrix 0 2 = 1 := by
    rw [hrot]
    simp [write_rotation, mat_set]
  have h2 : res.scaling_matrix 0 1 = 1 := by
    rw [hscl]
    simp [write_scaling, mat_set]
  have h3 : res.translation_matrix 1 0 = 1 := by
    rw [htrl]
    simp [write_translation, mat_set]
  refine ⟨res, hres, h1, ?_, h2, ?_, h3, ?_⟩
  · rw [h1]; exact one_ne_zero
  · rw [h2]; exact one_ne_zero
  · rw [h3]; exact one_ne_zero

/-! ### The scale factors have product one -/

theorem scale_product_one (l0 l1 : ℝ) (h0 : 0 < l0) (h1 : 0 < l1) :
    0 < (l0 * l1) ^ (0.25 : ℝ) / Real.sqrt l0
    ∧ 0 < (l0 * l1) ^ (0.25 : ℝ) / Real.sqrt l1
    ∧ ((l0 * l1) ^ (0.25 : ℝ) / Real.sqrt l0) * ((l0 * l1) ^ (0.25 : ℝ) / Real.sqrt l1) = 1 := by
  have hp : 0 < l0 * l1 := mul_pos h0 h1
  have hq : 0 < (l0 * l1) ^ (0.25 : ℝ) := Real.rpow_pos_of_pos hp _
  have hs0 : 0 < Real.sqrt l0 := Real.sqrt_pos.mpr h0
  have hs1 : 0 < Real.sqrt l1 := Real.sqrt_pos.mpr h1
  refine ⟨div_pos hq hs0, div_pos hq hs1, ?_⟩
  have hsq := quarter_sq (l0 * l1) hp.le
  rw [Real.sqrt_mul h0.le] at hsq
  rw [div_mul_div_comm, ← pow_two, hsq]
  exact div_self (mul_pos hs0 hs1).ne'

theorem det_scaling_zero (sx sy : ℝ) : (write_scaling 0 sx sy).det = sx * sy := by
  rw [write_scaling_entries, Matrix.det_fin_three]
  simp [Matrix.vecHead, Matrix.vecTail]

theorem det_rotation_zero (theta : ℝ) : (write_rotation 0 theta).det = 1 := by
  rw [write_rotation_entries, Matrix.det_fin_three]
  simp [Matrix.vecHead, Matrix.vecTail]
  have := Real.sin_sq_add_cos_sq theta
  nlinarith

theorem det_translation_zero (xbar ybar : ℝ) : (write_translation 0 xbar ybar).det = 1 := by
  rw [write_translation_entries, Matrix.det_fin_three]
  simp [Matrix.vecHead, Matrix.vecTail]

/-- C25. For a contour with `m00 ≠ 0` whose covariance matrix has the eigenvalues
`l0 > 0` and `l1 > 0`, `correction_distortion` succeeds and, in either branch of the
`mu20 > mu02` test and whatever the matrices held before, writes positive scale factors
with `scale.x * scale.y = 1`. With zero-initialised matrices the scaling matrix has
determinant `1` and so has the composite `Rotation * Scale * Translation`, which is
therefore invertible. -/
theorem scale_factors_area_preserving (moments : List (Point2f ℝ) → Moments)
    (eigen : Matrix (Fin 2) (Fin 2) ℝ → ℝ × ℝ) (contour : List Point)
    (r s t : Matrix (Fin 3) (Fin 3) ℝ) (l0 l1 : ℝ)
    (hm : (moments (contour.map Point.toPoint2f)).m00 ≠ 0)
    (heig : eigen (covariance (moments (contour.map Point.toPoint2f))) = (l0, l1))
    (h0 : 0 < l0) (h1 : 0 < l1) :
    ∃ res, correct_contour moments eigen contour r s t = .ok res
      ∧ ((moments (contour.map Point.toPoint2f)).mu20
            > (moments (contour.map Point.toPoint2f)).mu02 →
          res.scaling_matrix 0 0 = (l0 * l1) ^ (0.25 : ℝ) / Real.sqrt l0
          ∧ res.scaling_matrix 1 1 = (l0 * l1) ^ (0.25 : ℝ) / Real.sqrt l1)
      ∧ (¬ (moments (contour.map Point.toPoint2f)).mu20
            > (moments (contour.map Point.toPoint2f)).mu02 →
          res.scaling_matrix 0 0 = (l0 * l1) ^ (0.25 : ℝ) / Real.sqrt l1
          ∧ res.scaling_matrix 1 1 = (l0 * l1) ^ (0.25 : ℝ) / Real.sqrt l0)
      ∧ 0 < res.scaling_matrix 0 0 ∧ 0 < res.scaling_matrix 1 1
      ∧ res.scaling_matrix 0 0 * res.scaling_matrix 1 1 = 1
      ∧ (s = 0 → res.scaling_matrix.det = 1)
      ∧ (r = 0 → s = 0 → t = 0 →
          (res.rotation_matrix * res.scaling_matrix * res.translation_matrix).det = 1
          ∧ mat_inv (res.rotation_matrix * res.scaling_matrix * res.translation_matrix)
              * (res.rotation_matrix * res.scaling_matrix * res.translation_matrix) = 1) := by
  have h0' : 0 < (eigen (covariance (moments (contour.map Point.toPoint2f)))).1 := by
    rw [heig]; exact h0
  have h1' : 0 < (eigen (covariance (moments (contour.map Point.toPoint2f)))).2 := by
    rw [heig]; exact h1
  obtain ⟨res, hres⟩ := correct_contour_pos_ok moments eigen contour r s t hm h0' h1'
  obtain ⟨_, theta, sx, sy, _, hsc, hrot, hscl, htrl, _⟩ :=
    correct_contour_inv moments eigen contour r s t res hres
  rw [heig, scale_entries_pos _ _ l0 l1 h0 h1] at hsc
  obtain ⟨p0, p1, pp⟩ := scale_product_one l0 l1 h0 h1
  have hS00 : res.scaling_matrix 0 0 = sx := by rw [hscl]; exact (write_scaling_diag s sx sy).1
  have hS11 : res.scaling_matrix 1 1 = sy := by rw [hscl]; exact (write_scaling_diag s sx sy).2
  have hbranch1 : (moments (contour.map Point.toPoint2f)).mu20
        > (moments (contour.map Point.toPoint2f)).mu02 →
      sx = (l0 * l1) ^ (0.25 : ℝ) / Real.sqrt l0 ∧ sy = (l0 * l1) ^ (0.25 : ℝ) / Real.sqrt l1 := by
    intro hb
    simp only [hb, if_true] at hsc
    have h := Prod.mk.inj hsc
    exact ⟨(FVal.fin.inj h.1).symm, (FVal.fin.inj h.2).symm⟩
  have hbranch2 : ¬ (moments (contour.map Point.toPoint2f)).mu20
        > (moments (contour.map Point.toPoint2f)).mu02 →
      sx = (l0 * l1) ^ (0.25 : ℝ) / Real.sqrt l1 ∧ sy = (l0 * l1) ^ (0.25 : ℝ) / Real.sqrt l0 := by
    intro hb
    simp only [hb, if_false] at hsc
    have h := Prod.mk.inj hsc
    exact ⟨(FVal.fin.inj h.1).symm, (FVal.fin.inj h.2).symm⟩
  have hpos : 0 < sx ∧ 0 < sy ∧ sx * sy = 1 := by
    by_cases hb : (moments (contour.map Point.toPoint2f)).mu20
        > (moments (contour.map Point.toPoint2f)).mu02
    · obtain ⟨e1, e2⟩ := hbranch1 hb
      rw [e1, e2]
      exact ⟨p0, p1, pp⟩
    · obtain ⟨e1, e2⟩ := hbranch2 hb
      rw [e1, e2]
      exact ⟨p1, p0, by rw [mul_comm]; exact pp⟩
  have hdetS : s = 0 → res.scaling_matrix.det = 1 := by
    intro hs
    rw [hscl, hs, det_scaling_zero]
    exact hpos.2.2
  refine ⟨res, hres, ?_, ?_, ?_, ?_, ?_, hdetS, ?_⟩
  · intro hb
    rw [hS00, hS11]
    exact hbranch1 hb
  · intro hb
    rw [hS00, hS11]
    exact hbranch2 hb
  · rw [hS00]; exact hpos.1
  · rw [hS11]; exact hpos.2.1
  · rw [hS00, hS11]; exact hpos.2.2
  · intro hr hs ht
    have hdet : (res.rotation_matrix * res.scaling_matrix * res.translation_matrix).det = 1 := by
      rw [Matrix.det_mul, Matrix.det_mul, hdetS hs, hrot, hr, det_rotation_zero, htrl, ht,
        det_translation_zero]
      norm_num
    refine ⟨hdet, mat_inv_mul _ ?_⟩
    rw [hdet]
    exact one_ne_zero

/-- Witness of C25: the rectangle `[0, 4] x [0, 2]` (`mu20 = 32 / 3 > mu02 = 8 / 3`,
eigenvalues `4 / 3` and `1 / 3`) with zero matrices. -/
theorem scale_factors_area_preserving_witness :
    ∃ res, correct_contour (fun _ => ⟨8, 16, 8, 32 / 3, 0, 8 / 3⟩) (fun _ => (4 / 3, 1 / 3))
        [⟨0, 0⟩, ⟨4, 0⟩, ⟨4, 2⟩, ⟨0, 2⟩] 0 0 0 = .ok res
      ∧ res.scaling_matrix 0 0 * res.scaling_matrix 1 1 = 1
      ∧ res.scaling_matrix.det = 1
      ∧ (res.rotation_matrix * res.scaling_matrix * res.translation_matrix).det = 1 := by
  obtain ⟨res, hres, _, _, _, _, hprod, hdetS, hdet⟩ :=
    scale_factors_area_preserving (fun _ => ⟨8, 16, 8, 32 / 3, 0, 8 / 3⟩)
      (fun _ => (4 / 3, 1 / 3)) [⟨0, 0⟩, ⟨4, 0⟩, ⟨4, 2⟩, ⟨0, 2⟩]
      0 0 0 (4 / 3) (1 / 3) (by norm_num) rfl (by norm_num) (by norm_num)
  exact ⟨res, hres, hprod, hdetS rfl, (hdet rfl rfl rfl).1⟩

/-! ### The walk does not depend on the keep test -/

theorem hull_walk_mono (near1 near2 : Point → Point → Point → Bool) (hull : List Point)
    (hle : ∀ po pf pc, near1 po pf pc = true → near2 po pf pc = true) :
    ∀ (contour : List Point) (hull_idx : Int) (cur next : Point) (acc1 acc2 : List Point),
      acc1.Sublist acc2 →
      (∀ e, hull_walk near1 hull contour hull_idx cur next acc1 = .error e →
          hull_walk near2 hull contour hull_idx cur next acc2 = .error e)
      ∧ (∀ o1, hull_walk near1 hull contour hull_idx cur next acc1 = .ok o1 →
          ∃ o2, hull_walk near2 hull contour hull_idx cur next acc2 = .ok o2
            ∧ o1.Sublist o2) := by
  intro contour
  induction contour with
  | nil =>
    intro hull_idx cur next acc1 acc2 hsub
    unfold hull_walk
    refine ⟨fun e h => (by cases h), fun o1 h => ⟨acc2, rfl, ?_⟩⟩
    rw [← Except.ok.inj h]
    exact hsub
  | cons p rest ih =>
    intro hull_idx cur next acc1 acc2 hsub
    have hacc : (if near1 cur next p = true then acc1 ++ [p] else acc1).Sublist
        (if near2 cur next p = true then acc2 ++ [p] else acc2) := by
      by_cases h1 : near1 cur next p = true
      · have h2 := hle _ _ _ h1
        simp only [h1, h2, if_true]
        exact hsub.append (List.Sublist.refl _)
      · by_cases h2 : near2 cur next p = true
        · simp only [h1, h2, if_true, if_false]
          exact hsub.trans (List.sublist_append_left _ _)
        · simp only [h1, h2, if_false]
          exact hsub
    simp only [hull_walk]
    by_cases he : next = p
    · subst he
      simp only [if_true]
      cases hg : vecGet hull hull_idx.toNat with
      | error e =>
        exact ⟨fun e2 h => h, fun o1 h => by cases h⟩
      | ok c =>
        simp only []
        cases hg2 : vecGet hull (prev_hull_idx hull_idx hull.length).toNat with
        | error e =>
          exact ⟨fun e2 h => h, fun o1 h => by cases h⟩
        | ok n =>
          exact ih _ c n _ _ hacc
    · simp only [he, if_false]
      exact ih hull_idx cur next _ _ hacc

theorem threshold_contour_mono (near1 near2 : Point → Point → Point → Bool)
    (hle : ∀ po pf pc, near1 po pf pc = true → near2 po pf pc = true)
    (hull contour : List Point) :
    (∀ e, threshold_contour near1 hull contour = .error e →
        threshold_contour near2 hull contour = .error e)
    ∧ (∀ o1, threshold_contour near1 hull contour = .ok o1 →
        ∃ o2, threshold_contour near2 hull contour = .ok o2 ∧ o1.Sublist o2) := by
  unfold threshold_contour
  cases h0 : vecGet hull 0 with
  | error e => exact ⟨fun e2 h => h, fun o1 h => by cases h⟩
  | ok c =>
    simp only []
    cases h1 : vecGet contour 0 with
    | error e => exact ⟨fun e2 h => h, fun o1 h => by cases h⟩
    | ok q =>
      simp only []
      cases h2 : hull_search hull q hull.length 0 c with
      | error e => exact ⟨fun e2 h => h, fun o1 h => by cases h⟩
      | ok r =>
        obtain ⟨k, c2⟩ := r
        simp only []
        cases h3 : vecGet hull (prev_hull_idx (k : Int) hull.length).toNat with
        | error e => exact ⟨fun e2 h => h, fun o1 h => by cases h⟩
        | ok n =>
          exact hull_walk_mono near1 near2 hull hle contour _ c2 n [] [] (List.Sublist.refl _)

theorem contours_thresholding_from_mono (near1 near2 : Point → Point → Point → Bool)
    (hle : ∀ po pf pc, near1 po pf pc = true → near2 po pf pc = true)
    (hull_contours : List (List Point)) :
    ∀ (contours : List (List Point)) (contour_idx : Nat) (final1 final2 : List (List Point)),
      List.Forall₂ List.Sublist final1 final2 →
      (∀ e, contours_thresholding_from near1 hull_contours contours contour_idx final1 = .error e →
          contours_thresholding_from near2 hull_contours contours contour_idx final2 = .error e)
      ∧ (∀ o1, contours_thresholding_from near1 hull_contours contours contour_idx final1 = .ok o1 →
          ∃ o2, contours_thresholding_from near2 hull_contours contours contour_idx final2 = .ok o2
            ∧ List.Forall₂ List.Sublist o1 o2) := by
  intro contours
  induction contours with
  | nil =>
    intro contour_idx final1 final2 hf
    unfold contours_thresholding_from
    refine ⟨fun e h => (by cases h), fun o1 h => ⟨final2, rfl, ?_⟩⟩
    rw [← Except.ok.inj h]
    exact hf
  | cons c rest ih =>
    intro contour_idx final1 final2 hf
    simp only [contours_thresholding_from]
    cases hv : vecGet hull_contours contour_idx with
    | error e => exact ⟨fun e2 h => h, fun o1 h => by cases h⟩
    | ok hull =>
      simp only []
      obtain ⟨m1, m2⟩ := threshold_contour_mono near1 near2 hle hull c
      cases ht : threshold_contour near1 hull c with
      | error e =>
        rw [m1 e ht]
        exact ⟨fun e2 h => h, fun o1 h => by cases h⟩
      | ok g1 =>
        obtain ⟨g2, hg2, hsub⟩ := m2 g1 ht
        rw [hg2]
        simp only []
        exact ih (contour_idx + 1) _ _
          (List.rel_append hf (List.Forall₂.cons hsub List.Forall₂.nil))

theorem near_hull_edge_mono (t1 t2 : ℝ) (h : t1 ≤ t2) (po pf pc : Point)
    (h1 : near_hull_edge t1 po pf pc = true) : near_hull_edge t2 po pf pc = true := by
  unfold near_hull_edge at h1 ⊢
  cases hd : distance po pf pc with
  | fin v =>
    rw [hd] at h1
    simp only [FVal.lt, decide_eq_true_eq] at h1 ⊢
    exact lt_of_lt_of_le h1 h
  | pinf => rw [hd] at h1; simp [FVal.lt] at h1
  | ninf => rfl
  | nan => rw [hd] at h1; simp [FVal.lt] at h1

theorem near_hull_edge_nonpos (t : ℝ) (ht : t ≤ 0) (po pf pc : Point) :
    near_hull_edge t po pf pc = false := by
  unfold near_hull_edge
  by_cases h : po = pf
  · subst h
    rw [distance_degenerate]
    rfl
  · rw [distance_eq_cross po pf pc h]
    simp only [FVal.lt, decide_eq_false_iff_not, not_lt]
    exact le_trans ht (div_nonneg (abs_nonneg _) (Real.sqrt_nonneg _))

theorem hull_walk_none (near : Point → Point → Point → Bool) (hull : List Point)
    (hno : ∀ po pf pc, near po pf pc = false) :
    ∀ (contour : List Point) (hull_idx : Int) (cur next : Point) (acc out : List Point),
      hull_walk near hull contour hull_idx cur next acc = .ok out → out = acc := by
  intro contour
  induction contour with
  | nil =>
    intro hull_idx cur next acc out h
    simp only [hull_walk] at h
    exact (Except.ok.inj h).symm
  | cons p rest ih =>
    intro hull_idx cur next acc out h
    simp only [hull_walk, hno, Bool.false_eq_true, if_false] at h
    by_cases he : next = p
    · subst he
      simp only [if_true] at h
      cases hg : vecGet hull hull_idx.toNat with
      | error e => rw [hg] at h; cases h
      | ok c =>
        rw [hg] at h
        simp only [] at h
        cases hg2 : vecGet hull (prev_hull_idx hull_idx hull.length).toNat with
        | error e => rw [hg2] at h; cases h
        | ok n =>
          rw [hg2] at h
          exact ih _ c n acc out h
    · simp only [he, if_false] at h
      exact ih hull_idx cur next acc out h

theorem threshold_contour_none (near : Point → Point → Point → Bool)
    (hno : ∀ po pf pc, near po pf pc = false) (hull contour out : List Point)
    (h : threshold_contour near hull contour = .ok out) : out = [] := by
  unfold threshold_contour at h
  cases h0 : vecGet hull 0 with
  | error e => rw [h0] at h; cases h
  | ok c =>
    rw [h0] at h
    simp only [] at h
    cases h1 : vecGet contour 0 with
    | error e => rw [h1] at h; cases h
    | ok q =>
      rw [h1] at h
      simp only [] at h
      cases h2 : hull_search hull q hull.length 0 c with
      | error e => rw [h2] at h; cases h
      | ok r =>
        obtain ⟨k, c2⟩ := r
        rw [h2] at h
        simp only [] at h
        cases h3 : vecGet hull (prev_hull_idx (k : Int) hull.length).toNat with
        | error e => rw [h3] at h; cases h
        | ok n =>
          rw [h3] at h
          exact hull_walk_none near hull hno contour _ c2 n [] out h

theorem contours_thresholding_from_get (near : Point → Point → Point → Bool)
    (hull_contours : List (List Point)) :
    ∀ (contours : List (List Point)) (contour_idx : Nat) (final out : List (List Point)),
      contours_thresholding_from near hull_contours contours contour_idx final = .ok out →
      ∃ outs, out = final ++ outs ∧ outs.length = contours.length
        ∧ ∀ (i : Nat) (hi : i < contours.length), ∃ hull good,
            hull_contours[contour_idx + i]? = some hull
            ∧ threshold_contour near hull (contours.get ⟨i, hi⟩) = .ok good
            ∧ outs[i]? = some good := by
  intro contours
  induction contours with
  | nil =>
    intro contour_idx final out h
    simp only [contours_thresholding_from] at h
    refine ⟨[], by simpa using (Except.ok.inj h).symm, rfl, ?_⟩
    intro i hi
    exact absurd hi (Nat.not_lt_zero i)
  | cons c rest ih =>
    intro contour_idx final out h
    unfold contours_thresholding_from at h
    cases hv : vecGet hull_contours contour_idx with
    | error e => rw [hv] at h; cases h
    | ok hull =>
      rw [hv] at h
      simp only [] at h
      cases ht : threshold_contour near hull c with
      | error e => rw [ht] at h; cases h
      | ok good =>
        rw [ht] at h
        simp only [] at h
        obtain ⟨outs, ho, hlen, hget⟩ := ih (contour_idx + 1) (final ++ [good]) out h
        have hH : hull_contours[contour_idx]? = some hull := by
          unfold vecGet at hv
          cases hg : hull_contours[contour_idx]? with
          | none => rw [hg] at hv; cases hv
          | some b =>
            rw [hg] at hv
            rw [Except.ok.inj hv]
        refine ⟨good :: outs, by simp [ho], by simp [hlen], ?_⟩
        intro i hi
        cases i with
        | zero => exact ⟨hull, good, by simpa using hH, by simpa using ht, by simp⟩
        | succ j =>
          obtain ⟨hull2, good2, h1, h2, h3⟩ := hget j (by simpa using hi)
          refine ⟨hull2, good2, ?_, by simpa using h2, by simpa using h3⟩
          rw [← h1]
          congr 1
          omega

/-- C24. `contours_thresholding` is monotone in the threshold: for `t1 ≤ t2` the run with
`t2` ends as the run with `t1` does (the same fault, or a result), and each output
contour for `t1` is a subsequence of the output contour for `t2` at the same position; the
runs return when the first point of every contour is in its hull. For a threshold
`t ≤ 0` every output contour is empty. -/
theorem contours_thresholding_monotone (hull_contours contours : List (List Point))
    (t1 t2 : ℝ) (h12 : t1 ≤ t2) :
    (∀ e, contours_thresholding hull_contours contours t1 = .error e →
        contours_thresholding hull_contours contours t2 = .error e)
    ∧ (∀ o1, contours_thresholding hull_contours contours t1 = .ok o1 →
        ∃ o2, contours_thresholding hull_contours contours t2 = .ok o2
          ∧ List.Forall₂ List.Sublist o1 o2)
    ∧ ((∀ i (hi : i < contours.length), ∃ hull p rest,
          hull_contours[i]? = some hull ∧ contours.get ⟨i, hi⟩ = p :: rest ∧ p ∈ hull) →
        ∃ o1 o2, contours_thresholding hull_contours contours t1 = .ok o1
          ∧ contours_thresholding hull_contours contours t2 = .ok o2
          ∧ List.Forall₂ List.Sublist o1 o2)
    ∧ (∀ t : ℝ, t ≤ 0 → ∀ o, contours_thresholding hull_contours contours t = .ok o →
        o = List.replicate contours.length []) := by
  obtain ⟨m1, m2⟩ := contours_thresholding_from_mono (near_hull_edge t1) (near_hull_edge t2)
    (near_hull_edge_mono t1 t2 h12) hull_contours contours 0 [] [] List.Forall₂.nil
  refine ⟨m1, m2, ?_, ?_⟩
  · intro hmatch
    obtain ⟨o1, ho1, _⟩ := contours_thresholding_from_sublist
      (near_hull_edge t1) hull_contours contours 0 []
      (by intro i hi; simpa using hmatch i hi)
    simp only [List.nil_append] at ho1
    obtain ⟨o2, ho2, hsub⟩ := m2 o1 ho1
    exact ⟨o1, o2, ho1, ho2, hsub⟩
  · intro t ht o ho
    obtain ⟨outs, hout, hlen, hget⟩ := contours_thresholding_from_get
      (near_hull_edge t) hull_contours contours 0 [] o ho
    simp only [List.nil_append] at hout
    subst hout
    apply List.ext_getElem?
    intro i
    by_cases hi : i < contours.length
    · obtain ⟨hull, good, _, hthr, hgood⟩ := hget i hi
      have hnil := threshold_contour_none (near_hull_edge t)
        (near_hull_edge_nonpos t ht) hull _ good hthr
      rw [hgood, hnil]
      simp [List.getElem?_replicate, hi]
    · rw [List.getElem?_eq_none (by omega), List.getElem?_eq_none (by simp; omega)]

/-- Witness of C24: a triangle that is its own hull, thresholds `1` and `2`. -/
theorem contours_thresholding_monotone_witness :
    (1 : ℝ) ≤ 2
    ∧ ∃ o1 o2, contours_thresholding [[⟨0, 0⟩, ⟨0, 3⟩, ⟨4, 0⟩]] [[⟨0, 0⟩, ⟨4, 0⟩, ⟨0, 3⟩]] 1
          = .ok o1
        ∧ contours_thresholding [[⟨0, 0⟩, ⟨0, 3⟩, ⟨4, 0⟩]] [[⟨0, 0⟩, ⟨4, 0⟩, ⟨0, 3⟩]] 2 = .ok o2
        ∧ List.Forall₂ List.Sublist o1 o2 :=
  ⟨by norm_num,
    (contours_thresholding_monotone [[⟨0, 0⟩, ⟨0, 3⟩, ⟨4, 0⟩]] [[⟨0, 0⟩, ⟨4, 0⟩, ⟨0, 3⟩]] 1 2
      (by norm_num)).2.2.1 (by
        intro i hi
        have hi0 : i = 0 := by simpa using hi
        subst hi0
        exact ⟨_, _, _, rfl, rfl, by decide⟩)⟩

/-! ### Points on the current hull edge are kept -/

end imageprocessing
